import Mathlib

/-!
# IcebergOrderBook: a shallow embedding of the matching engine

The development follows `Order.h`, `OrderBook.h` and `OrderBook.cpp`.

* `uint32_t` values are natural numbers.  Every subtraction in the source is
  guarded (`min`, `%`, or a preceding comparison) and every sum of traded
  quantities is bounded by the quantity of the incoming order, so no operation
  wraps.
* `std::unordered_map` is an association list with unique keys
  (`mapFind`, `mapErase`, `mapSet`).
* `std::priority_queue<Price>` is the list of the prices it holds; `heapTop`
  picks the extreme element for the side and `heapPop` removes one occurrence
  of it.
* `std::list<Order>` is a list of nodes.  A `std::list` iterator is the
  identity of a node: each node carries a number `iter` that is never reused
  (`OrderBook.nextIter` is the allocation counter).
* The `while` loop of `AddOrderInternal` is `matchLoop`, the iteration of its
  body `matchStep`, bounded by a fuel argument; running out of fuel is `none`.
-/

namespace IcebergOrderBook

/-- Side of an order (`enum class OrderSide`). -/
inductive OrderSide where
  | SELL
  | BUY
deriving DecidableEq, Repr

/-- The `Order` record of `Order.h`; `quantity` is the visible quantity. -/
structure Order where
  price : Nat
  quantity : Nat
  hiddenQuantity : Nat
  peakSize : Nat
  id : Nat
  side : OrderSide
deriving DecidableEq, Repr

/-- The constructor of `Order`: `hiddenQuantity` starts at 0. -/
def Order.create (orderPrice orderQuantity orderId : Nat) (orderSide : OrderSide)
    (orderPeakSize : Nat) : Order :=
  Order.mk orderPrice orderQuantity 0 orderPeakSize orderId orderSide

/-- A node of a `std::list<Order>`; `iter` is the identity an iterator denotes. -/
structure ListNode where
  iter : Nat
  order : Order
deriving DecidableEq, Repr

/-- The queue of one price level (`TimeOrderList`), front first. -/
abbrev TimeOrderList := List ListNode

/-- Lookup in an association list: `unordered_map::find`. -/
def mapFind {β : Type} : List (Nat × β) → Nat → Option β
  | [], _ => none
  | e :: rest, k => if e.1 = k then some e.2 else mapFind rest k

/-- Removal of a key: `unordered_map::erase(key)`. -/
def mapErase {β : Type} (m : List (Nat × β)) (k : Nat) : List (Nat × β) :=
  m.filter (fun e => !(e.1 == k))

/-- Assignment through `operator[]`: overwrite the entry of `k`, or create it. -/
def mapSet {β : Type} : List (Nat × β) → Nat → β → List (Nat × β)
  | [], k, v => [(k, v)]
  | e :: rest, k, v => if e.1 = k then (k, v) :: rest else e :: mapSet rest k v

/-- The other side. -/
def OrderSide.opposite : OrderSide → OrderSide
  | OrderSide.SELL => OrderSide.BUY
  | OrderSide.BUY => OrderSide.SELL

/-- The element `priority_queue::top` yields: the highest price of a buy heap
(`std::less`), the lowest price of a sell heap (`std::greater`). -/
def heapTop : OrderSide → List Nat → Nat
  | _, [] => 0
  | OrderSide.BUY, p :: ps => ps.foldr max p
  | OrderSide.SELL, p :: ps => ps.foldr min p

/-- Removal of the top: `priority_queue::pop`. -/
def heapPop (side : OrderSide) (h : List Nat) : List Nat :=
  h.erase (heapTop side h)

/-- Insertion of a price: `priority_queue::push`. -/
def heapPush (h : List Nat) (p : Nat) : List Nat :=
  p :: h

/-- The state of `class OrderBook`. -/
structure OrderBook where
  orderMap_ : List (Nat × TimeOrderList)
  buyOrderHeap_ : List Nat
  sellOrderHeap_ : List Nat
  orders_ : List (Nat × Nat)
  nextIter : Nat
deriving DecidableEq, Repr

/-- The book built by `OrderBook()`. -/
def OrderBook.empty : OrderBook :=
  OrderBook.mk [] [] [] [] 0

/-- The heap of a side. -/
def OrderBook.heap (b : OrderBook) : OrderSide → List Nat
  | OrderSide.BUY => b.buyOrderHeap_
  | OrderSide.SELL => b.sellOrderHeap_

/-- Replace the heap of a side. -/
def OrderBook.setHeap (b : OrderBook) (side : OrderSide) (h : List Nat) : OrderBook :=
  match side with
  | OrderSide.BUY => { b with buyOrderHeap_ := h }
  | OrderSide.SELL => { b with sellOrderHeap_ := h }

/-- `MatchPriceComparator<side>(fromBook, p)`. -/
def MatchPriceComparator : OrderSide → Nat → Nat → Bool
  | OrderSide.SELL, fromBook, p => decide (fromBook ≥ p)
  | OrderSide.BUY, fromBook, p => decide (fromBook ≤ p)

/-- `OrderIdMatch<side>(fromBook, id)`: the two ids of a trade line, in print order. -/
def OrderIdMatch : OrderSide → Nat → Nat → Nat × Nat
  | OrderSide.SELL, fromBook, id => (fromBook, id)
  | OrderSide.BUY, fromBook, id => (id, fromBook)

/-- One `M <first> <second> <price> <quantity>` output line. -/
structure Trade where
  first : Nat
  second : Nat
  price : Nat
  quantity : Nat
deriving DecidableEq, Repr

/-- The arguments of one call of `AddMatchTrade`: one fill of a resting order. -/
structure Fill where
  id : Nat
  price : Nat
  quantity : Nat
deriving DecidableEq, Repr

/-- `AddMatchTrade` on the pair (`matchOrderQuantityMap`, `matchOrderQueue`). -/
def AddMatchTrade (acc : List (Nat × Nat) × List (Nat × Nat)) (fromBookId fromBookPrice
    quantityTrade : Nat) : List (Nat × Nat) × List (Nat × Nat) :=
  match mapFind acc.1 fromBookId with
  | none => (mapSet acc.1 fromBookId quantityTrade, acc.2 ++ [(fromBookId, fromBookPrice)])
  | some q => (mapSet acc.1 fromBookId (q + quantityTrade), acc.2)

/-- `PrintTrades<side>`: one line per entry of `matchOrderQueue`
(`matchOrderQuantityMap[id]` is 0 for an id without entry). -/
def PrintTrades (side : OrderSide) (matchOrderQuantityMap : List (Nat × Nat))
    (matchOrderQueue : List (Nat × Nat)) (order : Order) : List Trade :=
  matchOrderQueue.map (fun e =>
    Trade.mk (OrderIdMatch side e.1 order.id).1 (OrderIdMatch side e.1 order.id).2 e.2
      ((mapFind matchOrderQuantityMap e.1).getD 0))

/-- The variables of the `while` loop of `AddOrderInternal`.  `fills` is a ghost
trace of the calls of `AddMatchTrade`; nothing reads it. -/
structure MatchState where
  book : OrderBook
  tempQuantity : Nat
  matchOrderQuantityMap : List (Nat × Nat)
  matchOrderQueue : List (Nat × Nat)
  fills : List Fill
deriving DecidableEq, Repr

/-- The statements `orderMap_.erase(currentBestPrice); oppositeOrderHeap.pop();`
of `AddOrderInternal<side>`. -/
def dropLevel (side : OrderSide) (b : OrderBook) (currentBestPrice : Nat) : OrderBook :=
  ({ b with orderMap_ := mapErase b.orderMap_ currentBestPrice }).setHeap side.opposite
    (heapPop side.opposite (b.heap side.opposite))

/-- The replenishment of an iceberg order whose visible quantity reached 0:
`quantity = min(hiddenQuantity, peakSize); hiddenQuantity -= quantity`. -/
def refillOrder (o : Order) : Order :=
  { o with quantity := min o.hiddenQuantity o.peakSize,
           hiddenQuantity := o.hiddenQuantity - min o.hiddenQuantity o.peakSize }

/-- The book after the front node `front` of the level `currentBestPrice`
(`rest` being the nodes behind it) traded `quantityTraded`: the statement
`highestPriorityOrderIter->quantity -= quantityTraded` and the block
`if (highestPriorityOrderIter->quantity == 0)`. -/
def fillFront (side : OrderSide) (b : OrderBook) (currentBestPrice : Nat) (front : ListNode)
    (rest : TimeOrderList) (quantityTraded : Nat) : OrderBook :=
  let reduced : Order := { front.order with quantity := front.order.quantity - quantityTraded }
  if reduced.quantity = 0 then
    if reduced.hiddenQuantity ≠ 0 then
      { b with orderMap_ :=
          mapSet b.orderMap_ currentBestPrice (rest ++ [ListNode.mk front.iter (refillOrder reduced)]) }
    else
      let erased := { b with orders_ := mapErase b.orders_ reduced.id }
      if rest = [] then dropLevel side erased currentBestPrice
      else { erased with orderMap_ := mapSet b.orderMap_ currentBestPrice rest }
  else
    { b with orderMap_ :=
        mapSet b.orderMap_ currentBestPrice (ListNode.mk front.iter reduced :: rest) }

/-- One evaluation of the loop condition and body of `AddOrderInternal<side>` for
an incoming order of price `price`: `none` when the loop exits (condition false,
or `break`), otherwise the state after the body. -/
def matchStep (side : OrderSide) (price : Nat) (st : MatchState) : Option MatchState :=
  if st.tempQuantity > 0 ∧ st.book.heap side.opposite ≠ [] then
    let currentBestPrice := heapTop side.opposite (st.book.heap side.opposite)
    if MatchPriceComparator side currentBestPrice price then
      match (mapFind st.book.orderMap_ currentBestPrice).getD [] with
      | [] => some { st with book := dropLevel side st.book currentBestPrice }
      | front :: rest =>
        let quantityTraded := min front.order.quantity st.tempQuantity
        let acc := AddMatchTrade (st.matchOrderQuantityMap, st.matchOrderQueue) front.order.id
          currentBestPrice quantityTraded
        some (MatchState.mk
          (fillFront side st.book currentBestPrice front rest quantityTraded)
          (st.tempQuantity - quantityTraded) acc.1 acc.2
          (st.fills ++ [Fill.mk front.order.id currentBestPrice quantityTraded]))
    else none
  else none

/-- The `while` loop of `AddOrderInternal<side>`: `matchStep` until it exits.
`none` means the fuel ran out before the loop exited. -/
def matchLoop (side : OrderSide) (price : Nat) : Nat → MatchState → Option MatchState
  | 0, _ => none
  | fuel + 1, st =>
    match matchStep side price st with
    | none => some st
    | some st' => matchLoop side price fuel st'

/-- The split of the residual of `order` into visible and hidden quantity
(`// Add in order book.`, first `if`), given the quantity left after the loop. -/
def restSplit (order : Order) (tempQuantity : Nat) : Order :=
  if order.peakSize > 0 ∧ tempQuantity > order.peakSize then
    let totalQuantityTraded := order.quantity - tempQuantity
    let visibleQuantity := order.peakSize - (totalQuantityTraded % order.peakSize)
    { order with quantity := visibleQuantity, hiddenQuantity := tempQuantity - visibleQuantity }
  else
    { order with quantity := tempQuantity }

/-- The block `// Add in order book.` of `AddOrderInternal<side>`. -/
def restOrder (side : OrderSide) (order : Order) (st : MatchState) : OrderBook :=
  if st.tempQuantity > 0 then
    let tempOrder := restSplit order st.tempQuantity
    let node : ListNode := ListNode.mk st.book.nextIter tempOrder
    let withLevel : OrderBook :=
      match mapFind st.book.orderMap_ tempOrder.price with
      | none =>
        ({ st.book with orderMap_ := mapSet st.book.orderMap_ tempOrder.price [] }).setHeap side
          (heapPush (st.book.heap side) tempOrder.price)
      | some _ => st.book
    let level := (mapFind withLevel.orderMap_ tempOrder.price).getD []
    { withLevel with
      orderMap_ := mapSet withLevel.orderMap_ tempOrder.price (level ++ [node]),
      orders_ := mapSet withLevel.orders_ tempOrder.id node.iter,
      nextIter := withLevel.nextIter + 1 }
  else st.book

/-- The state in which the loop of `AddOrderInternal` starts. -/
def initMatch (b : OrderBook) (order : Order) : MatchState :=
  MatchState.mk b order.quantity [] [] []

/-- `OrderBook::AddOrderInternal<side>`: the new book and the trade lines printed. -/
def AddOrderInternal (side : OrderSide) (fuel : Nat) (b : OrderBook) (order : Order) :
    Option (OrderBook × List Trade) :=
  match matchLoop side order.price fuel (initMatch b order) with
  | none => none
  | some st =>
    some (restOrder side order st, PrintTrades side st.matchOrderQuantityMap st.matchOrderQueue order)

/-- `OrderBook::AddOrder`. -/
def AddOrder (fuel : Nat) (b : OrderBook) (order : Order) : Option (OrderBook × List Trade) :=
  if order.side = OrderSide.SELL then AddOrderInternal OrderSide.SELL fuel b order
  else AddOrderInternal OrderSide.BUY fuel b order

/-- All nodes of all price levels. -/
def restingNodes (m : List (Nat × TimeOrderList)) : List ListNode :=
  (m.map Prod.snd).flatten

/-- Dereference of a list iterator: the order of the node it denotes; `none`
when no such node exists (a dangling iterator). -/
def derefIter (m : List (Nat × TimeOrderList)) (listIter : Nat) : Option Order :=
  ((restingNodes m).find? (fun n => n.iter == listIter)).map ListNode.order

/-- `OrderBook::CancelOrder`: the returned flag and the new book; `none` when the
stored iterator does not denote a node of the list it is erased from. -/
def CancelOrder (b : OrderBook) (id : Nat) : Option (Bool × OrderBook) :=
  match mapFind b.orders_ id with
  | none => some (false, b)
  | some listIter =>
    match derefIter b.orderMap_ listIter with
    | none => none
    | some order =>
      let level := (mapFind b.orderMap_ order.price).getD []
      if level.any (fun n => n.iter == listIter) then
        some (true, { b with
          orders_ := mapErase b.orders_ order.id,
          orderMap_ := mapSet b.orderMap_ order.price
            (level.eraseP (fun n => n.iter == listIter)) })
      else none

/-- The ids of all resting orders. -/
def restingIds (b : OrderBook) : List Nat :=
  (restingNodes b.orderMap_).map (fun n => n.order.id)

/-- What holds of a node `n` queued in the level `p` of the book `b`: it rests at
its own price, the price is in the heap of its side, its visible quantity is
positive, only an order with a peak size holds hidden quantity, and its
iterator was allocated. -/
def NodeOK (b : OrderBook) (p : Nat) (n : ListNode) : Prop :=
  n.order.price = p ∧ p ∈ b.heap n.order.side ∧ 0 < n.order.quantity ∧
    (n.order.hiddenQuantity ≠ 0 → 0 < n.order.peakSize) ∧ n.iter < b.nextIter

/-- The structural invariant of the book. -/
structure Inv (b : OrderBook) : Prop where
  keysNodup : (b.orderMap_.map Prod.fst).Nodup
  heapNodup : ∀ s, (b.heap s).Nodup
  keysHeaps : ∀ p, p ∈ b.orderMap_.map Prod.fst ↔ ∃ s, p ∈ b.heap s
  uncrossed : ∀ pb ∈ b.heap OrderSide.BUY, ∀ ps ∈ b.heap OrderSide.SELL, pb < ps
  nodes : ∀ p l, mapFind b.orderMap_ p = some l → ∀ n ∈ l, NodeOK b p n
  itersLevel : ∀ p l, mapFind b.orderMap_ p = some l → (l.map ListNode.iter).Nodup
  itersAcross : ∀ p l p' l' n n', mapFind b.orderMap_ p = some l →
    mapFind b.orderMap_ p' = some l' → n ∈ l → n' ∈ l' → n.iter = n'.iter → p = p'
  index : ∀ id it, mapFind b.orders_ id = some it →
    ∃ p l n, mapFind b.orderMap_ p = some l ∧ n ∈ l ∧ n.iter = it ∧ n.order.id = id

/-- The books that a finite sequence of `AddOrder` and `CancelOrder` calls
produces from the empty book.  The orders submitted are those the constructor
of `Order` builds (`hiddenQuantity = 0`). -/
inductive Reachable : OrderBook → Prop where
  | empty : Reachable OrderBook.empty
  | add (b : OrderBook) (o : Order) (fuel : Nat) (b' : OrderBook) (trades : List Trade) :
      Reachable b → o.hiddenQuantity = 0 → AddOrder fuel b o = some (b', trades) → Reachable b'
  | cancel (b : OrderBook) (id : Nat) (r : Bool) (b' : OrderBook) :
      Reachable b → CancelOrder b id = some (r, b') → Reachable b'

/-- The books produced from the empty book by sequences of calls in which every
submitted id differs from the ids of the orders resting at that moment. -/
inductive ReachableFresh : OrderBook → Prop where
  | empty : ReachableFresh OrderBook.empty
  | add (b : OrderBook) (o : Order) (fuel : Nat) (b' : OrderBook) (trades : List Trade) :
      ReachableFresh b → o.hiddenQuantity = 0 → o.id ∉ restingIds b →
      AddOrder fuel b o = some (b', trades) → ReachableFresh b'
  | cancel (b : OrderBook) (id : Nat) (r : Bool) (b' : OrderBook) :
      ReachableFresh b → CancelOrder b id = some (r, b') → ReachableFresh b'

/-- The book after `L B 1 100 5`. -/
def bookBuy : OrderBook :=
  OrderBook.mk [(100, [ListNode.mk 0 (Order.mk 100 5 0 0 1 OrderSide.BUY)])] [100] [] [(1, 0)] 1

/-- The book after `L B 1 100 5` and `L S 2 105 5`. -/
def bookBuySell : OrderBook :=
  OrderBook.mk
    [(100, [ListNode.mk 0 (Order.mk 100 5 0 0 1 OrderSide.BUY)]),
     (105, [ListNode.mk 1 (Order.mk 105 5 0 0 2 OrderSide.SELL)])]
    [100] [105] [(1, 0), (2, 1)] 2

/-- A loop state of an incoming buy at price 100 with quantity 15 left, facing a
sell level 100 that holds the iceberg order 1 (visible 10, hidden 90, peak 10)
in front of the plain order 2. -/
def stateIcebergFront : MatchState :=
  MatchState.mk
    (OrderBook.mk
      [(100, [ListNode.mk 0 (Order.mk 100 10 90 10 1 OrderSide.SELL),
              ListNode.mk 1 (Order.mk 100 10 0 0 2 OrderSide.SELL)])]
      [] [100] [(1, 0), (2, 1)] 2)
    15 [] [] []

/-- `CancelOrder(id)` called `k` times in a row; the book after the last call. -/
def cancelRepeat : Nat → OrderBook → Nat → Option OrderBook
  | 0, b, _ => some b
  | k + 1, b, id =>
    match CancelOrder b id with
    | none => none
    | some r => cancelRepeat k r.2 id

/-- The queue that `fillFront` leaves in the level of the front node (when it is
empty the level is erased): the effect of the fill on the list itself. -/
def fillQueue (front : ListNode) (rest : TimeOrderList) (quantityTraded : Nat) : TimeOrderList :=
  let reduced : Order := { front.order with quantity := front.order.quantity - quantityTraded }
  if reduced.quantity = 0 then
    if reduced.hiddenQuantity ≠ 0 then rest ++ [ListNode.mk front.iter (refillOrder reduced)]
    else rest
  else ListNode.mk front.iter reduced :: rest

/-- Every resting node is the one its id is indexed to in `orders_`. -/
def Indexed (b : OrderBook) : Prop :=
  ∀ p l n, mapFind b.orderMap_ p = some l → n ∈ l → mapFind b.orders_ n.order.id = some n.iter

/-- Every node of `b` is a node that `b0` holds in the same level, up to its
quantities: matching only changes `quantity` and `hiddenQuantity`. -/
def Evolves (b0 b : OrderBook) : Prop :=
  ∀ p l n, mapFind b.orderMap_ p = some l → n ∈ l →
    ∃ l0 n0, mapFind b0.orderMap_ p = some l0 ∧ n0 ∈ l0 ∧ n0.iter = n.iter ∧
      n0.order.id = n.order.id ∧ n0.order.price = n.order.price ∧
      n0.order.side = n.order.side ∧ n0.order.peakSize = n.order.peakSize

/-- The book after `L B 1 100 5` and `L B 1 101 5` (the id 1 submitted twice). -/
def bookTwice : OrderBook :=
  OrderBook.mk
    [(100, [ListNode.mk 0 (Order.mk 100 5 0 0 1 OrderSide.BUY)]),
     (101, [ListNode.mk 1 (Order.mk 101 5 0 0 1 OrderSide.BUY)])]
    [101, 100] [] [(1, 1)] 2

/-- The book after `L B 1 100 5`, `L B 1 101 5` and `C1`: the first order of id 1
still rests, the index has no entry for it. -/
def bookTwiceCancelled : OrderBook :=
  OrderBook.mk
    [(100, [ListNode.mk 0 (Order.mk 100 5 0 0 1 OrderSide.BUY)]), (101, [])]
    [101, 100] [] [] 2

/-- The ids of a list in the order of their first occurrence. -/
def firstTouched : List Nat → List Nat
  | [] => []
  | x :: xs => x :: (firstTouched xs).filter (fun y => !(y == x))

/-- The sum of the quantities of the fills made against the id `id`. -/
def filledQuantity (fills : List Fill) (id : Nat) : Nat :=
  ((fills.filter (fun f => f.id == id)).map Fill.quantity).sum

/-- The id of the resting order in a trade line printed for an incoming order of
side `side` (the id that `OrderIdMatch<side>` takes as `fromBook`). -/
def Trade.counterparty (side : OrderSide) (t : Trade) : Nat :=
  match side with
  | OrderSide.SELL => t.first
  | OrderSide.BUY => t.second

/-- The fills of one `AddOrder` call: the arguments of the calls of
`AddMatchTrade` made by the loop, in order. -/
def matchFills (fuel : Nat) (b : OrderBook) (order : Order) : Option (List Fill) :=
  (matchLoop order.side order.price fuel (initMatch b order)).map MatchState.fills

/-- The aggregation state `AddMatchTrade` builds from a list of fills. -/
def aggregate (fills : List Fill) : List (Nat × Nat) × List (Nat × Nat) :=
  fills.foldl (fun acc f => AddMatchTrade acc f.id f.price f.quantity) ([], [])

/-- The book after `I S 1 100 100 10`. -/
def bookIceberg : OrderBook :=
  OrderBook.mk [(100, [ListNode.mk 0 (Order.mk 100 10 90 10 1 OrderSide.SELL)])] [] [100]
    [(1, 0)] 1

/-- The book after `I S 1 100 100 10` and `L B 2 100 25`. -/
def bookIcebergHit : OrderBook :=
  OrderBook.mk [(100, [ListNode.mk 0 (Order.mk 100 5 70 10 1 OrderSide.SELL)])] [] [100]
    [(1, 0)] 1

/-- What the matching loop of an incoming order of side `side` keeps of the book
`b0` it started from: nodes only change their quantities, the opposite heap only
loses prices, the heap of the own side, the iterator counter and every level
whose price is not in the opposite heap stay as they were. -/
structure Frame (b0 : OrderBook) (side : OrderSide) (b : OrderBook) : Prop where
  evolves : Evolves b0 b
  heapSub : ∀ x ∈ b.heap side.opposite, x ∈ b0.heap side.opposite
  heapOwn : b.heap side = b0.heap side
  nextIter : b.nextIter = b0.nextIter
  ownLevels : ∀ k, k ∉ b0.heap side.opposite → mapFind b.orderMap_ k = mapFind b0.orderMap_ k

/-- What holds of every fill made so far: it was made against an order that
rested in `b0` in the level of the fill price, that price was in the opposite
heap and crosses the price of the incoming order, and no price left in the
opposite heap is better than it. -/
def FillsOK (b0 : OrderBook) (side : OrderSide) (price : Nat) (st : MatchState) : Prop :=
  ∀ f ∈ st.fills,
    (∃ l0 n0, mapFind b0.orderMap_ f.price = some l0 ∧ n0 ∈ l0 ∧ n0.order.id = f.id) ∧
    f.price ∈ b0.heap side.opposite ∧ MatchPriceComparator side f.price price = true ∧
    ∀ x ∈ st.book.heap side.opposite, MatchPriceComparator side f.price x = true

/-- The total quantity (visible plus hidden) of the nodes of `l` that carry the
id `id`. -/
def nodesTotal (l : List ListNode) (id : Nat) : Nat :=
  ((l.filter (fun n => n.order.id == id)).map
    (fun n => n.order.quantity + n.order.hiddenQuantity)).sum

/-- The total remaining quantity (visible plus hidden) of the resting order of id
`id`; 0 when no such order rests. -/
def remainingOf (b : OrderBook) (id : Nat) : Nat :=
  nodesTotal (restingNodes b.orderMap_) id

/-- The accounting the matching loop keeps with respect to the book `b0` and the
quantity `q0` it started from: per id, what is left plus what was filled is what
rested; the fills plus the quantity left of the incoming order are its quantity;
a node whose id was never filled is untouched. -/
def Conserved (b0 : OrderBook) (q0 : Nat) (st : MatchState) : Prop :=
  (∀ id, remainingOf st.book id + filledQuantity st.fills id = remainingOf b0 id) ∧
  (st.fills.map Fill.quantity).sum + st.tempQuantity = q0 ∧
  (∀ n, n.order.id ∉ st.fills.map Fill.id →
    (n ∈ restingNodes st.book.orderMap_ ↔ n ∈ restingNodes b0.orderMap_))

/-- The book after `I S 1 100 100 10`, `L S 2 100 10` (orders 1 and 2 resting at
price 100). -/
def bookIcebergPlain : OrderBook :=
  OrderBook.mk
    [(100, [ListNode.mk 0 (Order.mk 100 10 90 10 1 OrderSide.SELL),
            ListNode.mk 1 (Order.mk 100 10 0 0 2 OrderSide.SELL)])]
    [] [100] [(1, 0), (2, 1)] 2

/-- The FIFO rule for a queue of plain orders at price `p` hit by a quantity `q`:
the orders are taken front to back, each one filled completely and removed
before the next is touched, the last one touched possibly filled in part.
Returns the fills and the queue left. -/
def fifoConsume (p : Nat) : TimeOrderList → Nat → List Fill × TimeOrderList
  | [], _ => ([], [])
  | n :: rest, q =>
    if q = 0 then ([], n :: rest)
    else if n.order.quantity ≤ q then
      (Fill.mk n.order.id p n.order.quantity :: (fifoConsume p rest (q - n.order.quantity)).1,
        (fifoConsume p rest (q - n.order.quantity)).2)
    else
      ([Fill.mk n.order.id p q],
        ListNode.mk n.iter { n.order with quantity := n.order.quantity - q } :: rest)

/-- The book after `L B 1 100 5` and `L B 2 100 5`. -/
def bookBuyBuy : OrderBook :=
  OrderBook.mk
    [(100, [ListNode.mk 0 (Order.mk 100 5 0 0 1 OrderSide.BUY),
            ListNode.mk 1 (Order.mk 100 5 0 0 2 OrderSide.BUY)])]
    [100] [] [(1, 0), (2, 1)] 2

/-- The book after `L B 1 100 5`, `L B 2 100 5` and `L S 3 100 7`: order 2 rests
with quantity 3. -/
def bookBuyBuyHit : OrderBook :=
  OrderBook.mk [(100, [ListNode.mk 1 (Order.mk 100 3 0 0 2 OrderSide.BUY)])] [100] [] [(2, 1)] 2

/-- The book after `L B 1 100 5` and `I S 3 100 40 10`: the iceberg traded 5 on
entry and rests with visible 5 and hidden 30. -/
def bookIcebergEntered : OrderBook :=
  OrderBook.mk [(100, [ListNode.mk 1 (Order.mk 100 5 30 10 3 OrderSide.SELL)])] [] [100]
    [(3, 1)] 2

/-- The visible quantity of every resting order with a peak size is at most its
peak size. -/
def PeakOK (b : OrderBook) : Prop :=
  ∀ p l n, mapFind b.orderMap_ p = some l → n ∈ l →
    0 < n.order.peakSize → n.order.quantity ≤ n.order.peakSize

/-- What `Print` writes: an order line `O <B|S> <id> <price> <quantity>` on the
standard output (the hidden quantity is not part of it), or the message
`Internal Error: print: price <price> not found.` on the error stream. -/
inductive PrintItem where
  | orderLine (side : OrderSide) (id price quantity : Nat)
  | internalError (price : Nat)
deriving DecidableEq, Repr

/-- The lambda `orderPrinter` of `Print`. -/
def orderPrinter (order : Order) : PrintItem :=
  PrintItem.orderLine order.side order.id order.price order.quantity

/-- The body of the loop of `printHeap` for the price at the top of the heap:
the orders of that level, or the internal error when `orderMap_` has no such key. -/
def printLevel (orderMap_ : List (Nat × TimeOrderList)) (price : Nat) : List PrintItem :=
  match mapFind orderMap_ price with
  | some orderList => orderList.map (fun n => orderPrinter n.order)
  | none => [PrintItem.internalError price]

/-- The lambda `printHeap` of `Print` on a copy of the heap of side `side`: the
loop `while (!orderHeap.empty())`.  Each iteration pops one price, so the number
of prices of the heap is the fuel `Print` passes. -/
def printHeap (side : OrderSide) (orderMap_ : List (Nat × TimeOrderList)) :
    Nat → List Nat → List PrintItem
  | 0, _ => []
  | fuel + 1, orderHeap =>
    if orderHeap = [] then []
    else
      printLevel orderMap_ (heapTop side orderHeap) ++
        printHeap side orderMap_ fuel (heapPop side orderHeap)

/-- `OrderBook::Print`: the buy heap is drained, then the sell heap. -/
def Print (b : OrderBook) : List PrintItem :=
  printHeap OrderSide.BUY b.orderMap_ b.buyOrderHeap_.length b.buyOrderHeap_ ++
    printHeap OrderSide.SELL b.orderMap_ b.sellOrderHeap_.length b.sellOrderHeap_

/-- The prices in the order in which draining a heap pops them. -/
def drainHeap (side : OrderSide) : Nat → List Nat → List Nat
  | 0, _ => []
  | fuel + 1, orderHeap =>
    if orderHeap = [] then []
    else heapTop side orderHeap :: drainHeap side fuel (heapPop side orderHeap)

/-- The prices of the levels `Print` visits, in order. -/
def printedPrices (b : OrderBook) : List Nat :=
  drainHeap OrderSide.BUY b.buyOrderHeap_.length b.buyOrderHeap_ ++
    drainHeap OrderSide.SELL b.sellOrderHeap_.length b.sellOrderHeap_

/-- The book after `L B 1 100 5` and `C1`: the level 100 is empty and its price
is still in the buy heap. -/
def bookBuyCancelled : OrderBook :=
  OrderBook.mk [(100, [])] [100] [] [] 1

/-- The book after `I S 1 100 100 10`, `L S 2 100 10` and `L B 3 100 15`: order 2
(quantity 5) in front of the replenished iceberg 1. -/
def bookScenarioE : OrderBook :=
  OrderBook.mk
    [(100, [ListNode.mk 1 (Order.mk 100 5 0 0 2 OrderSide.SELL),
            ListNode.mk 0 (Order.mk 100 10 80 10 1 OrderSide.SELL)])]
    [] [100] [(1, 0), (2, 1)] 2

/-- The order a fill of `quantityTraded` shares leaves when the order stays in
the book: `quantity -= quantityTraded`, then the replenishment when the visible
quantity is 0 and hidden quantity is left (the node `fillQueue` keeps). -/
def fillOrder (o : Order) (quantityTraded : Nat) : Order :=
  let reduced : Order := { o with quantity := o.quantity - quantityTraded }
  if reduced.quantity = 0 then
    if reduced.hiddenQuantity ≠ 0 then refillOrder reduced else reduced
  else reduced

/-- A resting order after a sequence of fills. -/
def fillOrderMany (o : Order) : List Nat → Order
  | [] => o
  | a :: rest => fillOrderMany (fillOrder o a) rest

/-- Every fill of the sequence is at most the visible quantity at that moment,
as `quantityTraded = min(visible, incoming)` is. -/
def ValidFills (o : Order) : List Nat → Prop
  | [] => True
  | a :: rest => a ≤ o.quantity ∧ ValidFills (fillOrder o a) rest

/-- The book after `L S 1 100 3`. -/
def bookSellThree : OrderBook :=
  OrderBook.mk [(100, [ListNode.mk 0 (Order.mk 100 3 0 0 1 OrderSide.SELL)])] [] [100] [(1, 0)] 1

/-- The book after `L S 1 100 3` and `I B 2 100 15 10`: the iceberg traded 3 on
entry and rests with visible 7 and hidden 5. -/
def bookIcebergShort : OrderBook :=
  OrderBook.mk [(100, [ListNode.mk 1 (Order.mk 100 7 5 10 2 OrderSide.BUY)])] [100] []
    [(2, 1)] 2

/-- The book after `L S 1 100 3`, `I B 2 100 15 10` and `L S 3 100 7`: the
replenishment exposed the 5 hidden shares. -/
def bookIcebergShortRefilled : OrderBook :=
  OrderBook.mk [(100, [ListNode.mk 1 (Order.mk 100 5 0 10 2 OrderSide.BUY)])] [100] []
    [(2, 1)] 2

/-- The book after `L S 1 99 5`. -/
def bookSellLow : OrderBook :=
  OrderBook.mk [(99, [ListNode.mk 0 (Order.mk 99 5 0 0 1 OrderSide.SELL)])] [] [99] [(1, 0)] 1

/-- The book after `L S 1 99 5` and `C1`: the level 99 is empty and 99 stays in
the sell heap. -/
def bookSellLowCancelled : OrderBook :=
  OrderBook.mk [(99, [])] [] [99] [] 1

/-- The book after `L S 1 99 5`, `C1` and `L S 2 100 5`. -/
def bookStaleSell : OrderBook :=
  OrderBook.mk [(99, []), (100, [ListNode.mk 1 (Order.mk 100 5 0 0 2 OrderSide.SELL)])]
    [] [100, 99] [(2, 1)] 2

/-- The book after `L S 1 99 5`, `C1`, `L S 2 100 5` and `L S 3 100 5`: the top of
the sell heap is the empty level 99, the best level holding orders is 100. -/
def bookStaleSellSell : OrderBook :=
  OrderBook.mk
    [(99, []), (100, [ListNode.mk 1 (Order.mk 100 5 0 0 2 OrderSide.SELL),
                      ListNode.mk 2 (Order.mk 100 5 0 0 3 OrderSide.SELL)])]
    [] [100, 99] [(2, 1), (3, 2)] 3

/-- The book after `L S 1 99 5`, `C1`, `L S 2 100 5`, `L S 3 100 5` and
`L B 4 100 7`: order 3 rests with quantity 3. -/
def bookStaleHit : OrderBook :=
  OrderBook.mk [(100, [ListNode.mk 2 (Order.mk 100 3 0 0 3 OrderSide.SELL)])] [] [100]
    [(3, 2)] 3

/-! ## Facts about the containers -/

section MapLemmas
variable {β : Type}

theorem mapFind_mem {m : List (Nat × β)} {k : Nat} {v : β} (h : mapFind m k = some v) :
    (k, v) ∈ m := by
  induction m with
  | nil => simp [mapFind] at h
  | cons e rest ih =>
    unfold mapFind at h
    split at h
    · rename_i hk
      cases e
      simp only [Option.some.injEq] at h
      simp only at hk
      subst hk; subst h
      exact List.mem_cons_self _ _
    · exact List.mem_cons_of_mem _ (ih h)

theorem mapFind_eq_none_iff {m : List (Nat × β)} {k : Nat} :
    mapFind m k = none ↔ k ∉ m.map Prod.fst := by
  induction m with
  | nil => simp [mapFind]
  | cons e rest ih =>
    unfold mapFind
    by_cases hk : e.1 = k
    · simp [hk]
    · simp only [hk, if_false, ih, List.map_cons, List.mem_cons, not_or]
      constructor
      · intro h; exact ⟨fun h' => hk h'.symm, h⟩
      · intro h; exact h.2

theorem mapFind_isSome_iff {m : List (Nat × β)} {k : Nat} :
    (∃ v, mapFind m k = some v) ↔ k ∈ m.map Prod.fst := by
  constructor
  · rintro ⟨v, hv⟩
    by_contra hn
    rw [← mapFind_eq_none_iff] at hn
    rw [hn] at hv; cases hv
  · intro h
    cases hf : mapFind m k with
    | none => rw [mapFind_eq_none_iff] at hf; exact absurd h hf
    | some v => exact ⟨v, rfl⟩

theorem mapFind_of_mem {m : List (Nat × β)} {k : Nat} {v : β}
    (hnd : (m.map Prod.fst).Nodup) (h : (k, v) ∈ m) : mapFind m k = some v := by
  induction m with
  | nil => cases h
  | cons e rest ih =>
    simp only [List.map_cons, List.nodup_cons] at hnd
    unfold mapFind
    rcases List.mem_cons.1 h with h | h
    · subst h; simp
    · have hk : e.1 ≠ k := by
        intro hek
        apply hnd.1
        rw [hek]
        exact List.mem_map_of_mem Prod.fst h
      simp only [hk, if_false]
      exact ih hnd.2 h

theorem mapFind_mapSet_same (m : List (Nat × β)) (k : Nat) (v : β) :
    mapFind (mapSet m k v) k = some v := by
  induction m with
  | nil => simp [mapSet, mapFind]
  | cons e rest ih =>
    unfold mapSet
    by_cases hk : e.1 = k
    · simp [hk, mapFind]
    · simp [hk, mapFind, ih]

theorem mapFind_mapSet_ne (m : List (Nat × β)) {k k' : Nat} (v : β) (h : k' ≠ k) :
    mapFind (mapSet m k v) k' = mapFind m k' := by
  induction m with
  | nil => simp [mapSet, mapFind, Ne.symm h]
  | cons e rest ih =>
    unfold mapSet
    by_cases hk : e.1 = k
    · have : e.1 ≠ k' := by rw [hk]; exact Ne.symm h
      simp [hk, mapFind, Ne.symm h, this]
    · simp only [hk, if_false]
      unfold mapFind
      rw [ih]

theorem mapFind_mapErase_same (m : List (Nat × β)) (k : Nat) :
    mapFind (mapErase m k) k = none := by
  rw [mapFind_eq_none_iff]
  simp [mapErase, List.mem_map, List.mem_filter]

theorem mapFind_mapErase_ne (m : List (Nat × β)) {k k' : Nat} (h : k' ≠ k) :
    mapFind (mapErase m k) k' = mapFind m k' := by
  induction m with
  | nil => simp [mapErase, mapFind]
  | cons e rest ih =>
    unfold mapErase at ih ⊢
    by_cases hk : e.1 = k
    · have : e.1 ≠ k' := by rw [hk]; exact Ne.symm h
      simp only [List.filter_cons, hk, beq_self_eq_true, Bool.not_true, Bool.false_eq_true,
        if_false, ih]
      simp [mapFind, this]
    · have hb : (!(e.1 == k)) = true := by simp [hk]
      simp only [List.filter_cons, hb, if_true]
      unfold mapFind
      rw [ih]

theorem mapErase_keys (m : List (Nat × β)) (k : Nat) :
    (mapErase m k).map Prod.fst = (m.map Prod.fst).filter (fun p => !(p == k)) := by
  induction m with
  | nil => simp [mapErase]
  | cons e rest ih =>
    unfold mapErase at ih ⊢
    by_cases hk : e.1 = k <;> simp [List.filter_cons, hk, ih]

theorem mapErase_keys_nodup {m : List (Nat × β)} (k : Nat) (h : (m.map Prod.fst).Nodup) :
    ((mapErase m k).map Prod.fst).Nodup := by
  rw [mapErase_keys]; exact h.filter _

theorem mem_mapErase_keys {m : List (Nat × β)} {k p : Nat} :
    p ∈ (mapErase m k).map Prod.fst ↔ p ∈ m.map Prod.fst ∧ p ≠ k := by
  rw [mapErase_keys]; simp [List.mem_filter]

theorem mapSet_keys_of_mem {m : List (Nat × β)} {k : Nat} (v : β) (h : k ∈ m.map Prod.fst) :
    (mapSet m k v).map Prod.fst = m.map Prod.fst := by
  induction m with
  | nil => simp at h
  | cons e rest ih =>
    unfold mapSet
    by_cases hk : e.1 = k
    · simp [hk]
    · simp only [hk, if_false, List.map_cons, List.cons.injEq, true_and]
      apply ih
      simp only [List.map_cons, List.mem_cons] at h
      rcases h with h | h
      · exact absurd h.symm hk
      · exact h

theorem mapSet_of_not_mem {m : List (Nat × β)} {k : Nat} (v : β) (h : k ∉ m.map Prod.fst) :
    mapSet m k v = m ++ [(k, v)] := by
  induction m with
  | nil => simp [mapSet]
  | cons e rest ih =>
    simp only [List.map_cons, List.mem_cons, not_or] at h
    unfold mapSet
    have hk : e.1 ≠ k := fun h' => h.1 h'.symm
    simp [hk, ih h.2]

end MapLemmas

section HeapLemmas

theorem foldr_max_mem (p : Nat) (ps : List Nat) : ps.foldr max p ∈ p :: ps := by
  induction ps with
  | nil => simp
  | cons q qs ih =>
    simp only [List.foldr_cons]
    rcases Nat.le_total q (qs.foldr max p) with h | h
    · rw [Nat.max_eq_right h]
      rcases List.mem_cons.1 ih with h' | h'
      · rw [h']; exact List.mem_cons_self _ _
      · exact List.mem_cons_of_mem _ (List.mem_cons_of_mem _ h')
    · rw [Nat.max_eq_left h]; simp

theorem foldr_min_mem (p : Nat) (ps : List Nat) : ps.foldr min p ∈ p :: ps := by
  induction ps with
  | nil => simp
  | cons q qs ih =>
    simp only [List.foldr_cons]
    rcases Nat.le_total q (qs.foldr min p) with h | h
    · rw [Nat.min_eq_left h]; simp
    · rw [Nat.min_eq_right h]
      rcases List.mem_cons.1 ih with h' | h'
      · rw [h']; exact List.mem_cons_self _ _
      · exact List.mem_cons_of_mem _ (List.mem_cons_of_mem _ h')

theorem le_foldr_max (p : Nat) (ps : List Nat) {x : Nat} (hx : x ∈ p :: ps) :
    x ≤ ps.foldr max p := by
  induction ps with
  | nil => simp at hx; simp [hx]
  | cons q qs ih =>
    simp only [List.foldr_cons]
    rcases List.mem_cons.1 hx with h | h
    · exact Nat.le_trans (ih (by rw [h]; exact List.mem_cons_self _ _)) (Nat.le_max_right _ _)
    · rcases List.mem_cons.1 h with h | h
      · rw [h]; exact Nat.le_max_left _ _
      · exact Nat.le_trans (ih (List.mem_cons_of_mem _ h)) (Nat.le_max_right _ _)

theorem foldr_min_le (p : Nat) (ps : List Nat) {x : Nat} (hx : x ∈ p :: ps) :
    ps.foldr min p ≤ x := by
  induction ps with
  | nil => simp at hx; simp [hx]
  | cons q qs ih =>
    simp only [List.foldr_cons]
    rcases List.mem_cons.1 hx with h | h
    · exact Nat.le_trans (Nat.min_le_right _ _) (ih (by rw [h]; exact List.mem_cons_self _ _))
    · rcases List.mem_cons.1 h with h | h
      · rw [h]; exact Nat.min_le_left _ _
      · exact Nat.le_trans (Nat.min_le_right _ _) (ih (List.mem_cons_of_mem _ h))

theorem heapTop_mem (side : OrderSide) {h : List Nat} (hne : h ≠ []) : heapTop side h ∈ h := by
  cases h with
  | nil => exact absurd rfl hne
  | cons p ps =>
    cases side
    · exact foldr_min_mem p ps
    · exact foldr_max_mem p ps

theorem le_heapTop_buy {h : List Nat} {x : Nat} (hx : x ∈ h) : x ≤ heapTop OrderSide.BUY h := by
  cases h with
  | nil => cases hx
  | cons p ps => exact le_foldr_max p ps hx

theorem heapTop_sell_le {h : List Nat} {x : Nat} (hx : x ∈ h) : heapTop OrderSide.SELL h ≤ x := by
  cases h with
  | nil => cases hx
  | cons p ps => exact foldr_min_le p ps hx

theorem heapPop_length (side : OrderSide) {h : List Nat} (hne : h ≠ []) :
    (heapPop side h).length + 1 = h.length := by
  unfold heapPop
  rw [List.length_erase_of_mem (heapTop_mem side hne)]
  have : 0 < h.length := List.length_pos.2 hne
  omega

theorem mem_heapPop (side : OrderSide) {h : List Nat} (hnd : h.Nodup) {x : Nat} :
    x ∈ heapPop side h ↔ x ≠ heapTop side h ∧ x ∈ h := by
  unfold heapPop
  exact hnd.mem_erase_iff

theorem heapPop_nodup (side : OrderSide) {h : List Nat} (hnd : h.Nodup) :
    (heapPop side h).Nodup := by
  unfold heapPop
  exact hnd.erase _

theorem heap_setHeap_same (b : OrderBook) (s : OrderSide) (h : List Nat) :
    (b.setHeap s h).heap s = h := by
  cases s <;> rfl

theorem heap_setHeap_opposite (b : OrderBook) (s : OrderSide) (h : List Nat) :
    (b.setHeap s.opposite h).heap s = b.heap s := by
  cases s <;> rfl

theorem heap_setHeap_of_opposite (b : OrderBook) (s : OrderSide) (h : List Nat) :
    (b.setHeap s h).heap s.opposite = b.heap s.opposite := by
  cases s <;> rfl

theorem side_cases (s t : OrderSide) : t = s ∨ t = s.opposite := by
  cases s <;> cases t <;> simp [OrderSide.opposite]

theorem opposite_ne (s : OrderSide) : s.opposite ≠ s := by
  cases s <;> simp [OrderSide.opposite]

theorem opposite_opposite (s : OrderSide) : s.opposite.opposite = s := by
  cases s <;> rfl

@[simp] theorem setHeap_orderMap (b : OrderBook) (s : OrderSide) (h : List Nat) :
    (b.setHeap s h).orderMap_ = b.orderMap_ := by
  cases s <;> rfl

@[simp] theorem setHeap_orders (b : OrderBook) (s : OrderSide) (h : List Nat) :
    (b.setHeap s h).orders_ = b.orders_ := by
  cases s <;> rfl

@[simp] theorem setHeap_nextIter (b : OrderBook) (s : OrderSide) (h : List Nat) :
    (b.setHeap s h).nextIter = b.nextIter := by
  cases s <;> rfl

end HeapLemmas

section InvariantBlocks

theorem mapErase_mapSet_same {β : Type} (m : List (Nat × β)) (k : Nat) (v : β) :
    mapErase (mapSet m k v) k = mapErase m k := by
  induction m with
  | nil => simp [mapSet, mapErase]
  | cons e rest ih =>
    unfold mapSet
    by_cases hk : e.1 = k
    · simp [hk, mapErase, List.filter_cons]
    · simp only [hk, if_false]
      unfold mapErase at ih ⊢
      simp [List.filter_cons, hk, ih]

theorem NodeOK.mono {b b' : OrderBook} {p : Nat} {n : ListNode}
    (hheap : ∀ s x, x ∈ b.heap s → x ∈ b'.heap s) (hiter : b.nextIter ≤ b'.nextIter)
    (h : NodeOK b p n) : NodeOK b' p n :=
  ⟨h.1, hheap _ _ h.2.1, h.2.2.1, h.2.2.2.1, Nat.lt_of_lt_of_le h.2.2.2.2 hiter⟩

/-- Replacing the queue of an existing level, and shrinking the id index
accordingly, keeps the invariant. -/
theorem Inv.setLevel {b b' : OrderBook} (hb : Inv b) {p : Nat} {old new : TimeOrderList}
    (hmap : b'.orderMap_ = mapSet b.orderMap_ p new)
    (hheap : ∀ s, b'.heap s = b.heap s)
    (hnext : b'.nextIter = b.nextIter)
    (hold : mapFind b.orderMap_ p = some old)
    (hok : ∀ n ∈ new, NodeOK b p n)
    (hnd : (new.map ListNode.iter).Nodup)
    (hsub : ∀ n ∈ new, ∃ n' ∈ old, n'.iter = n.iter)
    (hidx : ∀ id it, mapFind b'.orders_ id = some it → mapFind b.orders_ id = some it ∧
      ∀ n ∈ old, n.iter = it → n.order.id = id → ∃ n' ∈ new, n'.iter = it ∧ n'.order.id = id) :
    Inv b' := by
  have hp : p ∈ b.orderMap_.map Prod.fst := mapFind_isSome_iff.1 ⟨old, hold⟩
  have hfind : ∀ q l, mapFind (mapSet b.orderMap_ p new) q = some l →
      (q = p ∧ l = new) ∨ (q ≠ p ∧ mapFind b.orderMap_ q = some l) := by
    intro q l h
    by_cases hq : q = p
    · subst hq
      rw [mapFind_mapSet_same] at h
      exact Or.inl ⟨rfl, (Option.some.inj h).symm⟩
    · rw [mapFind_mapSet_ne _ _ hq] at h
      exact Or.inr ⟨hq, h⟩
  constructor
  · rw [hmap, mapSet_keys_of_mem _ hp]; exact hb.keysNodup
  · intro s; rw [hheap]; exact hb.heapNodup s
  · intro q
    rw [hmap, mapSet_keys_of_mem _ hp, hb.keysHeaps]
    simp only [hheap]
  · intro pb hpb ps hps
    rw [hheap] at hpb hps
    exact hb.uncrossed pb hpb ps hps
  · intro q l hl n hn
    rw [hmap] at hl
    rcases hfind q l hl with ⟨hq, hl'⟩ | ⟨_, hl'⟩
    · subst hq; subst hl'
      exact (hok n hn).mono (fun s x hx => by rw [hheap]; exact hx) (Nat.le_of_eq hnext.symm)
    · exact (hb.nodes q l hl' n hn).mono (fun s x hx => by rw [hheap]; exact hx) (Nat.le_of_eq hnext.symm)
  · intro q l hl
    rw [hmap] at hl
    rcases hfind q l hl with ⟨_, hl'⟩ | ⟨_, hl'⟩
    · subst hl'; exact hnd
    · exact hb.itersLevel q l hl'
  · intro q l q' l' n n' hl hl' hn hn' hiter
    rw [hmap] at hl hl'
    rcases hfind q l hl with ⟨hq, h1⟩ | ⟨hq, h1⟩ <;>
      rcases hfind q' l' hl' with ⟨hq', h2⟩ | ⟨hq', h2⟩
    · rw [hq, hq']
    · subst h1
      obtain ⟨m, hm, hmi⟩ := hsub n hn
      rw [hq]
      exact hb.itersAcross p old q' l' m n' hold h2 hm hn' (hmi.trans hiter)
    · subst h2
      obtain ⟨m, hm, hmi⟩ := hsub n' hn'
      rw [hq']
      exact hb.itersAcross q l p old n m h1 hold hn hm (hiter.trans hmi.symm)
    · exact hb.itersAcross q l q' l' n n' h1 h2 hn hn' hiter
  · intro id it hfi
    obtain ⟨hfo, hnew⟩ := hidx id it hfi
    obtain ⟨q, l, n, hl, hn, hni, hnid⟩ := hb.index id it hfo
    by_cases hq : q = p
    · subst hq
      rw [hold] at hl
      have hl' : old = l := Option.some.inj hl
      subst hl'
      obtain ⟨n', hn', h1, h2⟩ := hnew n hn hni hnid
      exact ⟨q, new, n', by rw [hmap]; exact mapFind_mapSet_same _ _ _, hn', h1, h2⟩
    · exact ⟨q, l, n, by rw [hmap]; exact (mapFind_mapSet_ne _ _ hq).trans hl, hn, hni, hnid⟩

theorem dropLevel_orderMap (side : OrderSide) (b : OrderBook) (p : Nat) :
    (dropLevel side b p).orderMap_ = mapErase b.orderMap_ p := by
  cases side <;> rfl

theorem dropLevel_orders (side : OrderSide) (b : OrderBook) (p : Nat) :
    (dropLevel side b p).orders_ = b.orders_ := by
  cases side <;> rfl

theorem dropLevel_nextIter (side : OrderSide) (b : OrderBook) (p : Nat) :
    (dropLevel side b p).nextIter = b.nextIter := by
  cases side <;> rfl

theorem dropLevel_heap_opposite (side : OrderSide) (b : OrderBook) (p : Nat) :
    (dropLevel side b p).heap side.opposite = heapPop side.opposite (b.heap side.opposite) := by
  cases side <;> rfl

theorem dropLevel_heap_same (side : OrderSide) (b : OrderBook) (p : Nat) :
    (dropLevel side b p).heap side = b.heap side := by
  cases side <;> rfl

/-- The two heaps never share a price. -/
theorem Inv.heaps_disjoint {b : OrderBook} (hb : Inv b) {s : OrderSide} {x : Nat}
    (h1 : x ∈ b.heap s) (h2 : x ∈ b.heap s.opposite) : False := by
  cases s
  · exact Nat.lt_irrefl _ (hb.uncrossed x h2 x h1)
  · exact Nat.lt_irrefl _ (hb.uncrossed x h1 x h2)

/-- Erasing the level at the top of the opposite heap and popping that heap keeps
the invariant, provided no remaining index entry denotes a node of that level. -/
theorem Inv.dropTop {b b' : OrderBook} (hb : Inv b) (side : OrderSide)
    (hne : b.heap side.opposite ≠ [])
    (hmap : b'.orderMap_ = mapErase b.orderMap_ (heapTop side.opposite (b.heap side.opposite)))
    (hopp : b'.heap side.opposite = heapPop side.opposite (b.heap side.opposite))
    (hown : b'.heap side = b.heap side)
    (hnext : b'.nextIter = b.nextIter)
    (hidx : ∀ id it, mapFind b'.orders_ id = some it → mapFind b.orders_ id = some it ∧
      ∀ l n, mapFind b.orderMap_ (heapTop side.opposite (b.heap side.opposite)) = some l →
        n ∈ l → n.iter = it → n.order.id = id → False) :
    Inv b' := by
  have htop := heapTop_mem side.opposite hne
  have hpop := fun x => mem_heapPop side.opposite (hb.heapNodup side.opposite) (x := x)
  generalize heapTop side.opposite (b.heap side.opposite) = top at htop hidx hmap hpop
  have hsub : ∀ s x, x ∈ b'.heap s → x ∈ b.heap s := by
    intro s x hx
    rcases side_cases side s with h | h
    · subst h; rw [hown] at hx; exact hx
    · subst h; rw [hopp] at hx; exact ((hpop x).1 hx).2
  have hmem : ∀ s x, x ∈ b.heap s → x ≠ top → x ∈ b'.heap s := by
    intro s x hx hxt
    rcases side_cases side s with h | h
    · subst h; rw [hown]; exact hx
    · subst h; rw [hopp]; exact (hpop x).2 ⟨hxt, hx⟩
  have hfind : ∀ q l, mapFind b'.orderMap_ q = some l → q ≠ top ∧ mapFind b.orderMap_ q = some l := by
    intro q l h
    rw [hmap] at h
    by_cases hq : q = top
    · subst hq; rw [mapFind_mapErase_same] at h; cases h
    · rw [mapFind_mapErase_ne _ hq] at h; exact ⟨hq, h⟩
  constructor
  · rw [hmap]; exact mapErase_keys_nodup _ hb.keysNodup
  · intro s
    rcases side_cases side s with h | h
    · subst h; rw [hown]; exact hb.heapNodup _
    · subst h; rw [hopp]; exact heapPop_nodup _ (hb.heapNodup _)
  · intro q
    rw [hmap, mem_mapErase_keys, hb.keysHeaps]
    constructor
    · rintro ⟨⟨s, hs⟩, hq⟩
      exact ⟨s, hmem s q hs hq⟩
    · rintro ⟨s, hs⟩
      refine ⟨⟨s, hsub s q hs⟩, ?_⟩
      intro hq
      subst hq
      rcases side_cases side s with h | h
      · subst h; exact hb.heaps_disjoint (hsub _ _ hs) htop
      · subst h; rw [hopp] at hs; exact ((hpop q).1 hs).1 rfl
  · intro pb hpb ps hps
    exact hb.uncrossed pb (hsub _ _ hpb) ps (hsub _ _ hps)
  · intro q l hl n hn
    obtain ⟨hq, hl'⟩ := hfind q l hl
    have h := hb.nodes q l hl' n hn
    exact ⟨h.1, hmem _ _ h.2.1 hq, h.2.2.1, h.2.2.2.1, by rw [hnext]; exact h.2.2.2.2⟩
  · intro q l hl
    exact hb.itersLevel q l (hfind q l hl).2
  · intro q l q' l' n n' hl hl' hn hn' hiter
    exact hb.itersAcross q l q' l' n n' (hfind q l hl).2 (hfind q' l' hl').2 hn hn' hiter
  · intro id it hfi
    obtain ⟨hfo, hnot⟩ := hidx id it hfi
    obtain ⟨q, l, n, hl, hn, hni, hnid⟩ := hb.index id it hfo
    have hq : q ≠ top := by
      intro hq; subst hq
      exact hnot l n hl hn hni hnid
    exact ⟨q, l, n, by rw [hmap, mapFind_mapErase_ne _ hq]; exact hl, hn, hni, hnid⟩

end InvariantBlocks

section StepInvariant

theorem mapFind_mapErase_some {β : Type} {m : List (Nat × β)} {k k' : Nat} {v : β}
    (h : mapFind (mapErase m k) k' = some v) : k' ≠ k ∧ mapFind m k' = some v := by
  by_cases hk : k' = k
  · subst hk; rw [mapFind_mapErase_same] at h; cases h
  · rw [mapFind_mapErase_ne _ hk] at h; exact ⟨hk, h⟩

/-- The book after a fill of the front order of the best opposite level still
satisfies the invariant. -/
theorem Inv.fill {b : OrderBook} (hb : Inv b) (side : OrderSide)
    {front : ListNode} {rest : TimeOrderList} (quantityTraded : Nat)
    (hne : b.heap side.opposite ≠ [])
    (hlevel : mapFind b.orderMap_ (heapTop side.opposite (b.heap side.opposite)) =
      some (front :: rest)) :
    Inv (fillFront side b (heapTop side.opposite (b.heap side.opposite)) front rest
      quantityTraded) := by
  have hfront := hb.nodes _ _ hlevel front (List.mem_cons_self _ _)
  have hrest : ∀ n ∈ rest, NodeOK b (heapTop side.opposite (b.heap side.opposite)) n :=
    fun n hn => hb.nodes _ _ hlevel n (List.mem_cons_of_mem _ hn)
  have hnd := hb.itersLevel _ _ hlevel
  simp only [List.map_cons, List.nodup_cons] at hnd
  unfold fillFront
  simp only []
  split_ifs with h0 hh hr
  · -- replenishment
    refine hb.setLevel rfl (fun s => by cases s <;> rfl) rfl hlevel ?_ ?_ ?_ ?_
    · intro n hn
      rcases List.mem_append.1 hn with hn | hn
      · exact hrest n hn
      · rw [List.mem_singleton] at hn
        subst hn
        refine ⟨hfront.1, hfront.2.1, ?_, ?_, hfront.2.2.2.2⟩
        · have hp := hfront.2.2.2.1 hh
          show 0 < min front.order.hiddenQuantity front.order.peakSize
          exact Nat.lt_min.2 ⟨Nat.pos_of_ne_zero hh, hp⟩
        · intro _
          exact hfront.2.2.2.1 hh
    · rw [List.map_append]
      simp only [List.map_cons, List.map_nil]
      exact (List.nodup_cons.2 hnd).perm (List.perm_append_singleton _ _).symm
    · intro n hn
      rcases List.mem_append.1 hn with hn | hn
      · exact ⟨n, List.mem_cons_of_mem _ hn, rfl⟩
      · rw [List.mem_singleton] at hn
        subst hn
        exact ⟨front, List.mem_cons_self _ _, rfl⟩
    · intro id it hfi
      refine ⟨hfi, ?_⟩
      intro n hn hni hnid
      rcases List.mem_cons.1 hn with hn | hn
      · subst hn
        exact ⟨_, List.mem_append_right _ (List.mem_singleton_self _), hni, hnid⟩
      · exact ⟨n, List.mem_append_left _ hn, hni, hnid⟩
  · -- the last order of the level is removed
    subst hr
    refine hb.dropTop side hne (dropLevel_orderMap _ _ _) ?_ ?_ ?_ ?_
    · rw [dropLevel_heap_opposite]; cases side <;> rfl
    · rw [dropLevel_heap_same]; cases side <;> rfl
    · rw [dropLevel_nextIter]
    · intro id it hfi
      rw [dropLevel_orders] at hfi
      obtain ⟨hid, hfo⟩ := mapFind_mapErase_some hfi
      refine ⟨hfo, ?_⟩
      intro l n hl hn _ hnid
      rw [hlevel] at hl
      have hl' := Option.some.inj hl
      subst hl'
      rw [List.mem_singleton] at hn
      subst hn
      exact hid hnid.symm
  · -- the front order is removed, the level keeps orders
    refine hb.setLevel rfl (fun s => by cases s <;> rfl) rfl hlevel hrest hnd.2 ?_ ?_
    · intro n hn
      exact ⟨n, List.mem_cons_of_mem _ hn, rfl⟩
    · intro id it hfi
      obtain ⟨hid, hfo⟩ := mapFind_mapErase_some hfi
      refine ⟨hfo, ?_⟩
      intro n hn hni hnid
      rcases List.mem_cons.1 hn with hn | hn
      · subst hn; exact absurd hnid.symm hid
      · exact ⟨n, hn, hni, hnid⟩
  · -- partial fill of the front order
    refine hb.setLevel rfl (fun s => by cases s <;> rfl) rfl hlevel ?_ ?_ ?_ ?_
    · intro n hn
      rcases List.mem_cons.1 hn with hn | hn
      · subst hn
        exact ⟨hfront.1, hfront.2.1, Nat.pos_of_ne_zero h0, hfront.2.2.2.1, hfront.2.2.2.2⟩
      · exact hrest n hn
    · simp only [List.map_cons, List.nodup_cons]
      exact hnd
    · intro n hn
      rcases List.mem_cons.1 hn with hn | hn
      · subst hn; exact ⟨front, List.mem_cons_self _ _, rfl⟩
      · exact ⟨n, List.mem_cons_of_mem _ hn, rfl⟩
    · intro id it hfi
      refine ⟨hfi, ?_⟩
      intro n hn hni hnid
      rcases List.mem_cons.1 hn with hn | hn
      · subst hn
        exact ⟨_, List.mem_cons_self _ _, hni, hnid⟩
      · exact ⟨n, List.mem_cons_of_mem _ hn, hni, hnid⟩

/-- One iteration of the matching loop keeps the invariant. -/
theorem Inv.step {st st' : MatchState} {side : OrderSide} {price : Nat}
    (hb : Inv st.book) (h : matchStep side price st = some st') : Inv st'.book := by
  unfold matchStep at h
  simp only [] at h
  split_ifs at h with hc hx
  split at h
  · rename_i hl
    cases h
    refine hb.dropTop side hc.2 (dropLevel_orderMap _ _ _) (dropLevel_heap_opposite _ _ _)
      (dropLevel_heap_same _ _ _) (dropLevel_nextIter _ _ _) ?_
    intro id it hfi
    rw [dropLevel_orders] at hfi
    refine ⟨hfi, ?_⟩
    intro l n hfl hn _ _
    rw [hfl] at hl
    simp only [Option.getD_some] at hl
    subst hl
    cases hn
  · rename_i front rest hl
    cases h
    have hlevel : mapFind st.book.orderMap_ (heapTop side.opposite (st.book.heap side.opposite))
        = some (front :: rest) := by
      cases hf : mapFind st.book.orderMap_ (heapTop side.opposite (st.book.heap side.opposite)) with
      | none => rw [hf] at hl; cases hl
      | some l => rw [hf] at hl; simp only [Option.getD_some] at hl; rw [hl]
    exact hb.fill side _ hc.2 hlevel

end StepInvariant

section RestInvariant

theorem mem_mapSet_keys {β : Type} {m : List (Nat × β)} {k q : Nat} {v : β} :
    q ∈ (mapSet m k v).map Prod.fst ↔ q = k ∨ q ∈ m.map Prod.fst := by
  by_cases hk : k ∈ m.map Prod.fst
  · rw [mapSet_keys_of_mem _ hk]
    constructor
    · exact Or.inr
    · rintro (h | h)
      · rw [h]; exact hk
      · exact h
  · rw [mapSet_of_not_mem _ hk]
    simp only [List.map_append, List.map_cons, List.map_nil, List.mem_append, List.mem_singleton]
    exact Or.comm

theorem mapSet_keys_nodup {β : Type} {m : List (Nat × β)} (k : Nat) (v : β)
    (h : (m.map Prod.fst).Nodup) : ((mapSet m k v).map Prod.fst).Nodup := by
  by_cases hk : k ∈ m.map Prod.fst
  · rw [mapSet_keys_of_mem _ hk]; exact h
  · rw [mapSet_of_not_mem _ hk]
    simp only [List.map_append, List.map_cons, List.map_nil]
    exact (List.nodup_cons.2 ⟨hk, h⟩).perm (List.perm_append_singleton _ _).symm

theorem mapSet_cons_ne {β : Type} {e : Nat × β} (rest : List (Nat × β)) {k : Nat} (v : β)
    (h : e.1 ≠ k) : mapSet (e :: rest) k v = e :: mapSet rest k v := by
  simp [mapSet, h]

theorem mapSet_cons_eq {β : Type} {e : Nat × β} (rest : List (Nat × β)) {k : Nat} (v : β)
    (h : e.1 = k) : mapSet (e :: rest) k v = (k, v) :: rest := by
  simp [mapSet, h]

theorem mapSet_mapSet_same {β : Type} (m : List (Nat × β)) (k : Nat) (v v' : β) :
    mapSet (mapSet m k v) k v' = mapSet m k v' := by
  induction m with
  | nil => simp [mapSet]
  | cons e rest ih =>
    by_cases hk : e.1 = k
    · rw [mapSet_cons_eq _ _ hk, mapSet_cons_eq _ _ hk, mapSet_cons_eq _ _ rfl]
    · rw [mapSet_cons_ne _ _ hk, mapSet_cons_ne _ _ hk, mapSet_cons_ne _ _ hk, ih]

theorem mapFind_mapSet_some {β : Type} {m : List (Nat × β)} {k q : Nat} {v l : β}
    (h : mapFind (mapSet m k v) q = some l) :
    (q = k ∧ l = v) ∨ (q ≠ k ∧ mapFind m q = some l) := by
  by_cases hq : q = k
  · subst hq
    rw [mapFind_mapSet_same] at h
    exact Or.inl ⟨rfl, (Option.some.inj h).symm⟩
  · rw [mapFind_mapSet_ne _ _ hq] at h
    exact Or.inr ⟨hq, h⟩

theorem MatchPriceComparator_self (side : OrderSide) (p : Nat) :
    MatchPriceComparator side p p = true := by
  cases side <;> simp [MatchPriceComparator]

/-- Appending a freshly allocated node to the level of its price, on the side of
the incoming order, keeps the invariant when no opposite price crosses it. -/
theorem Inv.addNode {b b' : OrderBook} (hb : Inv b) (side : OrderSide) (node : ListNode)
    (p : Nat)
    (hmap : b'.orderMap_ = mapSet b.orderMap_ p ((mapFind b.orderMap_ p).getD [] ++ [node]))
    (hown : ∀ x, x ∈ b'.heap side ↔ x = p ∨ x ∈ b.heap side)
    (hownnd : (b'.heap side).Nodup)
    (hopp : b'.heap side.opposite = b.heap side.opposite)
    (hnext : b'.nextIter = b.nextIter + 1)
    (hord : b'.orders_ = mapSet b.orders_ node.order.id node.iter)
    (hiter : node.iter = b.nextIter)
    (hside : node.order.side = side) (hprice : node.order.price = p)
    (hq : 0 < node.order.quantity)
    (hh : node.order.hiddenQuantity ≠ 0 → 0 < node.order.peakSize)
    (hexit : ∀ x ∈ b.heap side.opposite, MatchPriceComparator side x p = false) :
    Inv b' := by
  have hsub : ∀ s x, x ∈ b.heap s → x ∈ b'.heap s := by
    intro s x hx
    rcases side_cases side s with h | h
    · subst h; exact (hown x).2 (Or.inr hx)
    · subst h; rw [hopp]; exact hx
  have hpown : p ∈ b'.heap side := (hown p).2 (Or.inl rfl)
  have hpopp : p ∉ b.heap side.opposite := by
    intro hp
    have := hexit p hp
    rw [MatchPriceComparator_self] at this
    cases this
  have hlt : b.nextIter ≤ b'.nextIter := by omega
  have hlevel : ∀ n ∈ (mapFind b.orderMap_ p).getD [],
      mapFind b.orderMap_ p = some ((mapFind b.orderMap_ p).getD []) := by
    intro n hn
    cases hf : mapFind b.orderMap_ p with
    | none => rw [hf] at hn; cases hn
    | some l => rfl
  have hnode : NodeOK b' p node :=
    ⟨hprice, by rw [hside]; exact hpown, hq, hh, by omega⟩
  constructor
  · rw [hmap]; exact mapSet_keys_nodup _ _ hb.keysNodup
  · intro s
    rcases side_cases side s with h | h
    · subst h; exact hownnd
    · subst h; rw [hopp]; exact hb.heapNodup _
  · intro q
    rw [hmap, mem_mapSet_keys, hb.keysHeaps]
    constructor
    · rintro (h | ⟨s, hs⟩)
      · exact ⟨side, by rw [h]; exact hpown⟩
      · exact ⟨s, hsub s q hs⟩
    · rintro ⟨s, hs⟩
      rcases side_cases side s with h | h
      · subst h
        rcases (hown q).1 hs with h | h
        · exact Or.inl h
        · exact Or.inr ⟨_, h⟩
      · subst h; rw [hopp] at hs; exact Or.inr ⟨_, hs⟩
  · intro pb hpb ps hps
    cases side
    · -- incoming sell
      have hpb' : pb ∈ b.heap OrderSide.BUY := by
        have := hopp; simp only [OrderSide.opposite] at this; rw [this] at hpb; exact hpb
      rcases (hown ps).1 hps with h | h
      · have := hexit pb hpb'
        simp only [MatchPriceComparator, decide_eq_false_iff_not] at this
        omega
      · exact hb.uncrossed pb hpb' ps h
    · -- incoming buy
      have hps' : ps ∈ b.heap OrderSide.SELL := by
        have := hopp; simp only [OrderSide.opposite] at this; rw [this] at hps; exact hps
      rcases (hown pb).1 hpb with h | h
      · have := hexit ps hps'
        simp only [MatchPriceComparator, decide_eq_false_iff_not] at this
        omega
      · exact hb.uncrossed pb h ps hps'
  · intro q l hl n hn
    rw [hmap] at hl
    rcases mapFind_mapSet_some hl with ⟨hq', hl'⟩ | ⟨_, hl'⟩
    · subst hq'; subst hl'
      rcases List.mem_append.1 hn with hn | hn
      · exact (hb.nodes q _ (hlevel n hn) n hn).mono hsub hlt
      · rw [List.mem_singleton] at hn; subst hn; exact hnode
    · exact (hb.nodes q l hl' n hn).mono hsub hlt
  · intro q l hl
    rw [hmap] at hl
    rcases mapFind_mapSet_some hl with ⟨hq', hl'⟩ | ⟨_, hl'⟩
    · subst hq'; subst hl'
      rw [List.map_append, List.map_cons, List.map_nil]
      refine List.Nodup.append ?_ (List.nodup_singleton _) ?_
      · cases hf : mapFind b.orderMap_ q with
        | none => simp
        | some l => simp only [Option.getD_some]; exact hb.itersLevel q l hf
      · intro x hx hx'
        rw [List.mem_singleton] at hx'
        obtain ⟨n, hn, hni⟩ := List.mem_map.1 hx
        have := (hb.nodes q _ (hlevel n hn) n hn).2.2.2.2
        omega
    · exact hb.itersLevel q l hl'
  · intro q l q' l' n n' hl hl' hn hn' hit
    rw [hmap] at hl hl'
    have key : ∀ (r : Nat) (lr : TimeOrderList) (m m' : ListNode),
        mapFind b.orderMap_ r = some lr → r ≠ p → m ∈ lr →
        m' ∈ (mapFind b.orderMap_ p).getD [] ++ [node] → m.iter = m'.iter → False := by
      intro r lr m m' hr hrp hm hm' hmm
      rcases List.mem_append.1 hm' with hm' | hm'
      · exact hrp (hb.itersAcross r lr p _ m m' hr (hlevel m' hm') hm hm' hmm)
      · rw [List.mem_singleton] at hm'; subst hm'
        have := (hb.nodes r lr hr m hm).2.2.2.2
        omega
    rcases mapFind_mapSet_some hl with ⟨hq, h1⟩ | ⟨hq, h1⟩ <;>
      rcases mapFind_mapSet_some hl' with ⟨hq', h2⟩ | ⟨hq', h2⟩
    · rw [hq, hq']
    · subst h1
      exact (key q' l' n' n h2 hq' hn' hn hit.symm).elim
    · subst h2
      exact (key q l n n' h1 hq hn hn' hit).elim
    · exact hb.itersAcross q l q' l' n n' h1 h2 hn hn' hit
  · intro id it hfi
    rw [hord] at hfi
    rcases mapFind_mapSet_some hfi with ⟨hid, hit⟩ | ⟨_, hfo⟩
    · exact ⟨p, _, node, by rw [hmap]; exact mapFind_mapSet_same _ _ _,
        List.mem_append_right _ (List.mem_singleton_self _), hit.symm, hid.symm⟩
    · obtain ⟨q, l, n, hl, hn, hni, hnid⟩ := hb.index id it hfo
      by_cases hq : q = p
      · subst hq
        refine ⟨q, _, n, by rw [hmap]; exact mapFind_mapSet_same _ _ _, ?_, hni, hnid⟩
        rw [hl]
        exact List.mem_append_left _ hn
      · exact ⟨q, l, n, by rw [hmap, mapFind_mapSet_ne _ _ hq]; exact hl, hn, hni, hnid⟩

end RestInvariant

section AddOrderInvariant

@[simp] theorem restSplit_price (o : Order) (tq : Nat) : (restSplit o tq).price = o.price := by
  unfold restSplit; split_ifs <;> rfl

@[simp] theorem restSplit_id (o : Order) (tq : Nat) : (restSplit o tq).id = o.id := by
  unfold restSplit; split_ifs <;> rfl

@[simp] theorem restSplit_side (o : Order) (tq : Nat) : (restSplit o tq).side = o.side := by
  unfold restSplit; split_ifs <;> rfl

@[simp] theorem restSplit_peakSize (o : Order) (tq : Nat) :
    (restSplit o tq).peakSize = o.peakSize := by
  unfold restSplit; split_ifs <;> rfl

theorem restSplit_quantity_pos (o : Order) {tq : Nat} (h : 0 < tq) :
    0 < (restSplit o tq).quantity := by
  unfold restSplit
  split_ifs with hc
  · show 0 < o.peakSize - (o.quantity - tq) % o.peakSize
    have := Nat.mod_lt (o.quantity - tq) hc.1
    omega
  · exact h

theorem restSplit_hidden (o : Order) (tq : Nat) (h0 : o.hiddenQuantity = 0)
    (h : (restSplit o tq).hiddenQuantity ≠ 0) : 0 < (restSplit o tq).peakSize := by
  unfold restSplit at h ⊢
  split_ifs at h ⊢ with hc
  · exact hc.1
  · exact absurd h0 h

theorem restSplit_total (o : Order) (tq : Nat) (h0 : o.hiddenQuantity = 0) :
    (restSplit o tq).quantity + (restSplit o tq).hiddenQuantity = tq := by
  unfold restSplit
  split_ifs with hc
  · show o.peakSize - (o.quantity - tq) % o.peakSize +
      (tq - (o.peakSize - (o.quantity - tq) % o.peakSize)) = tq
    omega
  · show tq + o.hiddenQuantity = tq
    omega

/-- When the loop exits with quantity left, no price of the opposite heap crosses
the price of the incoming order. -/
theorem matchStep_none_exit {side : OrderSide} {price : Nat} {st : MatchState}
    (h : matchStep side price st = none) (hq : 0 < st.tempQuantity) :
    ∀ x ∈ st.book.heap side.opposite, MatchPriceComparator side x price = false := by
  intro x hx
  have hne : st.book.heap side.opposite ≠ [] := List.ne_nil_of_mem hx
  unfold matchStep at h
  simp only [] at h
  rw [if_pos ⟨hq, hne⟩] at h
  split_ifs at h with hc
  · split at h <;> cases h
  · cases side
    · have := le_heapTop_buy hx
      simp only [OrderSide.opposite, MatchPriceComparator, decide_eq_true_eq] at hc ⊢
      simp only [OrderSide.opposite] at this
      simp only [ge_iff_le, decide_eq_false_iff_not]
      omega
    · have := heapTop_sell_le hx
      simp only [OrderSide.opposite, MatchPriceComparator, decide_eq_true_eq] at hc ⊢
      simp only [OrderSide.opposite] at this
      simp only [decide_eq_false_iff_not]
      omega

theorem restOrder_of_zero (side : OrderSide) (order : Order) (st : MatchState)
    (h : st.tempQuantity = 0) : restOrder side order st = st.book := by
  unfold restOrder
  simp [h]

theorem restOrder_orderMap (side : OrderSide) (order : Order) (st : MatchState)
    (h : 0 < st.tempQuantity) :
    (restOrder side order st).orderMap_ = mapSet st.book.orderMap_ order.price
      ((mapFind st.book.orderMap_ order.price).getD [] ++
        [ListNode.mk st.book.nextIter (restSplit order st.tempQuantity)]) := by
  unfold restOrder
  simp only [h, if_true, restSplit_price]
  cases hf : mapFind st.book.orderMap_ order.price with
  | none =>
    simp only [setHeap_orderMap, mapFind_mapSet_same, Option.getD_some, Option.getD_none,
      mapSet_mapSet_same]
  | some l => simp only [hf, Option.getD_some]

theorem restOrder_orders (side : OrderSide) (order : Order) (st : MatchState)
    (h : 0 < st.tempQuantity) :
    (restOrder side order st).orders_ = mapSet st.book.orders_ order.id st.book.nextIter := by
  unfold restOrder
  simp only [h, if_true, restSplit_price, restSplit_id]
  cases hf : mapFind st.book.orderMap_ order.price <;> simp

theorem restOrder_nextIter (side : OrderSide) (order : Order) (st : MatchState)
    (h : 0 < st.tempQuantity) :
    (restOrder side order st).nextIter = st.book.nextIter + 1 := by
  unfold restOrder
  simp only [h, if_true, restSplit_price]
  cases hf : mapFind st.book.orderMap_ order.price <;> simp

theorem restOrder_heap_opposite (side : OrderSide) (order : Order) (st : MatchState) :
    (restOrder side order st).heap side.opposite = st.book.heap side.opposite := by
  unfold restOrder
  split_ifs with h
  · simp only [restSplit_price]
    cases hf : mapFind st.book.orderMap_ order.price <;> cases side <;> rfl
  · rfl

theorem restOrder_heap_same (side : OrderSide) (order : Order) (st : MatchState)
    (h : 0 < st.tempQuantity) :
    (restOrder side order st).heap side =
      if mapFind st.book.orderMap_ order.price = none then
        heapPush (st.book.heap side) order.price
      else st.book.heap side := by
  unfold restOrder
  simp only [h, if_true, restSplit_price]
  cases hf : mapFind st.book.orderMap_ order.price <;> cases side <;> simp <;> rfl

/-- Resting the residual of the incoming order keeps the invariant. -/
theorem Inv.rest {st : MatchState} {side : OrderSide} {order : Order}
    (hb : Inv st.book) (hexit : matchStep side order.price st = none)
    (hside : order.side = side) (hh : order.hiddenQuantity = 0) :
    Inv (restOrder side order st) := by
  rcases Nat.eq_zero_or_pos st.tempQuantity with h0 | hpos
  · rw [restOrder_of_zero _ _ _ h0]; exact hb
  · have hx := matchStep_none_exit hexit hpos
    refine hb.addNode side (ListNode.mk st.book.nextIter (restSplit order st.tempQuantity))
      order.price (restOrder_orderMap _ _ _ hpos) ?_ ?_ (restOrder_heap_opposite _ _ _)
      (restOrder_nextIter _ _ _ hpos) ?_ rfl ?_ ?_ (restSplit_quantity_pos _ hpos)
      (restSplit_hidden _ _ hh) hx
    · intro x
      rw [restOrder_heap_same _ _ _ hpos]
      split_ifs with hf
      · simp [heapPush]
      · constructor
        · exact Or.inr
        · rintro (h | h)
          · rw [h]
            have hk : order.price ∈ st.book.orderMap_.map Prod.fst := by
              by_contra hn
              exact hf (mapFind_eq_none_iff.2 hn)
            obtain ⟨s, hs⟩ := (hb.keysHeaps order.price).1 hk
            rcases side_cases side s with h | h
            · subst h; exact hs
            · subst h
              have := hx order.price hs
              rw [MatchPriceComparator_self] at this
              cases this
          · exact h
    · rw [restOrder_heap_same _ _ _ hpos]
      split_ifs with hf
      · refine List.nodup_cons.2 ⟨?_, hb.heapNodup _⟩
        intro hmem
        exact (mapFind_eq_none_iff.1 hf) ((hb.keysHeaps _).2 ⟨_, hmem⟩)
      · exact hb.heapNodup _
    · rw [restOrder_orders _ _ _ hpos]; simp
    · simp [hside]
    · simp

/-- The loop keeps the invariant, and it ends in a state in which its condition
fails. -/
theorem matchLoop_inv {side : OrderSide} {price : Nat} :
    ∀ (fuel : Nat) {st st' : MatchState}, Inv st.book →
      matchLoop side price fuel st = some st' →
      Inv st'.book ∧ matchStep side price st' = none := by
  intro fuel
  induction fuel with
  | zero => intro st st' _ h; cases h
  | succ fuel ih =>
    intro st st' hb h
    unfold matchLoop at h
    split at h
    · rename_i hs
      cases h
      exact ⟨hb, hs⟩
    · rename_i st1 hs
      exact ih (hb.step hs) h

theorem Inv.addInternal {b b' : OrderBook} {side : OrderSide} {fuel : Nat} {o : Order}
    {trades : List Trade} (hb : Inv b) (hside : o.side = side) (hh : o.hiddenQuantity = 0)
    (h : AddOrderInternal side fuel b o = some (b', trades)) : Inv b' := by
  unfold AddOrderInternal at h
  split at h
  · cases h
  · rename_i st hl
    cases h
    have hb0 : Inv (initMatch b o).book := hb
    obtain ⟨hi, hexit⟩ := matchLoop_inv fuel hb0 hl
    exact hi.rest hexit hside hh

theorem Inv.add {b b' : OrderBook} {fuel : Nat} {o : Order} {trades : List Trade}
    (hb : Inv b) (hh : o.hiddenQuantity = 0) (h : AddOrder fuel b o = some (b', trades)) :
    Inv b' := by
  unfold AddOrder at h
  split_ifs at h with hs
  · exact hb.addInternal hs hh h
  · have hs' : o.side = OrderSide.BUY := by
      cases hside : o.side
      · exact absurd hside hs
      · rfl
    exact hb.addInternal hs' hh h

theorem Inv.init : Inv OrderBook.empty := by
  constructor
  · exact List.nodup_nil
  · intro s; cases s <;> exact List.nodup_nil
  · intro p
    constructor
    · intro h; cases h
    · rintro ⟨s, hs⟩; cases s <;> cases hs
  · intro pb hpb; cases hpb
  · intro p l h; cases h
  · intro p l h; cases h
  · intro p l p' l' n n' h; cases h
  · intro id it h; cases h

end AddOrderInvariant

section CancelInvariant

theorem mem_restingNodes {m : List (Nat × TimeOrderList)} {n : ListNode} :
    n ∈ restingNodes m ↔ ∃ p l, (p, l) ∈ m ∧ n ∈ l := by
  unfold restingNodes
  simp only [List.mem_flatten, List.mem_map]
  constructor
  · rintro ⟨l, ⟨⟨p, l'⟩, hm, rfl⟩, hn⟩
    exact ⟨p, l', hm, hn⟩
  · rintro ⟨p, l, hm, hn⟩
    exact ⟨l, ⟨(p, l), hm, rfl⟩, hn⟩

theorem Inv.mem_resting {b : OrderBook} (hb : Inv b) {n : ListNode} :
    n ∈ restingNodes b.orderMap_ ↔ ∃ p l, mapFind b.orderMap_ p = some l ∧ n ∈ l := by
  rw [mem_restingNodes]
  constructor
  · rintro ⟨p, l, hm, hn⟩
    exact ⟨p, l, mapFind_of_mem hb.keysNodup hm, hn⟩
  · rintro ⟨p, l, hm, hn⟩
    exact ⟨p, l, mapFind_mem hm, hn⟩

/-- Two resting nodes with the same iterator are the same node, in the same level. -/
theorem Inv.iter_inj {b : OrderBook} (hb : Inv b) {p p' : Nat} {l l' : TimeOrderList}
    {n n' : ListNode} (hl : mapFind b.orderMap_ p = some l) (hl' : mapFind b.orderMap_ p' = some l')
    (hn : n ∈ l) (hn' : n' ∈ l') (h : n.iter = n'.iter) : p = p' ∧ n = n' := by
  have hp := hb.itersAcross p l p' l' n n' hl hl' hn hn' h
  subst hp
  rw [hl] at hl'
  have := Option.some.inj hl'
  subst this
  exact ⟨rfl, List.inj_on_of_nodup_map (hb.itersLevel p l hl) hn hn' h⟩

theorem derefIter_some {m : List (Nat × TimeOrderList)} {it : Nat} {o : Order}
    (h : derefIter m it = some o) : ∃ n ∈ restingNodes m, n.iter = it ∧ n.order = o := by
  unfold derefIter at h
  cases hf : (restingNodes m).find? (fun n => n.iter == it) with
  | none => rw [hf] at h; cases h
  | some n =>
    rw [hf] at h
    simp only [Option.map_some', Option.some.injEq] at h
    have h1 := List.find?_some hf
    simp only [beq_iff_eq] at h1
    exact ⟨n, List.mem_of_find?_eq_some hf, h1, h⟩

theorem derefIter_of_mem {b : OrderBook} (hb : Inv b) {p : Nat} {l : TimeOrderList}
    {n : ListNode} (hl : mapFind b.orderMap_ p = some l) (hn : n ∈ l) :
    derefIter b.orderMap_ n.iter = some n.order := by
  cases hd : derefIter b.orderMap_ n.iter with
  | none =>
    unfold derefIter at hd
    simp only [Option.map_eq_none', List.find?_eq_none] at hd
    have := hd n (hb.mem_resting.2 ⟨p, l, hl, hn⟩)
    simp at this
  | some o =>
    obtain ⟨n', hn', hi, ho⟩ := derefIter_some hd
    obtain ⟨p', l', hl', hnl'⟩ := hb.mem_resting.1 hn'
    have := (hb.iter_inj hl' hl hnl' hn hi).2
    rw [← ho, this]

theorem eraseP_congr_mem {α : Type} {f g : α → Bool} :
    ∀ {l : List α}, (∀ x ∈ l, f x = g x) → l.eraseP f = l.eraseP g
  | [], _ => rfl
  | a :: l, h => by
    have ha := h a (List.mem_cons_self _ _)
    have ih := eraseP_congr_mem (l := l) (fun x hx => h x (List.mem_cons_of_mem _ hx))
    simp only [List.eraseP_cons, ha, ih]

theorem eraseP_iter_eq_erase {b : OrderBook} (hb : Inv b) {p : Nat} {l : TimeOrderList}
    {n : ListNode} (hl : mapFind b.orderMap_ p = some l) (hn : n ∈ l) :
    l.eraseP (fun x => x.iter == n.iter) = l.erase n := by
  rw [List.erase_eq_eraseP]
  apply eraseP_congr_mem
  intro x hx
  by_cases h : x = n
  · subst h; simp
  · have : x.iter ≠ n.iter := fun hi => h (hb.iter_inj hl hl hx hn hi).2
    simp [this, Ne.symm h]

/-- The effect of `CancelOrder` on an id of the index: the node the entry denotes
is erased from the level of its price, and the entry is erased. -/
theorem cancel_found {b : OrderBook} (hb : Inv b) {id it : Nat}
    (hf : mapFind b.orders_ id = some it) :
    ∃ l n, mapFind b.orderMap_ n.order.price = some l ∧ n ∈ l ∧ n.iter = it ∧ n.order.id = id ∧
      CancelOrder b id = some (true, { b with
        orders_ := mapErase b.orders_ id,
        orderMap_ := mapSet b.orderMap_ n.order.price (l.erase n) }) := by
  obtain ⟨p, l, n, hl, hn, hni, hnid⟩ := hb.index id it hf
  have hp := (hb.nodes p l hl n hn).1
  subst hp
  refine ⟨l, n, hl, hn, hni, hnid, ?_⟩
  have hd := derefIter_of_mem hb hl hn
  rw [hni] at hd
  unfold CancelOrder
  simp only [hf, hd, hl, Option.getD_some]
  have hany : (l.any fun x => x.iter == it) = true := by
    rw [List.any_eq_true]
    exact ⟨n, hn, by simp [hni]⟩
  rw [if_pos hany, ← hni, eraseP_iter_eq_erase hb hl hn, hnid]

theorem cancel_not_found {b : OrderBook} {id : Nat} (hf : mapFind b.orders_ id = none) :
    CancelOrder b id = some (false, b) := by
  unfold CancelOrder
  simp only [hf]

theorem Inv.cancel {b b' : OrderBook} {id : Nat} {r : Bool} (hb : Inv b)
    (h : CancelOrder b id = some (r, b')) : Inv b' := by
  cases hf : mapFind b.orders_ id with
  | none =>
    rw [cancel_not_found hf] at h
    cases h
    exact hb
  | some it =>
    obtain ⟨l, n, hl, hn, hni, hnid, hc⟩ := cancel_found hb hf
    rw [hc] at h
    cases h
    have hnd := hb.itersLevel _ _ hl
    refine hb.setLevel rfl (fun s => by cases s <;> rfl) rfl hl ?_ ?_ ?_ ?_
    · intro x hx
      exact hb.nodes _ _ hl x (List.mem_of_mem_erase hx)
    · exact hnd.sublist ((List.erase_sublist n l).map _)
    · intro x hx
      exact ⟨x, List.mem_of_mem_erase hx, rfl⟩
    · intro id' it' hfi
      obtain ⟨hid, hfo⟩ := mapFind_mapErase_some hfi
      refine ⟨hfo, ?_⟩
      intro x hx hxi hxid
      refine ⟨x, ?_, hxi, hxid⟩
      have hne : x ≠ n := by
        intro hxn
        subst hxn
        exact hid (hxid.symm.trans hnid)
      exact (List.mem_erase_of_ne hne).2 hx

/-- Every reachable book satisfies the invariant. -/
theorem Reachable.inv {b : OrderBook} (h : Reachable b) : Inv b := by
  induction h with
  | empty => exact Inv.init
  | add b o fuel b' trades _ hh ha ih => exact ih.add hh ha
  | cancel b id r b' _ hc ih => exact ih.cancel hc

theorem ReachableFresh.reachable {b : OrderBook} (h : ReachableFresh b) : Reachable b := by
  induction h with
  | empty => exact Reachable.empty
  | add b o fuel b' trades _ hh _ ha ih => exact Reachable.add b o fuel b' trades ih hh ha
  | cancel b id r b' _ hc ih => exact Reachable.cancel b id r b' ih hc

end CancelInvariant

section Termination

theorem fillFront_heap_opposite (side : OrderSide) (b : OrderBook) (p : Nat) (front : ListNode)
    (rest : TimeOrderList) (q : Nat) :
    (fillFront side b p front rest q).heap side.opposite = b.heap side.opposite ∨
    (fillFront side b p front rest q).heap side.opposite =
      heapPop side.opposite (b.heap side.opposite) := by
  unfold fillFront
  simp only []
  split_ifs
  · left; cases side <;> rfl
  · right; cases side <;> rfl
  · left; cases side <;> rfl
  · left; cases side <;> rfl

theorem fillFront_heap_same (side : OrderSide) (b : OrderBook) (p : Nat) (front : ListNode)
    (rest : TimeOrderList) (q : Nat) :
    (fillFront side b p front rest q).heap side = b.heap side := by
  unfold fillFront
  simp only []
  split_ifs <;> cases side <;> rfl

theorem heapPop_length_le (side : OrderSide) (h : List Nat) :
    (heapPop side h).length ≤ h.length := by
  unfold heapPop
  exact (List.erase_sublist _ _).length_le

/-- The measure that decreases at each iteration: quantity left plus number of
prices in the opposite heap. -/
theorem matchStep_decreases {side : OrderSide} {price : Nat} {st st' : MatchState}
    (hb : Inv st.book) (h : matchStep side price st = some st') :
    st'.tempQuantity + (st'.book.heap side.opposite).length <
      st.tempQuantity + (st.book.heap side.opposite).length := by
  unfold matchStep at h
  simp only [] at h
  split_ifs at h with hc hx
  split at h
  · cases h
    show st.tempQuantity + ((dropLevel side st.book _).heap side.opposite).length < _
    rw [dropLevel_heap_opposite]
    have := heapPop_length side.opposite hc.2
    omega
  · rename_i front rest hl
    cases h
    have hlevel : mapFind st.book.orderMap_ (heapTop side.opposite (st.book.heap side.opposite))
        = some (front :: rest) := by
      cases hf : mapFind st.book.orderMap_ (heapTop side.opposite (st.book.heap side.opposite)) with
      | none => rw [hf] at hl; cases hl
      | some l => rw [hf] at hl; simp only [Option.getD_some] at hl; rw [hl]
    have hq := (hb.nodes _ _ hlevel front (List.mem_cons_self _ _)).2.2.1
    have hmin : 0 < min front.order.quantity st.tempQuantity := Nat.lt_min.2 ⟨hq, hc.1⟩
    have hle : min front.order.quantity st.tempQuantity ≤ st.tempQuantity := Nat.min_le_right _ _
    show st.tempQuantity - min front.order.quantity st.tempQuantity +
      ((fillFront side st.book _ front rest _).heap side.opposite).length < _
    rcases fillFront_heap_opposite side st.book
      (heapTop side.opposite (st.book.heap side.opposite)) front rest
      (min front.order.quantity st.tempQuantity) with h | h
    · rw [h]; omega
    · rw [h]
      have := heapPop_length_le side.opposite (st.book.heap side.opposite)
      omega

/-- On a book satisfying the invariant the matching loop exits: fuel above the
measure is enough. -/
theorem matchLoop_terminates (side : OrderSide) (price : Nat) :
    ∀ (fuel : Nat) (st : MatchState), Inv st.book →
      st.tempQuantity + (st.book.heap side.opposite).length < fuel →
      ∃ st', matchLoop side price fuel st = some st' := by
  intro fuel
  induction fuel with
  | zero => intro st _ h; omega
  | succ fuel ih =>
    intro st hb hlt
    unfold matchLoop
    cases hs : matchStep side price st with
    | none => exact ⟨st, rfl⟩
    | some st1 =>
      have := matchStep_decreases hb hs
      exact ih st1 (hb.step hs) (by omega)

/-- The result of the loop does not depend on the fuel. -/
theorem matchLoop_fuel_unique {side : OrderSide} {price : Nat} :
    ∀ (f1 f2 : Nat) {st r1 r2 : MatchState}, matchLoop side price f1 st = some r1 →
      matchLoop side price f2 st = some r2 → r1 = r2 := by
  intro f1
  induction f1 with
  | zero => intro f2 st r1 r2 h; cases h
  | succ f1 ih =>
    intro f2 st r1 r2 h1 h2
    cases f2 with
    | zero => cases h2
    | succ f2 =>
      unfold matchLoop at h1 h2
      cases hs : matchStep side price st with
      | none =>
        rw [hs] at h1 h2
        cases h1; cases h2; rfl
      | some st1 =>
        rw [hs] at h1 h2
        exact ih f2 h1 h2

/-- On a reachable book `AddOrder` returns, for every order. -/
theorem AddOrder_terminates {b : OrderBook} (hb : Inv b) (o : Order) :
    ∃ fuel r, AddOrder fuel b o = some r := by
  refine ⟨o.quantity + (b.heap o.side.opposite).length + 1, ?_⟩
  obtain ⟨st', hst⟩ := matchLoop_terminates o.side o.price
    (o.quantity + (b.heap o.side.opposite).length + 1) (initMatch b o) hb
    (by show o.quantity + (b.heap o.side.opposite).length < _; omega)
  unfold AddOrder AddOrderInternal
  cases hs : o.side
  · rw [hs] at hst
    simp only [if_true, hst]
    exact ⟨_, rfl⟩
  · rw [hs] at hst
    simp only [if_false, hst]
    exact ⟨_, rfl⟩

theorem AddOrder_fuel_unique {b : OrderBook} {o : Order} {f1 f2 : Nat}
    {r1 r2 : OrderBook × List Trade} (h1 : AddOrder f1 b o = some r1)
    (h2 : AddOrder f2 b o = some r2) : r1 = r2 := by
  unfold AddOrder AddOrderInternal at h1 h2
  split_ifs at h1 h2
  all_goals
    split at h1
    · cases h1
    · split at h2
      · cases h2
      · rename_i s1 hs1 _ s2 hs2
        have := matchLoop_fuel_unique _ _ hs1 hs2
        subst this
        cases h1; cases h2; rfl

theorem CancelOrder_total {b : OrderBook} (hb : Inv b) (id : Nat) :
    ∃ r, CancelOrder b id = some r := by
  cases hf : mapFind b.orders_ id with
  | none => exact ⟨_, cancel_not_found hf⟩
  | some it =>
    obtain ⟨l, n, _, _, _, _, hc⟩ := cancel_found hb hf
    exact ⟨_, hc⟩

end Termination

theorem bookBuy_reachable : Reachable bookBuy :=
  Reachable.add OrderBook.empty (Order.create 100 5 1 OrderSide.BUY 0) 5 bookBuy []
    Reachable.empty rfl (by decide)

theorem bookBuySell_reachable : Reachable bookBuySell :=
  Reachable.add bookBuy (Order.create 105 5 2 OrderSide.SELL 0) 5 bookBuySell []
    bookBuy_reachable rfl (by decide)

/-- C1 (uncrossed book): in every book reached from the empty book by `AddOrder`
and `CancelOrder` calls, each resting buy order has a price strictly below the
price of each resting sell order, and all orders of one price level have the
same side. -/
theorem C1_uncrossed_book (b : OrderBook) (hb : Reachable b) :
    (∀ nb ∈ restingNodes b.orderMap_, ∀ ns ∈ restingNodes b.orderMap_,
      nb.order.side = OrderSide.BUY → ns.order.side = OrderSide.SELL →
      nb.order.price < ns.order.price) ∧
    (∀ e ∈ b.orderMap_, ∀ n ∈ e.2, ∀ n' ∈ e.2, n.order.side = n'.order.side) := by
  have hi := hb.inv
  constructor
  · intro nb hnb ns hns hsb hss
    obtain ⟨p, l, hl, hn⟩ := hi.mem_resting.1 hnb
    obtain ⟨p', l', hl', hn'⟩ := hi.mem_resting.1 hns
    have h1 := hi.nodes p l hl nb hn
    have h2 := hi.nodes p' l' hl' ns hn'
    rw [h1.1, h2.1]
    exact hi.uncrossed p (by rw [← hsb]; exact h1.2.1) p' (by rw [← hss]; exact h2.2.1)
  · rintro ⟨p, l⟩ he n hn n' hn'
    have hl := mapFind_of_mem hi.keysNodup he
    have h1 := (hi.nodes p l hl n hn).2.1
    have h2 := (hi.nodes p l hl n' hn').2.1
    rcases side_cases n.order.side n'.order.side with h | h
    · exact h.symm
    · rw [h] at h2
      exact (hi.heaps_disjoint h1 h2).elim

theorem C1_uncrossed_book_witness :
    Reachable bookBuySell ∧
    ((∀ nb ∈ restingNodes bookBuySell.orderMap_, ∀ ns ∈ restingNodes bookBuySell.orderMap_,
      nb.order.side = OrderSide.BUY → ns.order.side = OrderSide.SELL →
      nb.order.price < ns.order.price) ∧
    (∀ e ∈ bookBuySell.orderMap_, ∀ n ∈ e.2, ∀ n' ∈ e.2, n.order.side = n'.order.side)) :=
  ⟨bookBuySell_reachable, C1_uncrossed_book bookBuySell bookBuySell_reachable⟩

/-- C4 (iceberg replenishment): when an iteration of the matching loop fills the
front order of the best opposite level down to visible quantity 0 while its
hidden quantity `h` is positive, the queue of that level after the iteration is
the other orders, unchanged and in their order, followed by that order with
visible quantity `min h peakSize` and hidden quantity `h - min h peakSize`. -/
theorem C4_iceberg_replenishment (side : OrderSide) (price : Nat) (st st' : MatchState)
    (front : ListNode) (rest : TimeOrderList)
    (hstep : matchStep side price st = some st')
    (hlevel : mapFind st.book.orderMap_ (heapTop side.opposite (st.book.heap side.opposite)) =
      some (front :: rest))
    (hzero : front.order.quantity - min front.order.quantity st.tempQuantity = 0)
    (hhidden : 0 < front.order.hiddenQuantity) :
    mapFind st'.book.orderMap_ (heapTop side.opposite (st.book.heap side.opposite)) =
      some (rest ++ [ListNode.mk front.iter
        { front.order with
          quantity := min front.order.hiddenQuantity front.order.peakSize,
          hiddenQuantity := front.order.hiddenQuantity -
            min front.order.hiddenQuantity front.order.peakSize }]) := by
  unfold matchStep at hstep
  simp only [hlevel, Option.getD_some] at hstep
  split_ifs at hstep with hc hx
  cases hstep
  show mapFind (fillFront side st.book _ front rest _).orderMap_ _ = _
  unfold fillFront
  have hne : front.order.hiddenQuantity ≠ 0 := Nat.pos_iff_ne_zero.1 hhidden
  simp only [hzero, hne, if_true, ne_eq, not_false_eq_true, mapFind_mapSet_same]
  rfl

theorem C4_iceberg_replenishment_witness :
    mapFind (MatchState.mk
        (OrderBook.mk
          [(100, [ListNode.mk 1 (Order.mk 100 10 0 0 2 OrderSide.SELL),
                  ListNode.mk 0 (Order.mk 100 10 80 10 1 OrderSide.SELL)])]
          [] [100] [(1, 0), (2, 1)] 2)
        5 [(1, 10)] [(1, 100)] [Fill.mk 1 100 10]).book.orderMap_
      (heapTop OrderSide.BUY.opposite (stateIcebergFront.book.heap OrderSide.BUY.opposite)) =
      some ([ListNode.mk 1 (Order.mk 100 10 0 0 2 OrderSide.SELL)] ++
        [ListNode.mk 0 (Order.mk 100 10 80 10 1 OrderSide.SELL)]) :=
  C4_iceberg_replenishment OrderSide.BUY 100 stateIcebergFront _
    (ListNode.mk 0 (Order.mk 100 10 90 10 1 OrderSide.SELL))
    [ListNode.mk 1 (Order.mk 100 10 0 0 2 OrderSide.SELL)]
    (by decide) (by decide) (by decide) (by decide)

theorem Inv.index_none {b : OrderBook} (hb : Inv b) {id : Nat} (hid : id ∉ restingIds b) :
    mapFind b.orders_ id = none := by
  cases hf : mapFind b.orders_ id with
  | none => rfl
  | some it =>
    obtain ⟨p, l, n, hl, hn, _, hnid⟩ := hb.index id it hf
    exfalso
    apply hid
    unfold restingIds
    exact List.mem_map.2 ⟨n, hb.mem_resting.2 ⟨p, l, hl, hn⟩, hnid⟩

/-- C9 (cancel of an unknown id): on a reachable book, `CancelOrder` of an id
that no resting order carries returns `false` and returns the book it was given
(price levels, both heaps, id index); any number of repeated cancels of that id
leaves the book unchanged. -/
theorem C9_cancel_unknown (b : OrderBook) (id : Nat) (hb : Reachable b)
    (hid : id ∉ restingIds b) :
    CancelOrder b id = some (false, b) ∧ ∀ k, cancelRepeat k b id = some b := by
  have hc : CancelOrder b id = some (false, b) := cancel_not_found (hb.inv.index_none hid)
  refine ⟨hc, ?_⟩
  intro k
  induction k with
  | zero => rfl
  | succ k ih =>
    unfold cancelRepeat
    rw [hc]
    exact ih

theorem C9_cancel_unknown_witness :
    Reachable bookBuySell ∧ 7 ∉ restingIds bookBuySell ∧
      (CancelOrder bookBuySell 7 = some (false, bookBuySell) ∧
        ∀ k, cancelRepeat k bookBuySell 7 = some bookBuySell) :=
  ⟨bookBuySell_reachable, by decide,
    C9_cancel_unknown bookBuySell 7 bookBuySell_reachable (by decide)⟩

section StepShape

theorem getD_eq_cons {l : Option TimeOrderList} {front : ListNode} {rest : TimeOrderList}
    (h : l.getD [] = front :: rest) : l = some (front :: rest) := by
  cases l with
  | none => cases h
  | some l' => simp only [Option.getD_some] at h; rw [h]

/-- The two shapes of an iteration of the loop: the best opposite level is empty
and is dropped, or its front order is filled. -/
theorem matchStep_some {side : OrderSide} {price : Nat} {st st' : MatchState}
    (h : matchStep side price st = some st') :
    0 < st.tempQuantity ∧ st.book.heap side.opposite ≠ [] ∧
    MatchPriceComparator side (heapTop side.opposite (st.book.heap side.opposite)) price = true ∧
    (((mapFind st.book.orderMap_ (heapTop side.opposite (st.book.heap side.opposite))).getD [] = [] ∧
        st' = MatchState.mk
          (dropLevel side st.book (heapTop side.opposite (st.book.heap side.opposite)))
          st.tempQuantity st.matchOrderQuantityMap st.matchOrderQueue st.fills) ∨
      ∃ front rest,
        mapFind st.book.orderMap_ (heapTop side.opposite (st.book.heap side.opposite)) =
          some (front :: rest) ∧
        st' = MatchState.mk
          (fillFront side st.book (heapTop side.opposite (st.book.heap side.opposite)) front rest
            (min front.order.quantity st.tempQuantity))
          (st.tempQuantity - min front.order.quantity st.tempQuantity)
          (AddMatchTrade (st.matchOrderQuantityMap, st.matchOrderQueue) front.order.id
            (heapTop side.opposite (st.book.heap side.opposite))
            (min front.order.quantity st.tempQuantity)).1
          (AddMatchTrade (st.matchOrderQuantityMap, st.matchOrderQueue) front.order.id
            (heapTop side.opposite (st.book.heap side.opposite))
            (min front.order.quantity st.tempQuantity)).2
          (st.fills ++ [Fill.mk front.order.id
            (heapTop side.opposite (st.book.heap side.opposite))
            (min front.order.quantity st.tempQuantity)])) := by
  unfold matchStep at h
  simp only [] at h
  split_ifs at h with hc hx
  refine ⟨hc.1, hc.2, hx, ?_⟩
  split at h
  · rename_i hl
    cases h
    exact Or.inl ⟨hl, rfl⟩
  · rename_i front rest hl
    cases h
    exact Or.inr ⟨front, rest, getD_eq_cons hl, rfl⟩

/-- A property kept by every iteration holds when the loop exits. -/
theorem matchLoop_induction {side : OrderSide} {price : Nat} (P : MatchState → Prop)
    (hstep : ∀ st st', Inv st.book → P st → matchStep side price st = some st' → P st') :
    ∀ (fuel : Nat) (st st' : MatchState), Inv st.book → P st →
      matchLoop side price fuel st = some st' → P st' := by
  intro fuel
  induction fuel with
  | zero => intro st st' _ _ h; cases h
  | succ fuel ih =>
    intro st st' hb hp h
    unfold matchLoop at h
    split at h
    · cases h; exact hp
    · rename_i st1 hs
      exact ih st1 st' (hb.step hs) (hstep st st1 hb hp hs) h

theorem fillQueue_ne_nil_of_rest {front : ListNode} {rest : TimeOrderList} (q : Nat)
    (h : rest ≠ []) : fillQueue front rest q ≠ [] := by
  unfold fillQueue
  simp only []
  split_ifs <;> simp [h]

/-- The levels after a fill: the level of the front node holds `fillQueue`, or is
gone when that queue is empty; no other level changes. -/
theorem fillFront_find (side : OrderSide) (b : OrderBook) (p : Nat) (front : ListNode)
    (rest : TimeOrderList) (q k : Nat) :
    mapFind (fillFront side b p front rest q).orderMap_ k =
      if k = p then (if fillQueue front rest q = [] then none else some (fillQueue front rest q))
      else mapFind b.orderMap_ k := by
  unfold fillFront fillQueue
  simp only []
  by_cases hk : k = p
  · subst hk
    simp only [if_true]
    split_ifs <;>
      first
        | exact mapFind_mapSet_same _ _ _
        | (rw [dropLevel_orderMap]; exact mapFind_mapErase_same _ _)
        | simp_all
  · simp only [hk, if_false]
    split_ifs <;>
      first
        | exact mapFind_mapSet_ne _ _ hk
        | (rw [dropLevel_orderMap]; exact mapFind_mapErase_ne _ hk)

theorem fillFront_orders (side : OrderSide) (b : OrderBook) (p : Nat) (front : ListNode)
    (rest : TimeOrderList) (q : Nat) :
    (fillFront side b p front rest q).orders_ =
      if front.order.quantity - q = 0 ∧ front.order.hiddenQuantity = 0 then
        mapErase b.orders_ front.order.id
      else b.orders_ := by
  unfold fillFront
  simp only []
  split_ifs <;> (try rw [dropLevel_orders]) <;> first | rfl | (exfalso; simp_all)

theorem fillFront_nextIter (side : OrderSide) (b : OrderBook) (p : Nat) (front : ListNode)
    (rest : TimeOrderList) (q : Nat) :
    (fillFront side b p front rest q).nextIter = b.nextIter := by
  unfold fillFront
  simp only []
  split_ifs <;> (try rw [dropLevel_nextIter]) <;> rfl

/-- A node of the queue after a fill is a node that was behind the front node, or
the front node with new quantities. -/
theorem mem_fillQueue {front n : ListNode} {rest : TimeOrderList} {q : Nat}
    (h : n ∈ fillQueue front rest q) :
    n ∈ rest ∨ (n.iter = front.iter ∧ n.order.id = front.order.id ∧
      n.order.price = front.order.price ∧ n.order.side = front.order.side ∧
      n.order.peakSize = front.order.peakSize ∧
      (front.order.quantity - q ≠ 0 ∨ front.order.hiddenQuantity ≠ 0)) := by
  unfold fillQueue at h
  simp only [] at h
  split_ifs at h with h0 hh
  · rcases List.mem_append.1 h with h | h
    · exact Or.inl h
    · rw [List.mem_singleton] at h
      subst h
      exact Or.inr ⟨rfl, rfl, rfl, rfl, rfl, Or.inr hh⟩
  · exact Or.inl h
  · rcases List.mem_cons.1 h with h | h
    · subst h
      exact Or.inr ⟨rfl, rfl, rfl, rfl, rfl, Or.inl h0⟩
    · exact Or.inl h

theorem mapFind_dropLevel {side : OrderSide} {b : OrderBook} {p k : Nat} {l : TimeOrderList}
    (h : mapFind (dropLevel side b p).orderMap_ k = some l) :
    k ≠ p ∧ mapFind b.orderMap_ k = some l := by
  rw [dropLevel_orderMap] at h
  exact mapFind_mapErase_some h

theorem mapFind_fillFront {side : OrderSide} {b : OrderBook} {p k q : Nat} {front : ListNode}
    {rest l : TimeOrderList} (h : mapFind (fillFront side b p front rest q).orderMap_ k = some l) :
    (k = p ∧ l = fillQueue front rest q) ∨ (k ≠ p ∧ mapFind b.orderMap_ k = some l) := by
  rw [fillFront_find] at h
  split_ifs at h with hk hq
  · exact Or.inl ⟨hk, (Option.some.inj h).symm⟩
  · exact Or.inr ⟨hk, h⟩

end StepShape

section EvolvesIndexed

theorem Evolves.refl (b : OrderBook) : Evolves b b :=
  fun _ l n hl hn => ⟨l, n, hl, hn, rfl, rfl, rfl, rfl, rfl⟩

theorem Evolves.trans {b0 b1 b2 : OrderBook} (h01 : Evolves b0 b1) (h12 : Evolves b1 b2) :
    Evolves b0 b2 := by
  intro p l n hl hn
  obtain ⟨l1, n1, hl1, hn1, e1, e2, e3, e4, e5⟩ := h12 p l n hl hn
  obtain ⟨l0, n0, hl0, hn0, f1, f2, f3, f4, f5⟩ := h01 p l1 n1 hl1 hn1
  exact ⟨l0, n0, hl0, hn0, f1.trans e1, f2.trans e2, f3.trans e3, f4.trans e4, f5.trans e5⟩

theorem matchStep_evolves {side : OrderSide} {price : Nat} {st st' : MatchState}
    (h : matchStep side price st = some st') : Evolves st.book st'.book := by
  obtain ⟨_, _, _, hcase⟩ := matchStep_some h
  rcases hcase with ⟨_, rfl⟩ | ⟨front, rest, hlevel, rfl⟩
  · intro p l n hl hn
    exact ⟨l, n, (mapFind_dropLevel hl).2, hn, rfl, rfl, rfl, rfl, rfl⟩
  · intro p l n hl hn
    rcases mapFind_fillFront hl with ⟨hk, hl'⟩ | ⟨_, hl'⟩
    · subst hk; subst hl'
      rcases mem_fillQueue hn with hn | ⟨e1, e2, e3, e4, e5, _⟩
      · exact ⟨_, n, hlevel, List.mem_cons_of_mem _ hn, rfl, rfl, rfl, rfl, rfl⟩
      · exact ⟨_, front, hlevel, List.mem_cons_self _ _, e1.symm, e2.symm, e3.symm, e4.symm,
          e5.symm⟩
    · exact ⟨l, n, hl', hn, rfl, rfl, rfl, rfl, rfl⟩

theorem matchLoop_evolves {side : OrderSide} {price : Nat} {fuel : Nat} {st st' : MatchState}
    (hb : Inv st.book) (h : matchLoop side price fuel st = some st') :
    Evolves st.book st'.book :=
  matchLoop_induction (fun s => Evolves st.book s.book)
    (fun _ _ _ hp hs => hp.trans (matchStep_evolves hs)) fuel st st' hb (Evolves.refl _) h

/-- The ids of a book that evolved from `b0` are ids of `b0`. -/
theorem Evolves.ids {b0 b : OrderBook} (h : Evolves b0 b) (hb0 : Inv b0) {p : Nat}
    {l : TimeOrderList} {n : ListNode} (hl : mapFind b.orderMap_ p = some l) (hn : n ∈ l) :
    n.order.id ∈ restingIds b0 := by
  obtain ⟨l0, n0, hl0, hn0, _, e2, _⟩ := h p l n hl hn
  unfold restingIds
  exact List.mem_map.2 ⟨n0, hb0.mem_resting.2 ⟨p, l0, hl0, hn0⟩, e2⟩

theorem Indexed.stepIdx {side : OrderSide} {price : Nat} {st st' : MatchState}
    (hb : Inv st.book) (hi : Indexed st.book) (h : matchStep side price st = some st') :
    Indexed st'.book := by
  obtain ⟨_, _, _, hcase⟩ := matchStep_some h
  rcases hcase with ⟨_, rfl⟩ | ⟨front, rest, hlevel, rfl⟩
  · intro p l n hl hn
    show mapFind (dropLevel side st.book _).orders_ _ = _
    rw [dropLevel_orders]
    exact hi p l n (mapFind_dropLevel hl).2 hn
  · have hfront := hi _ _ front hlevel (List.mem_cons_self _ _)
    have hnd := hb.itersLevel _ _ hlevel
    simp only [List.map_cons, List.nodup_cons] at hnd
    -- a node of the old book other than the front node has another id
    have hother : ∀ k l n, mapFind st.book.orderMap_ k = some l → n ∈ l →
        n.iter ≠ front.iter → n.order.id ≠ front.order.id := by
      intro k l n hl hn hne hid
      have := hi k l n hl hn
      rw [hid, hfront] at this
      exact hne (Option.some.inj this).symm
    have hkeep : ∀ k l n, mapFind st.book.orderMap_ k = some l → n ∈ l →
        n.iter ≠ front.iter →
        mapFind (fillFront side st.book (heapTop side.opposite (st.book.heap side.opposite))
          front rest (min front.order.quantity st.tempQuantity)).orders_ n.order.id =
          some n.iter := by
      intro k l n hl hn hne
      rw [fillFront_orders]
      split_ifs
      · rw [mapFind_mapErase_ne _ (hother k l n hl hn hne)]
        exact hi k l n hl hn
      · exact hi k l n hl hn
    intro p l n hl hn
    rcases mapFind_fillFront hl with ⟨hk, hl'⟩ | ⟨hk, hl'⟩
    · subst hk; subst hl'
      rcases mem_fillQueue hn with hn | ⟨e1, e2, _, _, _, e6⟩
      · refine hkeep _ _ n hlevel (List.mem_cons_of_mem _ hn) ?_
        intro he
        exact hnd.1 (List.mem_map.2 ⟨n, hn, he⟩)
      · show mapFind (fillFront side st.book _ front rest _).orders_ _ = _
        rw [fillFront_orders, e1, e2]
        have : ¬(front.order.quantity - min front.order.quantity st.tempQuantity = 0 ∧
            front.order.hiddenQuantity = 0) := by
          rintro ⟨h1, h2⟩
          rcases e6 with h | h
          · exact h h1
          · exact h h2
        rw [if_neg this]
        exact hfront
    · refine hkeep p l n hl' hn ?_
      intro he
      exact hk (hb.iter_inj hl' hlevel hn (List.mem_cons_self _ _) he).1

theorem AddOrder_some {fuel : Nat} {b b' : OrderBook} {o : Order} {trades : List Trade}
    (h : AddOrder fuel b o = some (b', trades)) :
    ∃ st, matchLoop o.side o.price fuel (initMatch b o) = some st ∧
      b' = restOrder o.side o st ∧
      trades = PrintTrades o.side st.matchOrderQuantityMap st.matchOrderQueue o := by
  unfold AddOrder AddOrderInternal at h
  cases hs : o.side <;> rw [hs] at h <;> simp only [if_true, if_false, reduceCtorEq] at h
  all_goals
    split at h
    · cases h
    · rename_i st hl
      cases h
      exact ⟨st, hl, rfl, rfl⟩

theorem restOrder_find (side : OrderSide) (order : Order) (st : MatchState)
    (h : 0 < st.tempQuantity) (k : Nat) :
    mapFind (restOrder side order st).orderMap_ k =
      if k = order.price then
        some ((mapFind st.book.orderMap_ order.price).getD [] ++
          [ListNode.mk st.book.nextIter (restSplit order st.tempQuantity)])
      else mapFind st.book.orderMap_ k := by
  rw [restOrder_orderMap _ _ _ h]
  split_ifs with hk
  · subst hk; exact mapFind_mapSet_same _ _ _
  · exact mapFind_mapSet_ne _ _ hk

theorem mem_getD_nil {m : List (Nat × TimeOrderList)} {p : Nat} {n : ListNode}
    (h : n ∈ (mapFind m p).getD []) : mapFind m p = some ((mapFind m p).getD []) := by
  cases hf : mapFind m p with
  | none => rw [hf] at h; cases h
  | some l => rfl

theorem Indexed.restIdx {side : OrderSide} {o : Order} {st : MatchState} (hi : Indexed st.book)
    (hfresh : ∀ p l n, mapFind st.book.orderMap_ p = some l → n ∈ l → n.order.id ≠ o.id) :
    Indexed (restOrder side o st) := by
  rcases Nat.eq_zero_or_pos st.tempQuantity with h0 | hpos
  · rw [restOrder_of_zero _ _ _ h0]; exact hi
  · intro p l n hl hn
    rw [restOrder_orders _ _ _ hpos]
    rw [restOrder_find _ _ _ hpos] at hl
    have hold : ∀ k l' n', mapFind st.book.orderMap_ k = some l' → n' ∈ l' →
        mapFind (mapSet st.book.orders_ o.id st.book.nextIter) n'.order.id = some n'.iter := by
      intro k l' n' hl' hn'
      rw [mapFind_mapSet_ne _ _ (hfresh k l' n' hl' hn')]
      exact hi k l' n' hl' hn'
    split_ifs at hl with hk
    · have := Option.some.inj hl
      subst this
      rcases List.mem_append.1 hn with hn | hn
      · exact hold _ _ n (mem_getD_nil hn) hn
      · rw [List.mem_singleton] at hn
        subst hn
        simp only [restSplit_id]
        exact mapFind_mapSet_same _ _ _
    · exact hold p l n hl hn

theorem Indexed.cancelIdx {b b' : OrderBook} {id : Nat} {r : Bool} (hb : Inv b) (hi : Indexed b)
    (h : CancelOrder b id = some (r, b')) : Indexed b' := by
  cases hf : mapFind b.orders_ id with
  | none =>
    rw [cancel_not_found hf] at h
    cases h
    exact hi
  | some it =>
    obtain ⟨l, n, hl, hn, hni, hnid, hc⟩ := cancel_found hb hf
    rw [hc] at h
    cases h
    have hnd := hb.itersLevel _ _ hl
    have hkeep : ∀ k l' n', mapFind b.orderMap_ k = some l' → n' ∈ l' → n' ≠ n →
        mapFind (mapErase b.orders_ id) n'.order.id = some n'.iter := by
      intro k l' n' hl' hn' hne
      have hid : n'.order.id ≠ id := by
        intro hid
        have h1 := hi k l' n' hl' hn'
        rw [hid, hf] at h1
        have h2 : n'.iter = n.iter := (Option.some.inj h1).symm.trans hni.symm
        exact hne (hb.iter_inj hl' hl hn' hn h2).2
      rw [mapFind_mapErase_ne _ hid]
      exact hi k l' n' hl' hn'
    intro p l' n' hl' hn'
    rcases mapFind_mapSet_some hl' with ⟨hk, hl''⟩ | ⟨hk, hl''⟩
    · subst hk; subst hl''
      have hmem : n' ∈ l := List.mem_of_mem_erase hn'
      refine hkeep _ l n' hl hmem ?_
      intro he
      subst he
      exact (List.Nodup.not_mem_erase (hnd.of_map _)) hn'
    · refine hkeep p l' n' hl'' hn' ?_
      intro he
      subst he
      exact hk (hb.nodes p l' hl'' n' hn').1.symm

theorem ReachableFresh.indexed {b : OrderBook} (h : ReachableFresh b) : Indexed b := by
  induction h with
  | empty => intro p l n hl; cases hl
  | add b o fuel b' trades hr hh hfresh ha ih =>
    have hb := hr.reachable.inv
    obtain ⟨st, hloop, rfl, _⟩ := AddOrder_some ha
    have hb0 : Inv (initMatch b o).book := hb
    have hi : Indexed st.book :=
      matchLoop_induction (fun s => Indexed s.book) (fun _ _ hinv hp hs => hp.stepIdx hinv hs)
        fuel _ st hb0 ih hloop
    have hev : Evolves b st.book := matchLoop_evolves hb0 hloop
    refine hi.restIdx ?_
    intro p l n hl hn hid
    exact hfresh (hid ▸ hev.ids hb hl hn)
  | cancel b id r b' hr hc ih => exact ih.cancelIdx hr.reachable.inv hc

end EvolvesIndexed

section CancelResting

theorem restingNodes_cons (e : Nat × TimeOrderList) (m : List (Nat × TimeOrderList)) :
    restingNodes (e :: m) = e.2 ++ restingNodes m := by
  simp [restingNodes]

theorem mapErase_of_not_mem {β : Type} {m : List (Nat × β)} {k : Nat}
    (h : k ∉ m.map Prod.fst) : mapErase m k = m := by
  unfold mapErase
  rw [List.filter_eq_self]
  intro e he
  have : e.1 ≠ k := fun hk => h (hk ▸ List.mem_map_of_mem Prod.fst he)
  simp [this]

/-- The nodes of all levels, around the level `p`: replacing or erasing that
level only changes its own segment. -/
theorem restingNodes_split {m : List (Nat × TimeOrderList)} {p : Nat} {l : TimeOrderList}
    (hnd : (m.map Prod.fst).Nodup) (h : mapFind m p = some l) :
    ∃ pre post, restingNodes m = pre ++ l ++ post ∧
      (∀ v, restingNodes (mapSet m p v) = pre ++ v ++ post) ∧
      restingNodes (mapErase m p) = pre ++ post ∧
      (∀ n ∈ pre ++ post, ∃ k l', k ≠ p ∧ mapFind m k = some l' ∧ n ∈ l') := by
  induction m with
  | nil => cases h
  | cons e rest ih =>
    have hnd' := hnd
    simp only [List.map_cons, List.nodup_cons] at hnd
    by_cases hk : e.1 = p
    · have hl : e.2 = l := by
        unfold mapFind at h
        rw [if_pos hk] at h
        exact Option.some.inj h
      have hp : p ∉ rest.map Prod.fst := hk ▸ hnd.1
      refine ⟨[], restingNodes rest, ?_, ?_, ?_, ?_⟩
      · rw [restingNodes_cons, hl]; rfl
      · intro v
        rw [mapSet_cons_eq _ _ hk, restingNodes_cons]; rfl
      · have : mapErase (e :: rest) p = mapErase rest p := by
          unfold mapErase
          simp [List.filter_cons, hk]
        rw [this, mapErase_of_not_mem hp]; rfl
      · intro n hn
        simp only [List.nil_append] at hn
        obtain ⟨k, l', hm, hnl⟩ := mem_restingNodes.1 hn
        have hkp : k ≠ p := fun hkp => hp (hkp ▸ List.mem_map_of_mem Prod.fst hm)
        exact ⟨k, l', hkp, mapFind_of_mem hnd' (List.mem_cons_of_mem _ hm), hnl⟩
    · have h' : mapFind rest p = some l := by
        unfold mapFind at h
        rw [if_neg hk] at h
        exact h
      obtain ⟨pre, post, h1, h2, h3, h4⟩ := ih hnd.2 h'
      refine ⟨e.2 ++ pre, post, ?_, ?_, ?_, ?_⟩
      · rw [restingNodes_cons, h1]; simp
      · intro v
        rw [mapSet_cons_ne _ _ hk, restingNodes_cons, h2]; simp
      · have : mapErase (e :: rest) p = e :: mapErase rest p := by
          unfold mapErase
          simp [List.filter_cons, hk]
        rw [this, restingNodes_cons, h3]; simp
      · intro n hn
        rw [List.append_assoc, List.mem_append] at hn
        rcases hn with hn | hn
        · refine ⟨e.1, e.2, hk, ?_, hn⟩
          unfold mapFind
          simp
        · obtain ⟨k, l', hkp, hm, hnl⟩ := h4 n hn
          refine ⟨k, l', hkp, ?_, hnl⟩
          have hek : e.1 ≠ k := by
            intro hek
            apply hnd.1
            rw [hek]
            exact mapFind_isSome_iff.1 ⟨l', hm⟩
          unfold mapFind
          rw [if_neg hek]
          exact hm

/-- Erasing a node from its level erases it from the list of all resting nodes. -/
theorem restingNodes_erase {b : OrderBook} (hb : Inv b) {p : Nat} {l : TimeOrderList}
    {n : ListNode} (hl : mapFind b.orderMap_ p = some l) (hn : n ∈ l) :
    restingNodes (mapSet b.orderMap_ p (l.erase n)) = (restingNodes b.orderMap_).erase n := by
  obtain ⟨pre, post, h1, h2, _, h4⟩ := restingNodes_split hb.keysNodup hl
  rw [h1, h2]
  have hpre : n ∉ pre := by
    intro hmem
    obtain ⟨k, l', hkp, hm, hnl⟩ := h4 n (List.mem_append_left _ hmem)
    exact hkp (hb.iter_inj hm hl hnl hn rfl).1
  rw [List.append_assoc, List.append_assoc, List.erase_append_right _ hpre,
    List.erase_append_left _ hn]

theorem bookBuySell_fresh : ReachableFresh bookBuySell :=
  ReachableFresh.add bookBuy (Order.create 105 5 2 OrderSide.SELL 0) 5 bookBuySell []
    (ReachableFresh.add OrderBook.empty (Order.create 100 5 1 OrderSide.BUY 0) 5 bookBuy []
      ReachableFresh.empty rfl (by decide) (by decide))
    rfl (by decide) (by decide)

theorem bookTwiceCancelled_reachable : Reachable bookTwiceCancelled :=
  Reachable.cancel bookTwice 1 true bookTwiceCancelled
    (Reachable.add bookBuy (Order.create 101 5 1 OrderSide.BUY 0) 5 bookTwice []
      bookBuy_reachable rfl (by decide)) (by decide)

/-- C10, as stated, fails: after `L B 1 100 5`, `L B 1 101 5`, `C1` the resting
ids are distinct and the id 1 rests, yet `CancelOrder(1)` returns `false` and
removes nothing. -/
theorem C10_cancel_resting_counterexample :
    Reachable bookTwiceCancelled ∧ (restingIds bookTwiceCancelled).Nodup ∧
      1 ∈ restingIds bookTwiceCancelled ∧
      CancelOrder bookTwiceCancelled 1 = some (false, bookTwiceCancelled) :=
  ⟨bookTwiceCancelled_reachable, by decide, by decide, by decide⟩

/-- C10 (cancel of a resting order), amended: on a book reached by calls in which
every submitted id differs from the ids resting at that moment, `CancelOrder` of
the id of a resting order returns `true`; exactly the node of that order leaves
the queue of its level and the list of all resting nodes, every other node
keeping its place and its fields; the id leaves the index; the heaps are
untouched; a second `CancelOrder` of the id returns `false` and changes nothing. -/
theorem C10_cancel_resting (b : OrderBook) (id : Nat) (hb : ReachableFresh b)
    (hid : id ∈ restingIds b) :
    ∃ l n b', n.order.id = id ∧ mapFind b.orderMap_ n.order.price = some l ∧ n ∈ l ∧
      CancelOrder b id = some (true, b') ∧
      mapFind b'.orderMap_ n.order.price = some (l.erase n) ∧
      (∀ k, k ≠ n.order.price → mapFind b'.orderMap_ k = mapFind b.orderMap_ k) ∧
      restingNodes b'.orderMap_ = (restingNodes b.orderMap_).erase n ∧
      b'.orders_ = mapErase b.orders_ id ∧ mapFind b'.orders_ id = none ∧
      b'.buyOrderHeap_ = b.buyOrderHeap_ ∧ b'.sellOrderHeap_ = b.sellOrderHeap_ ∧
      CancelOrder b' id = some (false, b') := by
  have hinv := hb.reachable.inv
  unfold restingIds at hid
  obtain ⟨n0, hn0, hn0id⟩ := List.mem_map.1 hid
  obtain ⟨p0, l0, hl0, hnl0⟩ := hinv.mem_resting.1 hn0
  have hf := hb.indexed p0 l0 n0 hl0 hnl0
  rw [hn0id] at hf
  obtain ⟨l, n, hl, hn, _, hnid, hc⟩ := cancel_found hinv hf
  refine ⟨l, n, _, hnid, hl, hn, hc, mapFind_mapSet_same _ _ _,
    fun k hk => mapFind_mapSet_ne _ _ hk, restingNodes_erase hinv hl hn, rfl,
    mapFind_mapErase_same _ _, rfl, rfl, ?_⟩
  exact cancel_not_found (mapFind_mapErase_same _ _)

theorem C10_cancel_resting_witness :
    ReachableFresh bookBuySell ∧ 2 ∈ restingIds bookBuySell ∧
    ∃ l n b', n.order.id = 2 ∧ mapFind bookBuySell.orderMap_ n.order.price = some l ∧ n ∈ l ∧
      CancelOrder bookBuySell 2 = some (true, b') ∧
      mapFind b'.orderMap_ n.order.price = some (l.erase n) ∧
      (∀ k, k ≠ n.order.price → mapFind b'.orderMap_ k = mapFind bookBuySell.orderMap_ k) ∧
      restingNodes b'.orderMap_ = (restingNodes bookBuySell.orderMap_).erase n ∧
      b'.orders_ = mapErase bookBuySell.orders_ 2 ∧ mapFind b'.orders_ 2 = none ∧
      b'.buyOrderHeap_ = bookBuySell.buyOrderHeap_ ∧
      b'.sellOrderHeap_ = bookBuySell.sellOrderHeap_ ∧
      CancelOrder b' 2 = some (false, b') :=
  ⟨bookBuySell_fresh, by decide, C10_cancel_resting bookBuySell 2 bookBuySell_fresh (by decide)⟩

end CancelResting

section Aggregation

theorem mem_firstTouched {xs : List Nat} {y : Nat} : y ∈ firstTouched xs ↔ y ∈ xs := by
  induction xs with
  | nil => simp [firstTouched]
  | cons x xs ih =>
    unfold firstTouched
    simp only [List.mem_cons, List.mem_filter, ih, Bool.not_eq_true', beq_eq_false_iff_ne]
    constructor
    · rintro (h | ⟨h, _⟩)
      · exact Or.inl h
      · exact Or.inr h
    · intro h
      by_cases hy : y = x
      · exact Or.inl hy
      · rcases h with h | h
        · exact Or.inl h
        · exact Or.inr ⟨h, hy⟩

theorem firstTouched_nodup (xs : List Nat) : (firstTouched xs).Nodup := by
  induction xs with
  | nil => exact List.nodup_nil
  | cons x xs ih =>
    unfold firstTouched
    refine List.nodup_cons.2 ⟨?_, ih.filter _⟩
    simp [List.mem_filter]

theorem firstTouched_cons (x : Nat) (xs : List Nat) :
    firstTouched (x :: xs) = x :: (firstTouched xs).filter (fun y => !(y == x)) := rfl

theorem firstTouched_append_singleton (xs : List Nat) (x : Nat) :
    firstTouched (xs ++ [x]) = if x ∈ xs then firstTouched xs else firstTouched xs ++ [x] := by
  induction xs with
  | nil => simp [firstTouched]
  | cons a xs ih =>
    rw [List.cons_append, firstTouched_cons, ih]
    by_cases hx : x ∈ xs
    · rw [if_pos hx, if_pos (List.mem_cons_of_mem _ hx), firstTouched_cons]
    · rw [if_neg hx]
      by_cases hax : x = a
      · subst hax
        rw [if_pos (List.mem_cons_self _ _), firstTouched_cons]
        simp [List.filter_append]
      · have hn : x ∉ a :: xs := by
          intro h
          rcases List.mem_cons.1 h with h | h
          · exact hax h
          · exact hx h
        rw [if_neg hn, firstTouched_cons]
        simp [List.filter_append, hax]

theorem filledQuantity_append (fs gs : List Fill) (id : Nat) :
    filledQuantity (fs ++ gs) id = filledQuantity fs id + filledQuantity gs id := by
  simp [filledQuantity, List.filter_append]

theorem filledQuantity_singleton (f : Fill) (id : Nat) :
    filledQuantity [f] id = if f.id = id then f.quantity else 0 := by
  unfold filledQuantity
  by_cases h : f.id = id <;> simp [List.filter_cons, h]

theorem filledQuantity_of_not_mem {fs : List Fill} {id : Nat} (h : id ∉ fs.map Fill.id) :
    filledQuantity fs id = 0 := by
  unfold filledQuantity
  have : fs.filter (fun f => f.id == id) = [] := by
    rw [List.filter_eq_nil_iff]
    intro f hf
    simp only [beq_iff_eq]
    intro hid
    exact h (List.mem_map.2 ⟨f, hf, hid⟩)
  rw [this]; rfl

theorem aggregate_append_singleton (fs : List Fill) (f : Fill) :
    aggregate (fs ++ [f]) = AddMatchTrade (aggregate fs) f.id f.price f.quantity := by
  simp [aggregate, List.foldl_append]

/-- What the aggregation state holds after a list of fills: one quantity per id
touched, equal to the sum of the fills against that id, and the ids in the order
of their first fill, each with the price of a fill against it. -/
theorem aggregate_spec (fs : List Fill) :
    (∀ id, mapFind (aggregate fs).1 id =
      if id ∈ fs.map Fill.id then some (filledQuantity fs id) else none) ∧
    (aggregate fs).2.map Prod.fst = firstTouched (fs.map Fill.id) ∧
    (∀ e ∈ (aggregate fs).2, ∃ f ∈ fs, f.id = e.1 ∧ f.price = e.2) := by
  induction fs using List.reverseRecOn with
  | nil =>
    refine ⟨fun id => by simp [aggregate, mapFind], by simp [aggregate, firstTouched], ?_⟩
    intro e he
    simp [aggregate] at he
  | append_singleton fs f ih =>
    obtain ⟨h1, h2, h3⟩ := ih
    rw [aggregate_append_singleton]
    unfold AddMatchTrade
    have hf := h1 f.id
    by_cases hmem : f.id ∈ fs.map Fill.id
    · rw [if_pos hmem] at hf
      simp only [hf]
      refine ⟨?_, ?_, ?_⟩
      · intro id
        by_cases hid : id = f.id
        · subst hid
          rw [mapFind_mapSet_same]
          simp [filledQuantity_append, filledQuantity_singleton]
        · rw [mapFind_mapSet_ne _ _ hid, h1 id]
          have hne : f.id ≠ id := fun h => hid h.symm
          simp [filledQuantity_append, filledQuantity_singleton, hne, hid]
      · rw [h2, List.map_append, List.map_cons, List.map_nil, firstTouched_append_singleton,
          if_pos hmem]
      · intro e he
        obtain ⟨g, hg, hg1, hg2⟩ := h3 e he
        exact ⟨g, List.mem_append_left _ hg, hg1, hg2⟩
    · rw [if_neg hmem] at hf
      simp only [hf]
      refine ⟨?_, ?_, ?_⟩
      · intro id
        by_cases hid : id = f.id
        · subst hid
          rw [mapFind_mapSet_same]
          simp [filledQuantity_append, filledQuantity_singleton, filledQuantity_of_not_mem hmem]
        · rw [mapFind_mapSet_ne _ _ hid, h1 id]
          have hne : f.id ≠ id := fun h => hid h.symm
          simp [filledQuantity_append, filledQuantity_singleton, hne, hid]
      · rw [List.map_append, h2, List.map_append, List.map_cons, List.map_nil, List.map_cons,
          List.map_nil, firstTouched_append_singleton, if_neg hmem]
      · intro e he
        rcases List.mem_append.1 he with he | he
        · obtain ⟨g, hg, hg1, hg2⟩ := h3 e he
          exact ⟨g, List.mem_append_left _ hg, hg1, hg2⟩
        · rw [List.mem_singleton] at he
          subst he
          exact ⟨f, List.mem_append_right _ (List.mem_singleton_self _), rfl, rfl⟩

/-- The aggregation variables of the loop are the aggregate of the fills made. -/
theorem matchStep_aggregate {side : OrderSide} {price : Nat} {st st' : MatchState}
    (hp : (st.matchOrderQuantityMap, st.matchOrderQueue) = aggregate st.fills)
    (h : matchStep side price st = some st') :
    (st'.matchOrderQuantityMap, st'.matchOrderQueue) = aggregate st'.fills := by
  obtain ⟨_, _, _, hcase⟩ := matchStep_some h
  rcases hcase with ⟨_, rfl⟩ | ⟨front, rest, _, rfl⟩
  · exact hp
  · show (_, _) = aggregate (st.fills ++ [_])
    rw [aggregate_append_singleton, ← hp]

theorem matchLoop_aggregate {side : OrderSide} {price : Nat} {fuel : Nat} {b : OrderBook}
    {o : Order} {st : MatchState} (hb : Inv b)
    (h : matchLoop side price fuel (initMatch b o) = some st) :
    (st.matchOrderQuantityMap, st.matchOrderQueue) = aggregate st.fills :=
  matchLoop_induction
    (fun s => (s.matchOrderQuantityMap, s.matchOrderQueue) = aggregate s.fills)
    (fun _ _ _ hp hs => matchStep_aggregate hp hs) fuel _ st hb rfl h

theorem counterparty_OrderIdMatch (side : OrderSide) (fromBook id price quantity : Nat) :
    Trade.counterparty side (Trade.mk (OrderIdMatch side fromBook id).1
      (OrderIdMatch side fromBook id).2 price quantity) = fromBook := by
  cases side <;> rfl

theorem PrintTrades_counterparty (side : OrderSide) (m q : List (Nat × Nat)) (o : Order) :
    (PrintTrades side m q o).map (Trade.counterparty side) = q.map Prod.fst := by
  unfold PrintTrades
  rw [List.map_map]
  apply List.map_congr_left
  intro e _
  exact counterparty_OrderIdMatch side _ _ _ _

end Aggregation

theorem bookIceberg_reachable : Reachable bookIceberg :=
  Reachable.add OrderBook.empty (Order.create 100 100 1 OrderSide.SELL 10) 5 bookIceberg []
    Reachable.empty rfl (by decide)

theorem matchFills_of_loop {fuel : Nat} {b : OrderBook} {o : Order} {st : MatchState}
    (h : matchLoop o.side o.price fuel (initMatch b o) = some st) :
    matchFills fuel b o = some st.fills := by
  unfold matchFills
  rw [h]; rfl

/-- C5 (trade aggregation): on a reachable book `AddOrder` returns, and the trade
lines of one call name each counterparty id once, in the order in which the
counterparties were first filled during the call, each with the sum of the
quantities of all fills made against that id.  The iceberg `I S 1 100 100 10`
hit by `L B 2 100 25` yields the single line `M 2 1 100 25`. -/
theorem C5_trade_aggregation (b : OrderBook) (o : Order) (hb : Reachable b) :
    ((∃ fuel r, AddOrder fuel b o = some r) ∧
      ∀ fuel b' trades, AddOrder fuel b o = some (b', trades) →
        ∃ fills, matchFills fuel b o = some fills ∧
          (trades.map (Trade.counterparty o.side)).Nodup ∧
          trades.map (Trade.counterparty o.side) = firstTouched (fills.map Fill.id) ∧
          ∀ t ∈ trades, t.quantity = filledQuantity fills (t.counterparty o.side)) ∧
    (AddOrder 5 OrderBook.empty (Order.create 100 100 1 OrderSide.SELL 10) =
        some (bookIceberg, []) ∧
      AddOrder 5 bookIceberg (Order.create 100 25 2 OrderSide.BUY 0) =
        some (bookIcebergHit, [Trade.mk 2 1 100 25])) := by
  refine ⟨⟨AddOrder_terminates hb.inv o, ?_⟩, by decide, by decide⟩
  intro fuel b' trades h
  obtain ⟨st, hloop, _, htr⟩ := AddOrder_some h
  have hagg := matchLoop_aggregate hb.inv hloop
  obtain ⟨h1, h2, _⟩ := aggregate_spec st.fills
  rw [← hagg] at h1 h2
  simp only at h1 h2
  have hcp : trades.map (Trade.counterparty o.side) = firstTouched (st.fills.map Fill.id) := by
    rw [htr, PrintTrades_counterparty, h2]
  refine ⟨st.fills, matchFills_of_loop hloop, ?_, hcp, ?_⟩
  · rw [hcp]; exact firstTouched_nodup _
  · intro t ht
    rw [htr] at ht
    unfold PrintTrades at ht
    obtain ⟨e, he, rfl⟩ := List.mem_map.1 ht
    rw [counterparty_OrderIdMatch]
    have hmem : e.1 ∈ st.fills.map Fill.id := by
      rw [← mem_firstTouched, ← h2]
      exact List.mem_map_of_mem Prod.fst he
    show (mapFind st.matchOrderQuantityMap e.1).getD 0 = _
    rw [h1 e.1, if_pos hmem]
    rfl

theorem C5_trade_aggregation_witness :
    Reachable bookIceberg ∧
    (((∃ fuel r, AddOrder fuel bookIceberg (Order.create 100 25 2 OrderSide.BUY 0) = some r) ∧
      ∀ fuel b' trades,
        AddOrder fuel bookIceberg (Order.create 100 25 2 OrderSide.BUY 0) = some (b', trades) →
        ∃ fills, matchFills fuel bookIceberg (Order.create 100 25 2 OrderSide.BUY 0) = some fills ∧
          (trades.map (Trade.counterparty OrderSide.BUY)).Nodup ∧
          trades.map (Trade.counterparty OrderSide.BUY) = firstTouched (fills.map Fill.id) ∧
          ∀ t ∈ trades, t.quantity = filledQuantity fills (t.counterparty OrderSide.BUY)) ∧
    (AddOrder 5 OrderBook.empty (Order.create 100 100 1 OrderSide.SELL 10) =
        some (bookIceberg, []) ∧
      AddOrder 5 bookIceberg (Order.create 100 25 2 OrderSide.BUY 0) =
        some (bookIcebergHit, [Trade.mk 2 1 100 25]))) :=
  ⟨bookIceberg_reachable,
    C5_trade_aggregation bookIceberg (Order.create 100 25 2 OrderSide.BUY 0)
      bookIceberg_reachable⟩

section LoopFrame

/-- The top of the opposite heap is at least as good as every price of that heap. -/
theorem heapTop_best (side : OrderSide) {h : List Nat} {x : Nat} (hx : x ∈ h) :
    MatchPriceComparator side (heapTop side.opposite h) x = true := by
  cases side
  · have := le_heapTop_buy hx
    simp only [OrderSide.opposite, MatchPriceComparator, decide_eq_true_eq]
    exact this
  · have := heapTop_sell_le hx
    simp only [OrderSide.opposite, MatchPriceComparator, decide_eq_true_eq]
    exact this

theorem mem_of_mem_heapPop {side : OrderSide} {h : List Nat} {x : Nat}
    (hx : x ∈ heapPop side h) : x ∈ h :=
  List.mem_of_mem_erase hx

theorem matchStep_heap_opposite {side : OrderSide} {price : Nat} {st st' : MatchState}
    (h : matchStep side price st = some st') :
    ∀ x ∈ st'.book.heap side.opposite, x ∈ st.book.heap side.opposite := by
  obtain ⟨_, _, _, hcase⟩ := matchStep_some h
  rcases hcase with ⟨_, rfl⟩ | ⟨front, rest, _, rfl⟩
  · intro x hx
    have hx' : x ∈ (dropLevel side st.book _).heap side.opposite := hx
    rw [dropLevel_heap_opposite] at hx'
    exact mem_of_mem_heapPop hx'
  · intro x hx
    have hx' : x ∈ (fillFront side st.book _ front rest _).heap side.opposite := hx
    rcases fillFront_heap_opposite side st.book
      (heapTop side.opposite (st.book.heap side.opposite)) front rest
      (min front.order.quantity st.tempQuantity) with h | h
    · rw [h] at hx'; exact hx'
    · rw [h] at hx'; exact mem_of_mem_heapPop hx'

theorem matchStep_heap_same {side : OrderSide} {price : Nat} {st st' : MatchState}
    (h : matchStep side price st = some st') : st'.book.heap side = st.book.heap side := by
  obtain ⟨_, _, _, hcase⟩ := matchStep_some h
  rcases hcase with ⟨_, rfl⟩ | ⟨front, rest, _, rfl⟩
  · exact dropLevel_heap_same _ _ _
  · exact fillFront_heap_same _ _ _ _ _ _

theorem matchStep_nextIter {side : OrderSide} {price : Nat} {st st' : MatchState}
    (h : matchStep side price st = some st') : st'.book.nextIter = st.book.nextIter := by
  obtain ⟨_, _, _, hcase⟩ := matchStep_some h
  rcases hcase with ⟨_, rfl⟩ | ⟨front, rest, _, rfl⟩
  · exact dropLevel_nextIter _ _ _
  · exact fillFront_nextIter _ _ _ _ _ _

/-- An iteration only changes the level at the top of the opposite heap. -/
theorem matchStep_find_ne {side : OrderSide} {price : Nat} {st st' : MatchState}
    (h : matchStep side price st = some st') {k : Nat}
    (hk : k ≠ heapTop side.opposite (st.book.heap side.opposite)) :
    mapFind st'.book.orderMap_ k = mapFind st.book.orderMap_ k := by
  obtain ⟨_, _, _, hcase⟩ := matchStep_some h
  rcases hcase with ⟨_, rfl⟩ | ⟨front, rest, _, rfl⟩
  · show mapFind (dropLevel side st.book _).orderMap_ k = _
    rw [dropLevel_orderMap]
    exact mapFind_mapErase_ne _ hk
  · show mapFind (fillFront side st.book _ front rest _).orderMap_ k = _
    rw [fillFront_find, if_neg hk]

theorem Frame.same (b : OrderBook) (side : OrderSide) : Frame b side b :=
  ⟨Evolves.refl b, fun _ hx => hx, rfl, rfl, fun _ _ => rfl⟩

theorem Frame.stepFrame {b0 : OrderBook} {side : OrderSide} {price : Nat} {st st' : MatchState}
    (hf : Frame b0 side st.book) (h : matchStep side price st = some st') :
    Frame b0 side st'.book := by
  obtain ⟨_, hne, _, _⟩ := matchStep_some h
  refine ⟨hf.evolves.trans (matchStep_evolves h),
    fun x hx => hf.heapSub x (matchStep_heap_opposite h x hx),
    (matchStep_heap_same h).trans hf.heapOwn, (matchStep_nextIter h).trans hf.nextIter, ?_⟩
  intro k hk
  have hne' : k ≠ heapTop side.opposite (st.book.heap side.opposite) := by
    intro hkt
    exact hk (hf.heapSub k (hkt ▸ heapTop_mem side.opposite hne))
  rw [matchStep_find_ne h hne']
  exact hf.ownLevels k hk

theorem matchLoop_frame {side : OrderSide} {price : Nat} {fuel : Nat} {st st' : MatchState}
    (hb : Inv st.book) (h : matchLoop side price fuel st = some st') :
    Frame st.book side st'.book :=
  matchLoop_induction (fun s => Frame st.book side s.book)
    (fun _ _ _ hp hs => hp.stepFrame hs) fuel st st' hb (Frame.same _ _) h

theorem FillsOK.stepFills {b0 : OrderBook} {side : OrderSide} {price : Nat} {st st' : MatchState}
    (hfr : Frame b0 side st.book) (hp : FillsOK b0 side price st)
    (h : matchStep side price st = some st') : FillsOK b0 side price st' := by
  have hsub := matchStep_heap_opposite h
  obtain ⟨_, hne, hx, hcase⟩ := matchStep_some h
  rcases hcase with ⟨_, rfl⟩ | ⟨front, rest, hlevel, rfl⟩
  · intro f hf
    obtain ⟨h1, h2, h3, h4⟩ := hp f hf
    exact ⟨h1, h2, h3, fun x hx' => h4 x (hsub x hx')⟩
  · intro f hf
    rcases List.mem_append.1 hf with hf | hf
    · obtain ⟨h1, h2, h3, h4⟩ := hp f hf
      exact ⟨h1, h2, h3, fun x hx' => h4 x (hsub x hx')⟩
    · rw [List.mem_singleton] at hf
      subst hf
      obtain ⟨l0, n0, hl0, hn0, _, hid, _⟩ :=
        hfr.evolves _ _ front hlevel (List.mem_cons_self _ _)
      exact ⟨⟨l0, n0, hl0, hn0, hid⟩, hfr.heapSub _ (heapTop_mem side.opposite hne), hx,
        fun x hx' => heapTop_best side (hsub x hx')⟩

theorem matchLoop_fillsOK {side : OrderSide} {price : Nat} {fuel : Nat} {b : OrderBook}
    {o : Order} {st : MatchState} (hb : Inv b)
    (h : matchLoop side price fuel (initMatch b o) = some st) :
    Frame b side st.book ∧ FillsOK b side price st := by
  have hb0 : Inv (initMatch b o).book := hb
  refine matchLoop_induction (fun s => Frame b side s.book ∧ FillsOK b side price s)
    (fun _ _ _ hp hs => ⟨hp.1.stepFrame hs, hp.2.stepFills hp.1 hs⟩) fuel _ st hb0 ⟨Frame.same _ _, ?_⟩ h
  intro f hf
  cases hf

/-- A fill was made against a node resting in the book before the call, at the
price of that node, whose side is opposite to the incoming order. -/
theorem FillsOK.node {b : OrderBook} {side : OrderSide} {price : Nat} {st : MatchState}
    (hb : Inv b) (hp : FillsOK b side price st) {f : Fill} (hf : f ∈ st.fills) :
    ∃ n ∈ restingNodes b.orderMap_, n.order.id = f.id ∧ n.order.price = f.price ∧
      n.order.side = side.opposite := by
  obtain ⟨⟨l0, n0, hl0, hn0, hid⟩, hheap, _, _⟩ := hp f hf
  have hok := hb.nodes _ _ hl0 n0 hn0
  refine ⟨n0, hb.mem_resting.2 ⟨_, l0, hl0, hn0⟩, hid, hok.1, ?_⟩
  rcases side_cases side n0.order.side with hs | hs
  · exfalso
    have hmem := hok.2.1
    rw [hs] at hmem
    exact hb.heaps_disjoint hmem hheap
  · exact hs

end LoopFrame

/-- Every trade line comes from a fill: same counterparty id, same price. -/
theorem trade_has_fill {b : OrderBook} {o : Order} {fuel : Nat} {st : MatchState}
    (hb : Inv b) (hloop : matchLoop o.side o.price fuel (initMatch b o) = some st) {t : Trade}
    (ht : t ∈ PrintTrades o.side st.matchOrderQuantityMap st.matchOrderQueue o) :
    ∃ f ∈ st.fills, f.id = t.counterparty o.side ∧ f.price = t.price ∧
      t.first = (OrderIdMatch o.side f.id o.id).1 ∧ t.second = (OrderIdMatch o.side f.id o.id).2 := by
  have hagg := matchLoop_aggregate hb hloop
  obtain ⟨_, _, h3⟩ := aggregate_spec st.fills
  rw [← hagg] at h3
  unfold PrintTrades at ht
  obtain ⟨e, he, rfl⟩ := List.mem_map.1 ht
  obtain ⟨f, hf, hf1, hf2⟩ := h3 e he
  refine ⟨f, hf, ?_, hf2, ?_, ?_⟩
  · rw [counterparty_OrderIdMatch]; exact hf1
  · rw [hf1]
  · rw [hf1]

/-- C2 (price priority): on a reachable book (its resting ids distinct or not)
`AddOrder` of an order built by the constructor (`hiddenQuantity = 0`) returns,
and for every fill it made at a price `q`, no order of the opposite side that
rests after the call has a price strictly better than `q` (lower for an incoming
buy, higher for an incoming sell). -/
theorem C2_price_priority (b : OrderBook) (o : Order) (hb : Reachable b)
    (ho : o.hiddenQuantity = 0) :
    (∃ fuel r, AddOrder fuel b o = some r) ∧
      ∀ fuel b' trades, AddOrder fuel b o = some (b', trades) →
        ∃ fills, matchFills fuel b o = some fills ∧
          ∀ f ∈ fills, ∀ n ∈ restingNodes b'.orderMap_, n.order.side = o.side.opposite →
            (o.side = OrderSide.BUY → f.price ≤ n.order.price) ∧
            (o.side = OrderSide.SELL → n.order.price ≤ f.price) := by
  refine ⟨AddOrder_terminates hb.inv o, ?_⟩
  intro fuel b' trades h
  have hinv' := hb.inv.add ho h
  obtain ⟨st, hloop, hb', _⟩ := AddOrder_some h
  obtain ⟨_, hfills⟩ := matchLoop_fillsOK hb.inv hloop
  refine ⟨st.fills, matchFills_of_loop hloop, ?_⟩
  intro f hf n hn hside
  obtain ⟨k, l, hl, hnl⟩ := hinv'.mem_resting.1 hn
  have hok := hinv'.nodes k l hl n hnl
  have hk : k ∈ st.book.heap o.side.opposite := by
    have := hok.2.1
    rw [hside, hb', restOrder_heap_opposite] at this
    exact this
  have hbest := (hfills f hf).2.2.2 k hk
  rw [hok.1]
  constructor
  · intro hs
    rw [hs] at hbest
    simpa [MatchPriceComparator] using hbest
  · intro hs
    rw [hs] at hbest
    simpa [MatchPriceComparator] using hbest

theorem C2_price_priority_witness :
    Reachable bookIceberg ∧ (Order.create 100 25 2 OrderSide.BUY 0).hiddenQuantity = 0 ∧
    ((∃ fuel r, AddOrder fuel bookIceberg (Order.create 100 25 2 OrderSide.BUY 0) = some r) ∧
      ∀ fuel b' trades,
        AddOrder fuel bookIceberg (Order.create 100 25 2 OrderSide.BUY 0) = some (b', trades) →
        ∃ fills, matchFills fuel bookIceberg (Order.create 100 25 2 OrderSide.BUY 0) = some fills ∧
          ∀ f ∈ fills, ∀ n ∈ restingNodes b'.orderMap_,
            n.order.side = (Order.create 100 25 2 OrderSide.BUY 0).side.opposite →
            ((Order.create 100 25 2 OrderSide.BUY 0).side = OrderSide.BUY →
              f.price ≤ n.order.price) ∧
            ((Order.create 100 25 2 OrderSide.BUY 0).side = OrderSide.SELL →
              n.order.price ≤ f.price)) :=
  ⟨bookIceberg_reachable, rfl,
    C2_price_priority bookIceberg (Order.create 100 25 2 OrderSide.BUY 0) bookIceberg_reachable
      rfl⟩

/-- C7 (limit respected): on a reachable book with distinct resting ids, every
trade line of `AddOrder` carries the limit price of the resting order its
counterparty id denotes, and that price is at most the price of an incoming buy
and at least the price of an incoming sell. -/
theorem C7_limit_respected (b : OrderBook) (o : Order) (hb : Reachable b)
    (hids : (restingIds b).Nodup) :
    (∃ fuel r, AddOrder fuel b o = some r) ∧
      ∀ fuel b' trades, AddOrder fuel b o = some (b', trades) → ∀ t ∈ trades,
        ∃ n ∈ restingNodes b.orderMap_, n.order.id = t.counterparty o.side ∧
          (∀ n' ∈ restingNodes b.orderMap_, n'.order.id = t.counterparty o.side → n' = n) ∧
          t.price = n.order.price ∧
          (o.side = OrderSide.BUY → n.order.price ≤ o.price) ∧
          (o.side = OrderSide.SELL → o.price ≤ n.order.price) := by
  refine ⟨AddOrder_terminates hb.inv o, ?_⟩
  intro fuel b' trades h t ht
  obtain ⟨st, hloop, _, htr⟩ := AddOrder_some h
  obtain ⟨_, hfills⟩ := matchLoop_fillsOK hb.inv hloop
  rw [htr] at ht
  obtain ⟨f, hf, hfid, hfp, _, _⟩ := trade_has_fill hb.inv hloop ht
  obtain ⟨n, hn, hnid, hnp, _⟩ := hfills.node hb.inv hf
  have hcross := (hfills f hf).2.2.1
  refine ⟨n, hn, hnid.trans hfid, ?_, hfp.symm.trans hnp.symm, ?_, ?_⟩
  · intro n' hn' hid'
    unfold restingIds at hids
    exact List.inj_on_of_nodup_map hids hn' hn (hid'.trans (hnid.trans hfid).symm)
  · intro hs
    rw [hs, ← hnp] at hcross
    simpa [MatchPriceComparator] using hcross
  · intro hs
    rw [hs, ← hnp] at hcross
    simpa [MatchPriceComparator] using hcross

theorem C7_limit_respected_witness :
    Reachable bookIceberg ∧ (restingIds bookIceberg).Nodup ∧
    ((∃ fuel r, AddOrder fuel bookIceberg (Order.create 100 25 2 OrderSide.BUY 0) = some r) ∧
      ∀ fuel b' trades,
        AddOrder fuel bookIceberg (Order.create 100 25 2 OrderSide.BUY 0) = some (b', trades) →
        ∀ t ∈ trades,
        ∃ n ∈ restingNodes bookIceberg.orderMap_,
          n.order.id = t.counterparty (Order.create 100 25 2 OrderSide.BUY 0).side ∧
          (∀ n' ∈ restingNodes bookIceberg.orderMap_,
            n'.order.id = t.counterparty (Order.create 100 25 2 OrderSide.BUY 0).side → n' = n) ∧
          t.price = n.order.price ∧
          ((Order.create 100 25 2 OrderSide.BUY 0).side = OrderSide.BUY →
            n.order.price ≤ (Order.create 100 25 2 OrderSide.BUY 0).price) ∧
          ((Order.create 100 25 2 OrderSide.BUY 0).side = OrderSide.SELL →
            (Order.create 100 25 2 OrderSide.BUY 0).price ≤ n.order.price)) :=
  ⟨bookIceberg_reachable, by decide,
    C7_limit_respected bookIceberg (Order.create 100 25 2 OrderSide.BUY 0) bookIceberg_reachable
      (by decide)⟩

/-- C8 (trade orientation): on a reachable book, every trade line of `AddOrder`
pairs the incoming order with an order that rested on the opposite side; the
first id is the buy order and the second the sell order: (incoming, resting) for
an incoming buy, (resting, incoming) for an incoming sell. -/
theorem C8_trade_orientation (b : OrderBook) (o : Order) (hb : Reachable b) :
    (∃ fuel r, AddOrder fuel b o = some r) ∧
      ∀ fuel b' trades, AddOrder fuel b o = some (b', trades) → ∀ t ∈ trades,
        ∃ n ∈ restingNodes b.orderMap_, n.order.side = o.side.opposite ∧
          (o.side = OrderSide.BUY →
            t.first = o.id ∧ t.second = n.order.id ∧ n.order.side = OrderSide.SELL) ∧
          (o.side = OrderSide.SELL →
            t.first = n.order.id ∧ t.second = o.id ∧ n.order.side = OrderSide.BUY) := by
  refine ⟨AddOrder_terminates hb.inv o, ?_⟩
  intro fuel b' trades h t ht
  obtain ⟨st, hloop, _, htr⟩ := AddOrder_some h
  obtain ⟨_, hfills⟩ := matchLoop_fillsOK hb.inv hloop
  rw [htr] at ht
  obtain ⟨f, hf, _, _, h1, h2⟩ := trade_has_fill hb.inv hloop ht
  obtain ⟨n, hn, hnid, _, hns⟩ := hfills.node hb.inv hf
  refine ⟨n, hn, hns, ?_, ?_⟩
  · intro hs
    rw [hs] at h1 h2 hns
    exact ⟨h1, by rw [h2, hnid]; rfl, hns⟩
  · intro hs
    rw [hs] at h1 h2 hns
    exact ⟨by rw [h1, hnid]; rfl, h2, hns⟩

theorem C8_trade_orientation_witness :
    Reachable bookIceberg ∧
    ((∃ fuel r, AddOrder fuel bookIceberg (Order.create 100 25 2 OrderSide.BUY 0) = some r) ∧
      ∀ fuel b' trades,
        AddOrder fuel bookIceberg (Order.create 100 25 2 OrderSide.BUY 0) = some (b', trades) →
        ∀ t ∈ trades,
        ∃ n ∈ restingNodes bookIceberg.orderMap_,
          n.order.side = (Order.create 100 25 2 OrderSide.BUY 0).side.opposite ∧
          ((Order.create 100 25 2 OrderSide.BUY 0).side = OrderSide.BUY →
            t.first = (Order.create 100 25 2 OrderSide.BUY 0).id ∧ t.second = n.order.id ∧
              n.order.side = OrderSide.SELL) ∧
          ((Order.create 100 25 2 OrderSide.BUY 0).side = OrderSide.SELL →
            t.first = n.order.id ∧ t.second = (Order.create 100 25 2 OrderSide.BUY 0).id ∧
              n.order.side = OrderSide.BUY)) :=
  ⟨bookIceberg_reachable,
    C8_trade_orientation bookIceberg (Order.create 100 25 2 OrderSide.BUY 0)
      bookIceberg_reachable⟩

section Conservation

theorem nodesTotal_append (l1 l2 : List ListNode) (id : Nat) :
    nodesTotal (l1 ++ l2) id = nodesTotal l1 id + nodesTotal l2 id := by
  simp [nodesTotal, List.filter_append]

theorem nodesTotal_cons (n : ListNode) (l : List ListNode) (id : Nat) :
    nodesTotal (n :: l) id =
      (if n.order.id = id then n.order.quantity + n.order.hiddenQuantity else 0) +
        nodesTotal l id := by
  unfold nodesTotal
  by_cases h : n.order.id = id <;> simp [List.filter_cons, h]

theorem nodesTotal_nil (id : Nat) : nodesTotal [] id = 0 := rfl

/-- A fill of `qt` takes `qt` from the total of the front order and leaves every
other total of the level as it was. -/
theorem fillQueue_total (front : ListNode) (rest : TimeOrderList) {qt : Nat} (id : Nat)
    (hq : qt ≤ front.order.quantity) :
    nodesTotal (fillQueue front rest qt) id + (if front.order.id = id then qt else 0) =
      nodesTotal (front :: rest) id := by
  unfold fillQueue
  simp only []
  rw [nodesTotal_cons]
  by_cases hid : front.order.id = id <;> by_cases h0 : front.order.quantity - qt = 0 <;>
    by_cases hh : front.order.hiddenQuantity = 0 <;>
    simp [nodesTotal_append, nodesTotal_cons, nodesTotal_nil, refillOrder, hid, h0, hh] <;>
    omega

theorem mem_fillQueue_of_ne {front n : ListNode} {rest : TimeOrderList} {q : Nat}
    (h : n.order.id ≠ front.order.id) : n ∈ fillQueue front rest q ↔ n ∈ rest := by
  constructor
  · intro hn
    rcases mem_fillQueue hn with hn | ⟨_, e, _⟩
    · exact hn
    · exact absurd e h
  · intro hn
    unfold fillQueue
    simp only []
    split_ifs
    · exact List.mem_append_left _ hn
    · exact hn
    · exact List.mem_cons_of_mem _ hn

theorem fillFront_orderMap (side : OrderSide) (b : OrderBook) (p : Nat) (front : ListNode)
    (rest : TimeOrderList) (q : Nat) :
    (fillFront side b p front rest q).orderMap_ =
      if fillQueue front rest q = [] then mapErase b.orderMap_ p
      else mapSet b.orderMap_ p (fillQueue front rest q) := by
  unfold fillFront fillQueue
  simp only []
  split_ifs <;> first | rfl | (rw [dropLevel_orderMap]) | (exfalso; simp_all)

/-- The list of all resting nodes before and after an iteration: either nothing
changes, or the segment of the best opposite level goes from `front :: rest` to
`fillQueue front rest qt` and the fill is logged. -/
theorem matchStep_restingNodes {side : OrderSide} {price : Nat} {st st' : MatchState}
    (hb : Inv st.book) (h : matchStep side price st = some st') :
    (restingNodes st'.book.orderMap_ = restingNodes st.book.orderMap_ ∧
      st'.fills = st.fills ∧ st'.tempQuantity = st.tempQuantity) ∨
    ∃ pre post front rest qt, restingNodes st.book.orderMap_ = pre ++ (front :: rest) ++ post ∧
      restingNodes st'.book.orderMap_ = pre ++ fillQueue front rest qt ++ post ∧
      st'.fills = st.fills ++
        [Fill.mk front.order.id (heapTop side.opposite (st.book.heap side.opposite)) qt] ∧
      st'.tempQuantity + qt = st.tempQuantity ∧ qt ≤ front.order.quantity := by
  obtain ⟨_, _, _, hcase⟩ := matchStep_some h
  rcases hcase with ⟨hl, rfl⟩ | ⟨front, rest, hlevel, rfl⟩
  · left
    refine ⟨?_, rfl, rfl⟩
    show restingNodes (dropLevel side st.book _).orderMap_ = _
    rw [dropLevel_orderMap]
    cases hf : mapFind st.book.orderMap_ (heapTop side.opposite (st.book.heap side.opposite)) with
    | none => rw [mapErase_of_not_mem (mapFind_eq_none_iff.1 hf)]
    | some l =>
      rw [hf] at hl
      simp only [Option.getD_some] at hl
      subst hl
      obtain ⟨pre, post, h1, _, h3, _⟩ := restingNodes_split hb.keysNodup hf
      rw [h1, h3]; simp
  · right
    obtain ⟨pre, post, h1, h2, h3, _⟩ := restingNodes_split hb.keysNodup hlevel
    refine ⟨pre, post, front, rest, min front.order.quantity st.tempQuantity, h1, ?_, rfl, ?_,
      Nat.min_le_left _ _⟩
    · show restingNodes (fillFront side st.book _ front rest _).orderMap_ = _
      rw [fillFront_orderMap]
      split_ifs with hq
      · rw [h3, hq]; simp
      · exact h2 _
    · show st.tempQuantity - min front.order.quantity st.tempQuantity +
        min front.order.quantity st.tempQuantity = st.tempQuantity
      have := Nat.min_le_right front.order.quantity st.tempQuantity
      omega

end Conservation

section ConservationLoop

theorem Conserved.stepConserved {b0 : OrderBook} {q0 : Nat} {side : OrderSide} {price : Nat}
    {st st' : MatchState} (hb : Inv st.book) (hp : Conserved b0 q0 st)
    (h : matchStep side price st = some st') : Conserved b0 q0 st' := by
  obtain ⟨hF, hG, hH⟩ := hp
  rcases matchStep_restingNodes hb h with ⟨h1, h2, h3⟩ |
    ⟨pre, post, front, rest, qt, h1, h2, h3, h4, h5⟩
  · refine ⟨?_, ?_, ?_⟩
    · intro id
      unfold remainingOf at hF ⊢
      rw [h1, h2]; exact hF id
    · rw [h2, h3]; exact hG
    · intro n hn
      rw [h1]
      rw [h2] at hn
      exact hH n hn
  · refine ⟨?_, ?_, ?_⟩
    · intro id
      have := hF id
      unfold remainingOf at this ⊢
      rw [h1] at this
      rw [h2, h3, filledQuantity_append, filledQuantity_singleton]
      have hq := fillQueue_total front rest id h5
      simp only [nodesTotal_append] at this ⊢
      simp only at hq ⊢
      omega
    · rw [h3]
      simp only [List.map_append, List.map_cons, List.map_nil, List.sum_append, List.sum_cons,
        List.sum_nil]
      omega
    · intro n hn
      rw [h3] at hn
      simp only [List.map_append, List.map_cons, List.map_nil, List.mem_append,
        List.mem_singleton, not_or] at hn
      rw [← hH n hn.1, h1, h2]
      simp only [List.mem_append, List.mem_cons]
      rw [mem_fillQueue_of_ne hn.2]
      constructor
      · rintro ((h | h) | h)
        · exact Or.inl (Or.inl h)
        · exact Or.inl (Or.inr (Or.inr h))
        · exact Or.inr h
      · rintro ((h | h | h) | h)
        · exact Or.inl (Or.inl h)
        · exact absurd (by rw [h]) hn.2
        · exact Or.inl (Or.inr h)
        · exact Or.inr h

theorem matchLoop_conserved {side : OrderSide} {price : Nat} {fuel : Nat} {b : OrderBook}
    {o : Order} {st : MatchState} (hb : Inv b)
    (h : matchLoop side price fuel (initMatch b o) = some st) : Conserved b o.quantity st := by
  have hb0 : Inv (initMatch b o).book := hb
  refine matchLoop_induction (fun s => Conserved b o.quantity s)
    (fun _ _ hinv hp hs => hp.stepConserved hinv hs) fuel _ st hb0 ⟨?_, ?_, ?_⟩ h
  · intro id
    show remainingOf b id + filledQuantity [] id = _
    simp [filledQuantity]
  · show (([] : List Fill).map Fill.quantity).sum + o.quantity = o.quantity
    simp
  · intro n _
    exact Iff.rfl

theorem restingNodes_append (m1 m2 : List (Nat × TimeOrderList)) :
    restingNodes (m1 ++ m2) = restingNodes m1 ++ restingNodes m2 := by
  simp [restingNodes]

/-- After the residual is rested, the resting nodes are those left by the loop
plus the new node. -/
theorem restOrder_restingNodes_perm {side : OrderSide} {o : Order} {st : MatchState}
    (hb : Inv st.book) (hpos : 0 < st.tempQuantity) :
    (restingNodes (restOrder side o st).orderMap_).Perm
      (restingNodes st.book.orderMap_ ++
        [ListNode.mk st.book.nextIter (restSplit o st.tempQuantity)]) := by
  rw [restOrder_orderMap _ _ _ hpos]
  cases hf : mapFind st.book.orderMap_ o.price with
  | none =>
    rw [mapSet_of_not_mem _ (mapFind_eq_none_iff.1 hf), restingNodes_append]
    simp [restingNodes]
  | some l =>
    obtain ⟨pre, post, h1, h2, _, _⟩ := restingNodes_split hb.keysNodup hf
    rw [h1, h2]
    simp only [Option.getD_some, List.append_assoc]
    refine List.Perm.append_left _ (List.Perm.append_left _ ?_)
    exact List.perm_append_comm

theorem nodesTotal_perm {l1 l2 : List ListNode} (h : l1.Perm l2) (id : Nat) :
    nodesTotal l1 id = nodesTotal l2 id := by
  unfold nodesTotal
  exact ((h.filter _).map _).sum_eq

theorem sum_filter_split (g : Nat → Nat) (a : Nat) :
    ∀ (l : List Nat), l.Nodup →
      (l.map g).sum = (if a ∈ l then g a else 0) + ((l.filter (fun y => !(y == a))).map g).sum
  | [], _ => by simp
  | x :: xs, hnd => by
    have hnd' := List.nodup_cons.1 hnd
    have ih := sum_filter_split g a xs hnd'.2
    by_cases hx : x = a
    · subst hx
      have : ¬ x ∈ xs := hnd'.1
      simp only [this, if_false] at ih
      simp [List.filter_cons, ih]
    · have hne : a ≠ x := fun h => hx h.symm
      have hf : (x :: xs).filter (fun y => !(y == a)) = x :: xs.filter (fun y => !(y == a)) := by
        simp [List.filter_cons, hx]
      rw [hf]
      simp only [List.map_cons, List.sum_cons, List.mem_cons, hne, false_or, ih]
      omega

/-- Summing the filled quantity over the ids touched counts every fill once. -/
theorem sum_filled_firstTouched (fs : List Fill) :
    ((firstTouched (fs.map Fill.id)).map (filledQuantity fs)).sum =
      (fs.map Fill.quantity).sum := by
  induction fs with
  | nil => simp [firstTouched]
  | cons f fs ih =>
    rw [List.map_cons, firstTouched_cons, List.map_cons, List.sum_cons, List.map_cons,
      List.sum_cons]
    have hcons : ∀ id, filledQuantity (f :: fs) id =
        (if f.id = id then f.quantity else 0) + filledQuantity fs id := by
      intro id
      have := filledQuantity_append [f] fs id
      rw [filledQuantity_singleton] at this
      exact this
    have hrest : ((firstTouched (fs.map Fill.id)).filter (fun y => !(y == f.id))).map
        (filledQuantity (f :: fs)) =
        ((firstTouched (fs.map Fill.id)).filter (fun y => !(y == f.id))).map
          (filledQuantity fs) := by
      apply List.map_congr_left
      intro id hid
      have hne : id ≠ f.id := by simpa using (List.mem_filter.1 hid).2
      rw [hcons, if_neg (fun h => hne h.symm), Nat.zero_add]
    rw [hrest, hcons, if_pos rfl]
    have hsplit := sum_filter_split (filledQuantity fs) f.id _
      (firstTouched_nodup (fs.map Fill.id))
    rw [ih] at hsplit
    by_cases hmem : f.id ∈ firstTouched (fs.map Fill.id)
    · rw [if_pos hmem] at hsplit
      omega
    · rw [if_neg hmem] at hsplit
      have := filledQuantity_of_not_mem (fun h => hmem (mem_firstTouched.2 h))
      omega

/-- The quantities printed add up to the quantities filled. -/
theorem PrintTrades_sum {b : OrderBook} {o : Order} {fuel : Nat} {st : MatchState}
    (hb : Inv b) (hloop : matchLoop o.side o.price fuel (initMatch b o) = some st) :
    ((PrintTrades o.side st.matchOrderQuantityMap st.matchOrderQueue o).map
      Trade.quantity).sum = (st.fills.map Fill.quantity).sum := by
  have hagg := matchLoop_aggregate hb hloop
  obtain ⟨h1, h2, _⟩ := aggregate_spec st.fills
  rw [← hagg] at h1 h2
  simp only at h1 h2
  rw [← sum_filled_firstTouched, ← h2]
  unfold PrintTrades
  rw [List.map_map, List.map_map]
  congr 1
  apply List.map_congr_left
  intro e he
  have hmem : e.1 ∈ st.fills.map Fill.id := by
    rw [← mem_firstTouched, ← h2]
    exact List.mem_map_of_mem Prod.fst he
  show (mapFind st.matchOrderQuantityMap e.1).getD 0 = filledQuantity st.fills e.1
  rw [h1 e.1, if_pos hmem]
  rfl

end ConservationLoop

section ConservationClaim

theorem fillQueue_ids (front : ListNode) (rest : TimeOrderList) (q : Nat) :
    ((fillQueue front rest q).map (fun n => n.order.id)).Perm
        ((front :: rest).map (fun n => n.order.id)) ∨
      (fillQueue front rest q).map (fun n => n.order.id) = rest.map (fun n => n.order.id) := by
  unfold fillQueue
  simp only []
  split_ifs
  · left
    simp only [List.map_append, List.map_cons, List.map_nil]
    exact List.perm_append_singleton _ _
  · right; rfl
  · left; exact List.Perm.refl _

theorem matchStep_ids_nodup {side : OrderSide} {price : Nat} {st st' : MatchState}
    (hb : Inv st.book) (hp : (restingIds st.book).Nodup)
    (h : matchStep side price st = some st') : (restingIds st'.book).Nodup := by
  unfold restingIds at hp ⊢
  rcases matchStep_restingNodes hb h with ⟨h1, _, _⟩ |
    ⟨pre, post, front, rest, qt, h1, h2, _, _, _⟩
  · rw [h1]; exact hp
  · rw [h1] at hp
    rw [h2]
    simp only [List.map_append] at hp ⊢
    rcases fillQueue_ids front rest qt with hq | hq
    · exact hp.perm ((List.Perm.append_left _ hq.symm).append_right _)
    · rw [hq]
      refine hp.sublist ?_
      refine List.Sublist.append (List.Sublist.append (List.Sublist.refl _) ?_)
        (List.Sublist.refl _)
      simp only [List.map_cons]
      exact List.sublist_cons_self _ _

/-- With distinct resting ids and a fresh incoming id, the resting ids stay
distinct after `AddOrder`. -/
theorem AddOrder_ids_nodup {b b' : OrderBook} {o : Order} {fuel : Nat} {trades : List Trade}
    (hb : Inv b) (hids : (restingIds b).Nodup) (hfresh : o.id ∉ restingIds b)
    (h : AddOrder fuel b o = some (b', trades)) : (restingIds b').Nodup := by
  obtain ⟨st, hloop, rfl, _⟩ := AddOrder_some h
  have hb0 : Inv (initMatch b o).book := hb
  have hst : (restingIds st.book).Nodup :=
    matchLoop_induction (fun s => (restingIds s.book).Nodup)
      (fun _ _ hinv hp hs => matchStep_ids_nodup hinv hp hs) fuel _ st hb0 hids hloop
  obtain ⟨hinv, _⟩ := matchLoop_inv fuel hb0 hloop
  have hev : Evolves b st.book := matchLoop_evolves hb0 hloop
  rcases Nat.eq_zero_or_pos st.tempQuantity with h0 | hpos
  · rw [restOrder_of_zero _ _ _ h0]; exact hst
  · unfold restingIds at hst ⊢
    refine (List.Perm.nodup_iff ((restOrder_restingNodes_perm hinv hpos).map _)).2 ?_
    rw [List.map_append]
    refine List.Nodup.append hst (List.nodup_singleton _) ?_
    intro x hx hx'
    simp only [List.map_cons, List.map_nil, List.mem_singleton, restSplit_id] at hx'
    subst hx'
    obtain ⟨n, hn, hnid⟩ := List.mem_map.1 hx
    obtain ⟨k, l, hl, hnl⟩ := hinv.mem_resting.1 hn
    exact hfresh (hnid ▸ hev.ids hb hl hnl)

theorem nodesTotal_of_not_mem {l : List ListNode} {id : Nat}
    (h : id ∉ l.map (fun n => n.order.id)) : nodesTotal l id = 0 := by
  unfold nodesTotal
  have : l.filter (fun n => n.order.id == id) = [] := by
    rw [List.filter_eq_nil_iff]
    intro n hn
    simp only [beq_iff_eq]
    intro hid
    exact h (List.mem_map.2 ⟨n, hn, hid⟩)
  rw [this]; rfl

/-- With distinct ids, the total of an id is the total of the one node carrying it. -/
theorem nodesTotal_of_nodup :
    ∀ {l : List ListNode}, (l.map (fun n => n.order.id)).Nodup → ∀ n ∈ l,
      nodesTotal l n.order.id = n.order.quantity + n.order.hiddenQuantity
  | [], _, n, hn => by cases hn
  | x :: xs, hnd, n, hn => by
    simp only [List.map_cons, List.nodup_cons] at hnd
    rw [nodesTotal_cons]
    rcases List.mem_cons.1 hn with hn | hn
    · subst hn
      rw [if_pos rfl, nodesTotal_of_not_mem hnd.1]
      rfl
    · have hne : x.order.id ≠ n.order.id := by
        intro he
        exact hnd.1 (he ▸ List.mem_map.2 ⟨n, hn, rfl⟩)
      rw [if_neg hne, Nat.zero_add]
      exact nodesTotal_of_nodup hnd.2 n hn

/-- C6 (quantity conservation): on a reachable book with distinct resting ids,
`AddOrder` of an order built by the constructor (`hiddenQuantity = 0`) with a
fresh id returns; the resting ids stay distinct, so
that `remainingOf` is the visible plus hidden quantity of the one order of an id
(0 when none rests); (i) each trade quantity is the decrease of the remaining
quantity of its counterparty; (ii) the trade quantities plus the quantity with
which the incoming order rests add up to its quantity; and every node of another
id rests after the call exactly when it rested before, with the same fields. -/
theorem C6_quantity_conservation (b : OrderBook) (o : Order) (hb : Reachable b)
    (hids : (restingIds b).Nodup) (hfresh : o.id ∉ restingIds b)
    (ho : o.hiddenQuantity = 0) :
    (∃ fuel r, AddOrder fuel b o = some r) ∧
      ∀ fuel b' trades, AddOrder fuel b o = some (b', trades) →
        (restingIds b').Nodup ∧
        (∀ n ∈ restingNodes b.orderMap_,
          remainingOf b n.order.id = n.order.quantity + n.order.hiddenQuantity) ∧
        (∀ n ∈ restingNodes b'.orderMap_,
          remainingOf b' n.order.id = n.order.quantity + n.order.hiddenQuantity) ∧
        (∀ t ∈ trades, t.quantity + remainingOf b' (t.counterparty o.side) =
          remainingOf b (t.counterparty o.side)) ∧
        (trades.map Trade.quantity).sum + remainingOf b' o.id = o.quantity ∧
        (∀ n, n.order.id ≠ o.id → n.order.id ∉ trades.map (Trade.counterparty o.side) →
          (n ∈ restingNodes b'.orderMap_ ↔ n ∈ restingNodes b.orderMap_)) := by
  refine ⟨AddOrder_terminates hb.inv o, ?_⟩
  intro fuel b' trades h
  have hids' := AddOrder_ids_nodup hb.inv hids hfresh h
  obtain ⟨st, hloop, hb', htr⟩ := AddOrder_some h
  have hb0 : Inv (initMatch b o).book := hb.inv
  obtain ⟨hinv, _⟩ := matchLoop_inv fuel hb0 hloop
  obtain ⟨hF, hG, hH⟩ := matchLoop_conserved hb.inv hloop
  obtain ⟨_, hfills⟩ := matchLoop_fillsOK hb.inv hloop
  have hagg := matchLoop_aggregate hb.inv hloop
  obtain ⟨hq1, hq2, _⟩ := aggregate_spec st.fills
  rw [← hagg] at hq1 hq2
  simp only at hq1 hq2
  have hcp : trades.map (Trade.counterparty o.side) = firstTouched (st.fills.map Fill.id) := by
    rw [htr, PrintTrades_counterparty, hq2]
  -- the remaining quantities after the residual is rested
  have hrem : ∀ id, remainingOf b' id =
      remainingOf st.book id + (if o.id = id then st.tempQuantity else 0) := by
    intro id
    rw [hb']
    rcases Nat.eq_zero_or_pos st.tempQuantity with h0 | hpos
    · rw [restOrder_of_zero _ _ _ h0, h0]; simp
    · unfold remainingOf
      rw [nodesTotal_perm (restOrder_restingNodes_perm hinv hpos), nodesTotal_append,
        nodesTotal_cons, nodesTotal_nil]
      simp only [restSplit_id, restSplit_total o st.tempQuantity ho, Nat.add_zero]
  have hfresh0 : remainingOf b o.id = 0 := nodesTotal_of_not_mem hfresh
  refine ⟨hids', fun n hn => nodesTotal_of_nodup hids n hn,
    fun n hn => nodesTotal_of_nodup hids' n hn, ?_, ?_, ?_⟩
  · intro t ht
    have hmem : t.counterparty o.side ∈ st.fills.map Fill.id := by
      rw [← mem_firstTouched, ← hcp]
      exact List.mem_map_of_mem _ ht
    obtain ⟨f, hf, hfid⟩ := List.mem_map.1 hmem
    obtain ⟨n, hn, hnid, _⟩ := hfills.node hb.inv hf
    have hne : o.id ≠ t.counterparty o.side := by
      intro he
      apply hfresh
      unfold restingIds
      exact List.mem_map.2 ⟨n, hn, by rw [hnid, hfid, he]⟩
    have hqty : t.quantity = filledQuantity st.fills (t.counterparty o.side) := by
      rw [htr] at ht
      unfold PrintTrades at ht
      obtain ⟨e, he, rfl⟩ := List.mem_map.1 ht
      rw [counterparty_OrderIdMatch] at hmem ⊢
      show (mapFind st.matchOrderQuantityMap e.1).getD 0 = _
      rw [hq1 e.1, if_pos hmem]
      rfl
    rw [hrem, if_neg hne, hqty, Nat.add_zero, Nat.add_comm]
    exact hF _
  · have hsum : (trades.map Trade.quantity).sum = (st.fills.map Fill.quantity).sum := by
      rw [htr]; exact PrintTrades_sum hb.inv hloop
    have h0 := hF o.id
    rw [hfresh0] at h0
    rw [hsum, hrem, if_pos rfl]
    omega
  · intro n hne hncp
    rw [hcp, mem_firstTouched] at hncp
    rw [← hH n hncp, hb']
    rcases Nat.eq_zero_or_pos st.tempQuantity with h0 | hpos
    · rw [restOrder_of_zero _ _ _ h0]
    · rw [(restOrder_restingNodes_perm hinv hpos).mem_iff]
      simp only [List.mem_append, List.mem_singleton]
      constructor
      · rintro (h | h)
        · exact h
        · exfalso
          apply hne
          rw [h]
          simp
      · exact Or.inl

theorem bookIcebergPlain_reachable : Reachable bookIcebergPlain :=
  Reachable.add bookIceberg (Order.create 100 10 2 OrderSide.SELL 0) 5 bookIcebergPlain []
    bookIceberg_reachable rfl (by decide)

theorem C6_quantity_conservation_witness :
    Reachable bookIcebergPlain ∧ (restingIds bookIcebergPlain).Nodup ∧
    (Order.create 100 15 3 OrderSide.BUY 0).id ∉ restingIds bookIcebergPlain ∧
    (Order.create 100 15 3 OrderSide.BUY 0).hiddenQuantity = 0 ∧
    ((∃ fuel r, AddOrder fuel bookIcebergPlain (Order.create 100 15 3 OrderSide.BUY 0) = some r) ∧
      ∀ fuel b' trades,
        AddOrder fuel bookIcebergPlain (Order.create 100 15 3 OrderSide.BUY 0) =
          some (b', trades) →
        (restingIds b').Nodup ∧
        (∀ n ∈ restingNodes bookIcebergPlain.orderMap_,
          remainingOf bookIcebergPlain n.order.id = n.order.quantity + n.order.hiddenQuantity) ∧
        (∀ n ∈ restingNodes b'.orderMap_,
          remainingOf b' n.order.id = n.order.quantity + n.order.hiddenQuantity) ∧
        (∀ t ∈ trades,
          t.quantity + remainingOf b' (t.counterparty (Order.create 100 15 3 OrderSide.BUY 0).side) =
            remainingOf bookIcebergPlain
              (t.counterparty (Order.create 100 15 3 OrderSide.BUY 0).side)) ∧
        (trades.map Trade.quantity).sum + remainingOf b' (Order.create 100 15 3 OrderSide.BUY 0).id =
          (Order.create 100 15 3 OrderSide.BUY 0).quantity ∧
        (∀ n, n.order.id ≠ (Order.create 100 15 3 OrderSide.BUY 0).id →
          n.order.id ∉ trades.map (Trade.counterparty (Order.create 100 15 3 OrderSide.BUY 0).side) →
          (n ∈ restingNodes b'.orderMap_ ↔ n ∈ restingNodes bookIcebergPlain.orderMap_))) :=
  ⟨bookIcebergPlain_reachable, by decide, by decide, rfl,
    C6_quantity_conservation bookIcebergPlain (Order.create 100 15 3 OrderSide.BUY 0)
      bookIcebergPlain_reachable (by decide) (by decide) rfl⟩

end ConservationClaim

section Fifo

theorem fillFront_heap_opposite_eq (side : OrderSide) (b : OrderBook) (p : Nat)
    (front : ListNode) (rest : TimeOrderList) (q : Nat) :
    (fillFront side b p front rest q).heap side.opposite =
      if fillQueue front rest q = [] then heapPop side.opposite (b.heap side.opposite)
      else b.heap side.opposite := by
  unfold fillFront fillQueue
  simp only []
  split_ifs <;> first | (cases side <;> rfl) | (exfalso; simp_all)

/-- The iteration made when the best opposite level crosses and holds orders. -/
theorem matchStep_of_front {side : OrderSide} {price : Nat} {st : MatchState}
    {front : ListNode} {rest : TimeOrderList} (hq : 0 < st.tempQuantity)
    (hne : st.book.heap side.opposite ≠ [])
    (hx : MatchPriceComparator side (heapTop side.opposite (st.book.heap side.opposite)) price
      = true)
    (hl : mapFind st.book.orderMap_ (heapTop side.opposite (st.book.heap side.opposite)) =
      some (front :: rest)) :
    matchStep side price st = some (MatchState.mk
      (fillFront side st.book (heapTop side.opposite (st.book.heap side.opposite)) front rest
        (min front.order.quantity st.tempQuantity))
      (st.tempQuantity - min front.order.quantity st.tempQuantity)
      (AddMatchTrade (st.matchOrderQuantityMap, st.matchOrderQueue) front.order.id
        (heapTop side.opposite (st.book.heap side.opposite))
        (min front.order.quantity st.tempQuantity)).1
      (AddMatchTrade (st.matchOrderQuantityMap, st.matchOrderQueue) front.order.id
        (heapTop side.opposite (st.book.heap side.opposite))
        (min front.order.quantity st.tempQuantity)).2
      (st.fills ++ [Fill.mk front.order.id
        (heapTop side.opposite (st.book.heap side.opposite))
        (min front.order.quantity st.tempQuantity)])) := by
  unfold matchStep
  simp only [hl, Option.getD_some]
  rw [if_pos ⟨hq, hne⟩, if_pos hx]

theorem matchStep_of_zero {side : OrderSide} {price : Nat} {st : MatchState}
    (hq : st.tempQuantity = 0) : matchStep side price st = none := by
  unfold matchStep
  simp [hq]

theorem matchLoop_of_none {side : OrderSide} {price : Nat} {fuel : Nat} {st st' : MatchState}
    (hs : matchStep side price st = none) (h : matchLoop side price fuel st = some st') :
    st' = st := by
  cases fuel with
  | zero => cases h
  | succ fuel =>
    unfold matchLoop at h
    rw [hs] at h
    exact (Option.some.inj h).symm

theorem matchLoop_of_step {side : OrderSide} {price : Nat} {fuel : Nat} {st st1 st' : MatchState}
    (hs : matchStep side price st = some st1) (h : matchLoop side price fuel st = some st') :
    ∃ fuel', matchLoop side price fuel' st1 = some st' := by
  cases fuel with
  | zero => cases h
  | succ fuel =>
    unfold matchLoop at h
    rw [hs] at h
    exact ⟨fuel, h⟩

/-- The loop only appends to the list of fills. -/
theorem matchLoop_fills_append {side : OrderSide} {price : Nat} :
    ∀ (fuel : Nat) {st st' : MatchState}, matchLoop side price fuel st = some st' →
      ∃ more, st'.fills = st.fills ++ more := by
  intro fuel
  induction fuel with
  | zero => intro st st' h; cases h
  | succ fuel ih =>
    intro st st' h
    unfold matchLoop at h
    split at h
    · cases h; exact ⟨[], by simp⟩
    · rename_i st1 hs
      obtain ⟨more, hm⟩ := ih h
      obtain ⟨_, _, _, hcase⟩ := matchStep_some hs
      rcases hcase with ⟨_, rfl⟩ | ⟨front, rest, _, rfl⟩
      · exact ⟨more, hm⟩
      · refine ⟨Fill.mk front.order.id (heapTop side.opposite (st.book.heap side.opposite))
          (min front.order.quantity st.tempQuantity) :: more, ?_⟩
        rw [hm]
        simp

/-- The loop on a best opposite level of plain orders follows the FIFO rule. -/
theorem fifo_loop (side : OrderSide) (price p : Nat) :
    ∀ (L : TimeOrderList) (fuel : Nat) (st st' : MatchState), Inv st.book →
      matchLoop side price fuel st = some st' →
      mapFind st.book.orderMap_ p = some L → L ≠ [] →
      st.book.heap side.opposite ≠ [] →
      heapTop side.opposite (st.book.heap side.opposite) = p →
      MatchPriceComparator side p price = true →
      (∀ n ∈ L, n.order.hiddenQuantity = 0) →
      ∃ more, st'.fills = st.fills ++ (fifoConsume p L st.tempQuantity).1 ++ more ∧
        ((fifoConsume p L st.tempQuantity).2 ≠ [] →
          more = [] ∧ st'.tempQuantity = 0 ∧
            mapFind st'.book.orderMap_ p = some (fifoConsume p L st.tempQuantity).2) ∧
        ((fifoConsume p L st.tempQuantity).2 = [] → p ∉ st'.book.heap side.opposite) := by
  intro L
  induction L with
  | nil => intro fuel st st' _ _ _ h; exact absurd rfl h
  | cons n rest ih =>
    intro fuel st st' hinv hloop hl _ hne htop hx hplain
    rcases Nat.eq_zero_or_pos st.tempQuantity with h0 | hpos
    · have hst := matchLoop_of_none (matchStep_of_zero h0) hloop
      subst hst
      refine ⟨[], ?_, ?_, ?_⟩
      · simp [fifoConsume, h0]
      · intro _
        refine ⟨rfl, h0, ?_⟩
        simp only [fifoConsume, h0, if_true]
        exact hl
      · intro h
        simp [fifoConsume, h0] at h
    · have hl' : mapFind st.book.orderMap_ (heapTop side.opposite (st.book.heap side.opposite)) =
          some (n :: rest) := by rw [htop]; exact hl
      have hx' : MatchPriceComparator side (heapTop side.opposite (st.book.heap side.opposite))
          price = true := by rw [htop]; exact hx
      have hstep := matchStep_of_front hpos hne hx' hl'
      obtain ⟨fuel', hloop'⟩ := matchLoop_of_step hstep hloop
      have hh : n.order.hiddenQuantity = 0 := hplain n (List.mem_cons_self _ _)
      have hq0 : (fifoConsume p (n :: rest) st.tempQuantity) =
          if n.order.quantity ≤ st.tempQuantity then
            (Fill.mk n.order.id p n.order.quantity ::
              (fifoConsume p rest (st.tempQuantity - n.order.quantity)).1,
              (fifoConsume p rest (st.tempQuantity - n.order.quantity)).2)
          else ([Fill.mk n.order.id p st.tempQuantity],
            ListNode.mk n.iter { n.order with quantity := n.order.quantity - st.tempQuantity }
              :: rest) := by
        simp only [fifoConsume]
        rw [if_neg (Nat.pos_iff_ne_zero.1 hpos)]
      rw [hq0]
      rw [htop] at hstep hloop'
      by_cases hle : n.order.quantity ≤ st.tempQuantity
      · -- the front order is filled completely and removed
        rw [if_pos hle]
        have hmin : min n.order.quantity st.tempQuantity = n.order.quantity := Nat.min_eq_left hle
        rw [hmin] at hloop' hstep
        have hinv1 := hinv.step hstep
        have hfq : fillQueue n rest n.order.quantity = rest := by
          unfold fillQueue
          simp [hh]
        by_cases hrest : rest = []
        · subst hrest
          obtain ⟨more, hm⟩ := matchLoop_fills_append fuel' hloop'
          refine ⟨more, ?_, ?_, ?_⟩
          · rw [hm]; simp [fifoConsume]
          · intro h; simp [fifoConsume] at h
          · intro _
            have hfr := matchLoop_frame hinv1 hloop'
            intro hmem
            have h1 := hfr.heapSub p hmem
            simp only at h1
            rw [fillFront_heap_opposite_eq, hfq, if_pos rfl] at h1
            have h2 := (mem_heapPop side.opposite (hinv.heapNodup side.opposite)).1 h1
            exact h2.1 htop.symm
        · have hl1 : mapFind (fillFront side st.book p n rest n.order.quantity).orderMap_ p =
              some rest := by
            rw [fillFront_find, if_pos rfl, hfq, if_neg hrest]
          have hheap1 : (fillFront side st.book p n rest n.order.quantity).heap side.opposite =
              st.book.heap side.opposite := by
            rw [fillFront_heap_opposite_eq, hfq, if_neg hrest]
          obtain ⟨more, hm1, hm2, hm3⟩ := ih fuel' _ st' hinv1 hloop' hl1 hrest
            (by rw [hheap1]; exact hne) (by rw [hheap1]; exact htop) hx
            (fun m hm => hplain m (List.mem_cons_of_mem _ hm))
          refine ⟨more, ?_, hm2, hm3⟩
          rw [hm1]
          simp
      · -- the front order is filled in part; the incoming order is exhausted
        rw [if_neg hle]
        have hlt : st.tempQuantity < n.order.quantity := Nat.lt_of_not_le hle
        have hmin : min n.order.quantity st.tempQuantity = st.tempQuantity :=
          Nat.min_eq_right (Nat.le_of_lt hlt)
        rw [hmin] at hloop' hstep
        have hst := matchLoop_of_none (matchStep_of_zero (by simp)) hloop'
        subst hst
        have hfq : fillQueue n rest st.tempQuantity =
            ListNode.mk n.iter { n.order with quantity := n.order.quantity - st.tempQuantity }
              :: rest := by
          unfold fillQueue
          have : n.order.quantity - st.tempQuantity ≠ 0 := by omega
          simp [this]
        refine ⟨[], by simp, ?_, ?_⟩
        · intro _
          refine ⟨rfl, by simp, ?_⟩
          show mapFind (fillFront side st.book p n rest st.tempQuantity).orderMap_ p = _
          rw [fillFront_find, if_pos rfl, hfq]
          simp
        · intro h; simp at h

theorem MatchPriceComparator_trans {side : OrderSide} {a c d : Nat}
    (h1 : MatchPriceComparator side a c = true) (h2 : MatchPriceComparator side c d = true) :
    MatchPriceComparator side a d = true := by
  cases side <;> simp only [MatchPriceComparator, decide_eq_true_eq] at h1 h2 ⊢ <;> omega

/-- The iteration made when the level at the top of the opposite heap crosses and
is empty: the lazy drain. -/
theorem matchStep_of_stale {side : OrderSide} {price : Nat} {st : MatchState}
    (hq : 0 < st.tempQuantity) (hne : st.book.heap side.opposite ≠ [])
    (hx : MatchPriceComparator side (heapTop side.opposite (st.book.heap side.opposite)) price
      = true)
    (hl : (mapFind st.book.orderMap_
      (heapTop side.opposite (st.book.heap side.opposite))).getD [] = []) :
    matchStep side price st = some (MatchState.mk
      (dropLevel side st.book (heapTop side.opposite (st.book.heap side.opposite)))
      st.tempQuantity st.matchOrderQuantityMap st.matchOrderQueue st.fills) := by
  unfold matchStep
  simp only [hl]
  rw [if_pos ⟨hq, hne⟩, if_pos hx]

/-- The loop follows the FIFO rule on the best opposite level that holds orders:
the better prices of the opposite heap, whose queues cancellations emptied, are
drained first without a fill. -/
theorem fifo_loop_drain (side : OrderSide) (price p : Nat) (L : TimeOrderList) :
    ∀ (fuel : Nat) (st st' : MatchState), Inv st.book →
      matchLoop side price fuel st = some st' →
      mapFind st.book.orderMap_ p = some L → L ≠ [] →
      p ∈ st.book.heap side.opposite →
      (∀ x ∈ st.book.heap side.opposite, x ≠ p → MatchPriceComparator side x p = true →
        (mapFind st.book.orderMap_ x).getD [] = []) →
      MatchPriceComparator side p price = true →
      (∀ n ∈ L, n.order.hiddenQuantity = 0) →
      ∃ more, st'.fills = st.fills ++ (fifoConsume p L st.tempQuantity).1 ++ more ∧
        ((fifoConsume p L st.tempQuantity).2 ≠ [] →
          more = [] ∧ st'.tempQuantity = 0 ∧
            mapFind st'.book.orderMap_ p = some (fifoConsume p L st.tempQuantity).2) ∧
        ((fifoConsume p L st.tempQuantity).2 = [] → p ∉ st'.book.heap side.opposite) := by
  intro fuel
  induction fuel with
  | zero => intro st st' _ h; cases h
  | succ fuel ih =>
    intro st st' hinv hloop hl hLne hp hstale hx hplain
    have hne : st.book.heap side.opposite ≠ [] := List.ne_nil_of_mem hp
    by_cases htop : heapTop side.opposite (st.book.heap side.opposite) = p
    · exact fifo_loop side price p L (fuel + 1) st st' hinv hloop hl hLne hne htop hx hplain
    · have hbest : MatchPriceComparator side
          (heapTop side.opposite (st.book.heap side.opposite)) p = true := heapTop_best side hp
      have hempty := hstale _ (heapTop_mem side.opposite hne) htop hbest
      rcases Nat.eq_zero_or_pos st.tempQuantity with h0 | hpos
      · have hst := matchLoop_of_none (matchStep_of_zero h0) hloop
        subst hst
        cases L with
        | nil => exact absurd rfl hLne
        | cons n rest =>
          refine ⟨[], ?_, ?_, ?_⟩
          · simp [fifoConsume, h0]
          · intro _
            refine ⟨rfl, h0, ?_⟩
            simp only [fifoConsume, h0, if_true]
            exact hl
          · intro h
            simp [fifoConsume, h0] at h
      · have hstep := matchStep_of_stale hpos hne (MatchPriceComparator_trans hbest hx) hempty
        have hinv1 := hinv.step hstep
        unfold matchLoop at hloop
        rw [hstep] at hloop
        have hp' : p ≠ heapTop side.opposite (st.book.heap side.opposite) := fun h => htop h.symm
        refine ih (MatchState.mk
          (dropLevel side st.book (heapTop side.opposite (st.book.heap side.opposite)))
          st.tempQuantity st.matchOrderQuantityMap st.matchOrderQueue st.fills)
          st' hinv1 hloop ?_ hLne ?_ ?_ hx hplain
        · show mapFind (dropLevel side st.book _).orderMap_ p = some L
          rw [dropLevel_orderMap, mapFind_mapErase_ne _ hp']
          exact hl
        · show p ∈ (dropLevel side st.book _).heap side.opposite
          rw [dropLevel_heap_opposite]
          exact (mem_heapPop side.opposite (hinv.heapNodup side.opposite)).2 ⟨hp', hp⟩
        · intro x hxm hxp hxb
          have hxm' : x ∈ (dropLevel side st.book
              (heapTop side.opposite (st.book.heap side.opposite))).heap side.opposite := hxm
          rw [dropLevel_heap_opposite] at hxm'
          obtain ⟨hxt, hxh⟩ := (mem_heapPop side.opposite (hinv.heapNodup side.opposite)).1 hxm'
          show (mapFind (dropLevel side st.book _).orderMap_ x).getD [] = []
          rw [dropLevel_orderMap, mapFind_mapErase_ne _ hxt]
          exact hstale x hxh hxp hxb

end Fifo

section FifoClaim

/-- The shape of what the FIFO rule yields: the fills name a leading segment of
the queue in queue order, all fills but the last are complete fills of the
orders in front, and the queue left is a trailing segment of the queue whose
nodes behind the first are unchanged. -/
theorem fifoConsume_shape (p : Nat) : ∀ (L : TimeOrderList) (q : Nat),
    (fifoConsume p L q).1.map Fill.id =
      (L.take (fifoConsume p L q).1.length).map (fun n => n.order.id) ∧
    (fifoConsume p L q).1.dropLast =
      (L.take ((fifoConsume p L q).1.length - 1)).map
        (fun n => Fill.mk n.order.id p n.order.quantity) ∧
    (∀ f ∈ (fifoConsume p L q).1, f.price = p) ∧
    ∃ j, j ≤ (fifoConsume p L q).1.length ∧ (fifoConsume p L q).1.length ≤ j + 1 ∧
      (fifoConsume p L q).2.map ListNode.iter = (L.drop j).map ListNode.iter ∧
      (fifoConsume p L q).2.tail = (L.drop j).tail := by
  intro L
  induction L with
  | nil =>
    intro q
    refine ⟨by simp [fifoConsume], by simp [fifoConsume], by simp [fifoConsume], 0, ?_⟩
    simp [fifoConsume]
  | cons n rest ih =>
    intro q
    by_cases h0 : q = 0
    · subst h0
      refine ⟨by simp [fifoConsume], by simp [fifoConsume], by simp [fifoConsume], 0, ?_⟩
      simp [fifoConsume]
    · by_cases hle : n.order.quantity ≤ q
      · obtain ⟨h1, h2, h3, j, hj1, hj2, hj3, hj4⟩ := ih (q - n.order.quantity)
        have he : fifoConsume p (n :: rest) q =
            (Fill.mk n.order.id p n.order.quantity ::
              (fifoConsume p rest (q - n.order.quantity)).1,
              (fifoConsume p rest (q - n.order.quantity)).2) := by
          simp only [fifoConsume]
          rw [if_neg h0, if_pos hle]
        rw [he]
        refine ⟨?_, ?_, ?_, j + 1, ?_, ?_, ?_, ?_⟩
        · simp only [List.map_cons, List.length_cons, List.take_succ_cons, h1]
        · by_cases hne : (fifoConsume p rest (q - n.order.quantity)).1 = []
          · simp [hne]
          · rw [List.dropLast_cons_of_ne_nil hne, h2]
            have hpos : 0 < (fifoConsume p rest (q - n.order.quantity)).1.length :=
              List.length_pos.2 hne
            have hlen : (fifoConsume p rest (q - n.order.quantity)).1.length + 1 - 1 =
                ((fifoConsume p rest (q - n.order.quantity)).1.length - 1) + 1 := by omega
            simp only [List.length_cons]
            rw [hlen, List.take_succ_cons, List.map_cons]
        · intro f hf
          rcases List.mem_cons.1 hf with hf | hf
          · rw [hf]
          · exact h3 f hf
        · simp only [List.length_cons]; omega
        · simp only [List.length_cons]; omega
        · simp only [List.drop_succ_cons]; exact hj3
        · simp only [List.drop_succ_cons]; exact hj4
      · have he : fifoConsume p (n :: rest) q =
            ([Fill.mk n.order.id p q],
              ListNode.mk n.iter { n.order with quantity := n.order.quantity - q } :: rest) := by
          simp only [fifoConsume]
          rw [if_neg h0, if_neg hle]
        rw [he]
        refine ⟨by simp, by simp, by simp, 0, ?_⟩
        simp

/-- The level in which the residual of the incoming order rests: the orders of
its own side that rested at its price, followed by the new node. -/
theorem restOrder_back {b : OrderBook} {o : Order} {fuel : Nat} {st : MatchState}
    (hb : Inv b) (hloop : matchLoop o.side o.price fuel (initMatch b o) = some st)
    (hpos : 0 < st.tempQuantity) :
    mapFind (restOrder o.side o st).orderMap_ o.price =
      some ((if o.price ∈ b.heap o.side.opposite then []
          else (mapFind b.orderMap_ o.price).getD []) ++
        [ListNode.mk b.nextIter (restSplit o st.tempQuantity)]) := by
  have hb0 : Inv (initMatch b o).book := hb
  obtain ⟨hinv, hexit⟩ := matchLoop_inv fuel hb0 hloop
  have hfr : Frame b o.side st.book := matchLoop_frame hb0 hloop
  rw [restOrder_find _ _ _ hpos, if_pos rfl, hfr.nextIter]
  split_ifs with hmem
  · have hx := matchStep_none_exit hexit hpos
    have hnone : mapFind st.book.orderMap_ o.price = none := by
      rw [mapFind_eq_none_iff, hinv.keysHeaps]
      rintro ⟨s, hs⟩
      rcases side_cases o.side s with h | h
      · subst h
        rw [hfr.heapOwn] at hs
        exact hb.heaps_disjoint hs hmem
      · subst h
        have := hx o.price hs
        rw [MatchPriceComparator_self] at this
        cases this
    rw [hnone]
    rfl
  · rw [hfr.ownLevels o.price hmem]

/-- C3 (time priority): on a reachable book `AddOrder` of an order built by the
constructor (`hiddenQuantity = 0`) returns;
(a) when the incoming order is not filled completely, it rests as the last node
of the level of its price, behind the orders of its side that rested there;
(b) when the best opposite level that holds orders (the price `p` of the opposite
heap with the queue `L`, not empty, every better price of that heap holding no
order, as cancellations leave it) crosses and holds only plain orders, the fills
of the call start with the fills the FIFO rule `fifoConsume` gives for that
queue, nothing else is filled while orders of the level remain, and the level
then holds the queue that rule leaves (no opposite order at that price when it
leaves none);
(c) the FIFO rule fills a leading segment of the queue in queue order, completely
but for the last order touched, and leaves a trailing segment in its order;
(d) `L B 1 100 5`, `L B 2 100 5`, `L S 3 100 7` gives `M 1 3 100 5`, `M 2 3 100 2`
and leaves order 2 with quantity 3. -/
theorem C3_time_priority (b : OrderBook) (o : Order) (hb : Reachable b)
    (ho : o.hiddenQuantity = 0) :
    ((∃ fuel r, AddOrder fuel b o = some r) ∧
      ∀ fuel b' trades, AddOrder fuel b o = some (b', trades) →
        ((trades.map Trade.quantity).sum < o.quantity →
          mapFind b'.orderMap_ o.price =
            some ((if o.price ∈ b.heap o.side.opposite then []
                else (mapFind b.orderMap_ o.price).getD []) ++
              [ListNode.mk b.nextIter
                (restSplit o (o.quantity - (trades.map Trade.quantity).sum))])) ∧
        (∀ p L, p ∈ b.heap o.side.opposite → mapFind b.orderMap_ p = some L → L ≠ [] →
          (∀ x ∈ b.heap o.side.opposite, x ≠ p → MatchPriceComparator o.side x p = true →
            (mapFind b.orderMap_ x).getD [] = []) →
          (∀ n ∈ L, n.order.hiddenQuantity = 0) →
          MatchPriceComparator o.side p o.price = true →
          ∃ fills more, matchFills fuel b o = some fills ∧
            fills = (fifoConsume p L o.quantity).1 ++ more ∧
            ((fifoConsume p L o.quantity).2 ≠ [] →
              more = [] ∧ mapFind b'.orderMap_ p = some (fifoConsume p L o.quantity).2) ∧
            ((fifoConsume p L o.quantity).2 = [] →
              ∀ n ∈ restingNodes b'.orderMap_, n.order.side = o.side.opposite →
                n.order.price ≠ p))) ∧
    (∀ (p : Nat) (L : TimeOrderList) (q : Nat),
      (fifoConsume p L q).1.map Fill.id =
        (L.take (fifoConsume p L q).1.length).map (fun n => n.order.id) ∧
      (fifoConsume p L q).1.dropLast =
        (L.take ((fifoConsume p L q).1.length - 1)).map
          (fun n => Fill.mk n.order.id p n.order.quantity) ∧
      (∀ f ∈ (fifoConsume p L q).1, f.price = p) ∧
      ∃ j, j ≤ (fifoConsume p L q).1.length ∧ (fifoConsume p L q).1.length ≤ j + 1 ∧
        (fifoConsume p L q).2.map ListNode.iter = (L.drop j).map ListNode.iter ∧
        (fifoConsume p L q).2.tail = (L.drop j).tail) ∧
    (AddOrder 5 OrderBook.empty (Order.create 100 5 1 OrderSide.BUY 0) = some (bookBuy, []) ∧
      AddOrder 5 bookBuy (Order.create 100 5 2 OrderSide.BUY 0) = some (bookBuyBuy, []) ∧
      AddOrder 5 bookBuyBuy (Order.create 100 7 3 OrderSide.SELL 0) =
        some (bookBuyBuyHit, [Trade.mk 1 3 100 5, Trade.mk 2 3 100 2])) := by
  refine ⟨⟨AddOrder_terminates hb.inv o, ?_⟩, fifoConsume_shape, by decide, by decide,
    by decide⟩
  intro fuel b' trades h
  have hinv' := hb.inv.add ho h
  obtain ⟨st, hloop, hb', htr⟩ := AddOrder_some h
  have hb0 : Inv (initMatch b o).book := hb.inv
  obtain ⟨_, hG, _⟩ := matchLoop_conserved hb.inv hloop
  have hsum : (trades.map Trade.quantity).sum = (st.fills.map Fill.quantity).sum := by
    rw [htr]; exact PrintTrades_sum hb.inv hloop
  constructor
  · intro hlt
    have htq : o.quantity - (trades.map Trade.quantity).sum = st.tempQuantity := by omega
    rw [htq, hb']
    exact restOrder_back hb.inv hloop (by omega)
  · intro p L hp hL hLne hstale hplain hx
    obtain ⟨more, hm1, hm2, hm3⟩ := fifo_loop_drain o.side o.price p L fuel (initMatch b o) st
      hb0 hloop hL hLne hp hstale hx hplain
    refine ⟨st.fills, more, matchFills_of_loop hloop, ?_, ?_, ?_⟩
    · rw [hm1]; rfl
    · intro hrem
      obtain ⟨h1, h2, h3⟩ := hm2 hrem
      refine ⟨h1, ?_⟩
      rw [hb', restOrder_of_zero _ _ _ h2]
      exact h3
    · intro hrem n hn hside hprice
      have hnot := hm3 hrem
      obtain ⟨k, l, hl, hnl⟩ := hinv'.mem_resting.1 hn
      have hok := hinv'.nodes k l hl n hnl
      apply hnot
      have hmem := hok.2.1
      rw [hside, hb', restOrder_heap_opposite] at hmem
      rw [← hprice, hok.1]
      exact hmem

theorem bookBuyBuy_reachable : Reachable bookBuyBuy :=
  Reachable.add bookBuy (Order.create 100 5 2 OrderSide.BUY 0) 5 bookBuyBuy []
    bookBuy_reachable rfl (by decide)

theorem bookStaleSellSell_reachable : Reachable bookStaleSellSell :=
  Reachable.add bookStaleSell (Order.create 100 5 3 OrderSide.SELL 0) 5 bookStaleSellSell []
    (Reachable.add bookSellLowCancelled (Order.create 100 5 2 OrderSide.SELL 0) 5 bookStaleSell
      []
      (Reachable.cancel bookSellLow 1 true bookSellLowCancelled
        (Reachable.add OrderBook.empty (Order.create 99 5 1 OrderSide.SELL 0) 5 bookSellLow []
          Reachable.empty rfl (by decide))
        (by decide))
      rfl (by decide))
    rfl (by decide)

theorem C3_time_priority_witness :
    Reachable bookStaleSellSell ∧ (Order.create 100 7 4 OrderSide.BUY 0).hiddenQuantity = 0 ∧
    heapTop OrderSide.SELL (bookStaleSellSell.heap OrderSide.SELL) = 99 ∧
    mapFind bookStaleSellSell.orderMap_ 99 = some [] ∧
    AddOrder 5 bookStaleSellSell (Order.create 100 7 4 OrderSide.BUY 0) =
      some (bookStaleHit, [Trade.mk 4 2 100 5, Trade.mk 4 3 100 2]) ∧
    ∃ fills more,
      matchFills 5 bookStaleSellSell (Order.create 100 7 4 OrderSide.BUY 0) = some fills ∧
      fills = (fifoConsume 100 [ListNode.mk 1 (Order.mk 100 5 0 0 2 OrderSide.SELL),
        ListNode.mk 2 (Order.mk 100 5 0 0 3 OrderSide.SELL)] 7).1 ++ more ∧
      more = [] ∧
      mapFind bookStaleHit.orderMap_ 100 =
        some [ListNode.mk 2 (Order.mk 100 3 0 0 3 OrderSide.SELL)] := by
  refine ⟨bookStaleSellSell_reachable, rfl, by decide, by decide, by decide, ?_⟩
  obtain ⟨fills, more, h1, h2, h3, _⟩ :=
    ((C3_time_priority bookStaleSellSell (Order.create 100 7 4 OrderSide.BUY 0)
      bookStaleSellSell_reachable rfl).1.2 5 bookStaleHit
      [Trade.mk 4 2 100 5, Trade.mk 4 3 100 2] (by decide)).2 100
      [ListNode.mk 1 (Order.mk 100 5 0 0 2 OrderSide.SELL),
        ListNode.mk 2 (Order.mk 100 5 0 0 3 OrderSide.SELL)]
      (by decide) (by decide) (by decide) (by decide) (by decide) (by decide)
  exact ⟨fills, more, h1, h2, (h3 (by decide)).1, (h3 (by decide)).2⟩

end FifoClaim

section RestingSplit

/-- The quantities printed and the quantity left after the loop add up to the
quantity of the incoming order. -/
theorem PrintTrades_sum_left {b : OrderBook} {o : Order} {fuel : Nat} {st : MatchState}
    (hb : Inv b) (hloop : matchLoop o.side o.price fuel (initMatch b o) = some st) :
    ((PrintTrades o.side st.matchOrderQuantityMap st.matchOrderQueue o).map
      Trade.quantity).sum + st.tempQuantity = o.quantity := by
  rw [PrintTrades_sum hb hloop]
  exact (matchLoop_conserved hb hloop).2.1

/-- The order `restSplit` builds, field by field. -/
theorem restSplit_eq (o : Order) (r : Nat) (ho : o.hiddenQuantity = 0) :
    restSplit o r = Order.mk o.price
      (if 0 < o.peakSize ∧ o.peakSize < r then o.peakSize - (o.quantity - r) % o.peakSize else r)
      (if 0 < o.peakSize ∧ o.peakSize < r then
        r - (o.peakSize - (o.quantity - r) % o.peakSize) else 0)
      o.peakSize o.id o.side := by
  unfold restSplit
  cases o
  simp only at ho
  subst ho
  split_ifs <;> rfl

/-- C14 (resting split on entry): on a reachable book `AddOrder` of an order
built by the constructor returns; with `traded` the sum of the trade quantities
and `r = quantity - traded` the quantity left, when `r > 0` the order rests as
the last node of the level of its price with visible `peakSize - traded mod
peakSize` and hidden `r - visible` if `peakSize > 0` and `r > peakSize`, with
visible `r` and hidden 0 otherwise, so that visible + hidden = `r`; when `r = 0`
no node is allocated: the order does not rest. -/
theorem C14_resting_split (b : OrderBook) (o : Order) (hb : Reachable b)
    (ho : o.hiddenQuantity = 0) :
    (∃ fuel r, AddOrder fuel b o = some r) ∧
      ∀ fuel b' trades, AddOrder fuel b o = some (b', trades) →
        (trades.map Trade.quantity).sum ≤ o.quantity ∧
        (0 < o.quantity - (trades.map Trade.quantity).sum →
          (∃ old, mapFind b'.orderMap_ o.price = some (old ++ [ListNode.mk b.nextIter
            (Order.mk o.price
              (if 0 < o.peakSize ∧ o.peakSize < o.quantity - (trades.map Trade.quantity).sum then
                o.peakSize - (trades.map Trade.quantity).sum % o.peakSize
               else o.quantity - (trades.map Trade.quantity).sum)
              (if 0 < o.peakSize ∧ o.peakSize < o.quantity - (trades.map Trade.quantity).sum then
                o.quantity - (trades.map Trade.quantity).sum -
                  (o.peakSize - (trades.map Trade.quantity).sum % o.peakSize)
               else 0)
              o.peakSize o.id o.side)])) ∧
          (if 0 < o.peakSize ∧ o.peakSize < o.quantity - (trades.map Trade.quantity).sum then
              o.peakSize - (trades.map Trade.quantity).sum % o.peakSize
            else o.quantity - (trades.map Trade.quantity).sum) +
            (if 0 < o.peakSize ∧ o.peakSize < o.quantity - (trades.map Trade.quantity).sum then
              o.quantity - (trades.map Trade.quantity).sum -
                (o.peakSize - (trades.map Trade.quantity).sum % o.peakSize)
            else 0) = o.quantity - (trades.map Trade.quantity).sum) ∧
        (o.quantity - (trades.map Trade.quantity).sum = 0 →
          ∀ n ∈ restingNodes b'.orderMap_, n.iter < b.nextIter) := by
  refine ⟨AddOrder_terminates hb.inv o, ?_⟩
  intro fuel b' trades h
  obtain ⟨st, hloop, hb', htr⟩ := AddOrder_some h
  have hb0 : Inv (initMatch b o).book := hb.inv
  have hsum := PrintTrades_sum_left hb.inv hloop
  rw [← htr] at hsum
  have hr : o.quantity - (trades.map Trade.quantity).sum = st.tempQuantity := by omega
  have ht : o.quantity - st.tempQuantity = (trades.map Trade.quantity).sum := by omega
  rw [hr]
  refine ⟨by omega, ?_, ?_⟩
  · intro hpos
    constructor
    · refine ⟨if o.price ∈ b.heap o.side.opposite then []
        else (mapFind b.orderMap_ o.price).getD [], ?_⟩
      rw [hb', restOrder_back hb.inv hloop hpos, restSplit_eq o st.tempQuantity ho, ht]
    · have := restSplit_total o st.tempQuantity ho
      rw [restSplit_eq o st.tempQuantity ho, ht] at this
      exact this
  · intro h0 n hn
    rw [hb', restOrder_of_zero _ _ _ h0] at hn
    obtain ⟨hinv, _⟩ := matchLoop_inv fuel hb0 hloop
    obtain ⟨k, l, hl, hnl⟩ := hinv.mem_resting.1 hn
    have hfr : Frame b o.side st.book := matchLoop_frame hb0 hloop
    rw [← hfr.nextIter]
    exact (hinv.nodes k l hl n hnl).2.2.2.2

theorem C14_resting_split_witness :
    Reachable bookBuy ∧ (Order.create 100 40 3 OrderSide.SELL 10).hiddenQuantity = 0 ∧
    (∃ fuel r, AddOrder fuel bookBuy (Order.create 100 40 3 OrderSide.SELL 10) = some r) ∧
    AddOrder 5 bookBuy (Order.create 100 40 3 OrderSide.SELL 10) =
      some (bookIcebergEntered, [Trade.mk 1 3 100 5]) ∧
    mapFind bookIcebergEntered.orderMap_ 100 =
      some ([] ++ [ListNode.mk bookBuy.nextIter (Order.mk 100 (10 - 5 % 10) (35 - (10 - 5 % 10))
        10 3 OrderSide.SELL)]) :=
  ⟨bookBuy_reachable, rfl,
    (C14_resting_split bookBuy (Order.create 100 40 3 OrderSide.SELL 10) bookBuy_reachable rfl).1,
    by decide, by decide⟩

end RestingSplit

section WellFormed

/-- A node of the queue after a fill: a node behind the front node, the front node
with its visible quantity reduced, or the front node replenished. -/
theorem mem_fillQueue_cases {front n : ListNode} {rest : TimeOrderList} {q : Nat}
    (h : n ∈ fillQueue front rest q) :
    n ∈ rest ∨
      n = ListNode.mk front.iter { front.order with quantity := front.order.quantity - q } ∨
      n = ListNode.mk front.iter
        (refillOrder { front.order with quantity := front.order.quantity - q }) := by
  unfold fillQueue at h
  simp only [] at h
  split_ifs at h
  · rcases List.mem_append.1 h with h | h
    · exact Or.inl h
    · exact Or.inr (Or.inr (List.mem_singleton.1 h))
  · exact Or.inl h
  · rcases List.mem_cons.1 h with h | h
    · exact Or.inr (Or.inl h)
    · exact Or.inl h

theorem PeakOK.stepPeak {side : OrderSide} {price : Nat} {st st' : MatchState}
    (hp : PeakOK st.book) (h : matchStep side price st = some st') : PeakOK st'.book := by
  obtain ⟨_, _, _, hcase⟩ := matchStep_some h
  rcases hcase with ⟨_, rfl⟩ | ⟨front, rest, hlevel, rfl⟩
  · intro p l n hl hn
    exact hp p l n (mapFind_dropLevel hl).2 hn
  · intro p l n hl hn hk
    rcases mapFind_fillFront hl with ⟨hp', hl'⟩ | ⟨_, hl'⟩
    · subst hp'; subst hl'
      have hfront := hp _ _ front hlevel (List.mem_cons_self _ _)
      rcases mem_fillQueue_cases hn with hn | hn | hn
      · exact hp _ _ n hlevel (List.mem_cons_of_mem _ hn) hk
      · subst hn
        have := hfront hk
        show front.order.quantity - _ ≤ front.order.peakSize
        omega
      · subst hn
        exact Nat.min_le_right _ _
    · exact hp p l n hl' hn hk

theorem restSplit_quantity_le (o : Order) (r : Nat) (hk : 0 < o.peakSize) :
    (restSplit o r).quantity ≤ o.peakSize := by
  unfold restSplit
  split_ifs with hc
  · show o.peakSize - _ ≤ o.peakSize
    omega
  · show r ≤ o.peakSize
    have : ¬ r > o.peakSize := fun h => hc ⟨hk, h⟩
    omega

theorem PeakOK.restPeak {side : OrderSide} {o : Order} {st : MatchState} (hp : PeakOK st.book) :
    PeakOK (restOrder side o st) := by
  rcases Nat.eq_zero_or_pos st.tempQuantity with h0 | hpos
  · rw [restOrder_of_zero _ _ _ h0]; exact hp
  · intro p l n hl hn hk
    rw [restOrder_find _ _ _ hpos] at hl
    split_ifs at hl with hpk
    · have := Option.some.inj hl
      subst this
      rcases List.mem_append.1 hn with hn | hn
      · exact hp _ _ n (mem_getD_nil hn) hn hk
      · rw [List.mem_singleton] at hn
        subst hn
        simp only [restSplit_peakSize] at hk ⊢
        exact restSplit_quantity_le o st.tempQuantity hk
    · exact hp p l n hl hn hk

theorem PeakOK.cancelPeak {b b' : OrderBook} {id : Nat} {r : Bool} (hb : Inv b) (hp : PeakOK b)
    (h : CancelOrder b id = some (r, b')) : PeakOK b' := by
  cases hf : mapFind b.orders_ id with
  | none =>
    rw [cancel_not_found hf] at h
    cases h
    exact hp
  | some it =>
    obtain ⟨l, n, hl, hn, _, _, hc⟩ := cancel_found hb hf
    rw [hc] at h
    cases h
    intro p l' n' hl' hn'
    rcases mapFind_mapSet_some hl' with ⟨hk, hl''⟩ | ⟨_, hl''⟩
    · subst hk; subst hl''
      exact hp _ l n' hl (List.mem_of_mem_erase hn')
    · exact hp p l' n' hl'' hn'

theorem Reachable.peakOK {b : OrderBook} (h : Reachable b) : PeakOK b := by
  induction h with
  | empty => intro p l n hl; cases hl
  | add b o fuel b' trades hr _ ha ih =>
    obtain ⟨st, hloop, rfl, _⟩ := AddOrder_some ha
    have hb0 : Inv (initMatch b o).book := hr.inv
    have hst : PeakOK st.book :=
      matchLoop_induction (fun s => PeakOK s.book) (fun _ _ _ hp hs => hp.stepPeak hs)
        fuel _ st hb0 ih hloop
    exact hst.restPeak
  | cancel b id r b' hr hc ih => exact ih.cancelPeak hr.inv hc

/-- C15 (well-formed resting orders): after every sequence of `AddOrder` and
`CancelOrder` calls on the empty book, every resting order has a positive
visible quantity, has no hidden quantity when its peak size is 0, and has a
visible quantity of at most its peak size when it holds hidden quantity or has a
peak size. -/
theorem C15_well_formed_resting (b : OrderBook) (hb : Reachable b) :
    ∀ n ∈ restingNodes b.orderMap_,
      0 < n.order.quantity ∧
      (n.order.peakSize = 0 → n.order.hiddenQuantity = 0) ∧
      (n.order.hiddenQuantity ≠ 0 ∨ 0 < n.order.peakSize →
        n.order.quantity ≤ n.order.peakSize) := by
  intro n hn
  obtain ⟨p, l, hl, hnl⟩ := hb.inv.mem_resting.1 hn
  have hok := hb.inv.nodes p l hl n hnl
  refine ⟨hok.2.2.1, ?_, ?_⟩
  · intro hk
    by_contra hh
    have := hok.2.2.2.1 hh
    omega
  · intro h
    have hk : 0 < n.order.peakSize := by
      rcases h with h | h
      · exact hok.2.2.2.1 h
      · exact h
    exact hb.peakOK p l n hl hnl hk

theorem bookIcebergEntered_reachable : Reachable bookIcebergEntered :=
  Reachable.add bookBuy (Order.create 100 40 3 OrderSide.SELL 10) 5 bookIcebergEntered
    [Trade.mk 1 3 100 5] bookBuy_reachable rfl (by decide)

theorem C15_well_formed_resting_witness :
    Reachable bookIcebergEntered ∧
    ∀ n ∈ restingNodes bookIcebergEntered.orderMap_,
      0 < n.order.quantity ∧
      (n.order.peakSize = 0 → n.order.hiddenQuantity = 0) ∧
      (n.order.hiddenQuantity ≠ 0 ∨ 0 < n.order.peakSize →
        n.order.quantity ≤ n.order.peakSize) :=
  ⟨bookIcebergEntered_reachable,
    C15_well_formed_resting bookIcebergEntered bookIcebergEntered_reachable⟩

end WellFormed

section IdIndex

theorem matchStep_orders_nodup {side : OrderSide} {price : Nat} {st st' : MatchState}
    (hp : (st.book.orders_.map Prod.fst).Nodup) (h : matchStep side price st = some st') :
    (st'.book.orders_.map Prod.fst).Nodup := by
  obtain ⟨_, _, _, hcase⟩ := matchStep_some h
  rcases hcase with ⟨_, rfl⟩ | ⟨front, rest, _, rfl⟩
  · show ((dropLevel side st.book _).orders_.map Prod.fst).Nodup
    rw [dropLevel_orders]; exact hp
  · show ((fillFront side st.book _ front rest _).orders_.map Prod.fst).Nodup
    rw [fillFront_orders]
    split_ifs
    · exact mapErase_keys_nodup _ hp
    · exact hp

/-- The keys of the id index are distinct in every reachable book. -/
theorem Reachable.orders_nodup {b : OrderBook} (h : Reachable b) :
    (b.orders_.map Prod.fst).Nodup := by
  induction h with
  | empty => exact List.nodup_nil
  | add b o fuel b' trades hr _ ha ih =>
    obtain ⟨st, hloop, rfl, _⟩ := AddOrder_some ha
    have hb0 : Inv (initMatch b o).book := hr.inv
    have hst : (st.book.orders_.map Prod.fst).Nodup :=
      matchLoop_induction (fun s => (s.book.orders_.map Prod.fst).Nodup)
        (fun _ _ _ hp hs => matchStep_orders_nodup hp hs) fuel _ st hb0 ih hloop
    rcases Nat.eq_zero_or_pos st.tempQuantity with h0 | hpos
    · rw [restOrder_of_zero _ _ _ h0]; exact hst
    · rw [restOrder_orders _ _ _ hpos]; exact mapSet_keys_nodup _ _ hst
  | cancel b id r b' hr hc ih =>
    cases hf : mapFind b.orders_ id with
    | none =>
      rw [cancel_not_found hf] at hc
      cases hc
      exact ih
    | some it =>
      obtain ⟨l, n, _, _, _, _, hc'⟩ := cancel_found hr.inv hf
      rw [hc'] at hc
      cases hc
      exact mapErase_keys_nodup _ ih

/-- C16 (id index consistency): in a book reached by calls in which every
submitted id differs from the ids resting at that moment, the keys of `orders_`
are distinct and are exactly the ids of the resting orders, and the iterator of
each entry denotes the node of the order with that id, which is queued in the
level stored in `orderMap_` under the price of that order. -/
theorem C16_id_index_consistency (b : OrderBook) (hb : ReachableFresh b) :
    (b.orders_.map Prod.fst).Nodup ∧
    (∀ id, id ∈ b.orders_.map Prod.fst ↔ id ∈ restingIds b) ∧
    (∀ id it, mapFind b.orders_ id = some it →
      ∃ n l, n.order.id = id ∧ n.iter = it ∧ derefIter b.orderMap_ it = some n.order ∧
        mapFind b.orderMap_ n.order.price = some l ∧ n ∈ l) := by
  have hinv := hb.reachable.inv
  have hidx : ∀ id it, mapFind b.orders_ id = some it →
      ∃ n l, n.order.id = id ∧ n.iter = it ∧ derefIter b.orderMap_ it = some n.order ∧
        mapFind b.orderMap_ n.order.price = some l ∧ n ∈ l := by
    intro id it hf
    obtain ⟨p, l, n, hl, hn, hni, hnid⟩ := hinv.index id it hf
    have hp := (hinv.nodes p l hl n hn).1
    subst hp
    exact ⟨n, l, hnid, hni, hni ▸ derefIter_of_mem hinv hl hn, hl, hn⟩
  refine ⟨hb.reachable.orders_nodup, ?_, hidx⟩
  intro id
  constructor
  · intro hmem
    obtain ⟨it, hf⟩ := mapFind_isSome_iff.2 hmem
    obtain ⟨n, l, hnid, _, _, hl, hn⟩ := hidx id it hf
    unfold restingIds
    exact List.mem_map.2 ⟨n, hinv.mem_resting.2 ⟨_, l, hl, hn⟩, hnid⟩
  · intro hmem
    unfold restingIds at hmem
    obtain ⟨n, hn, hnid⟩ := List.mem_map.1 hmem
    obtain ⟨p, l, hl, hnl⟩ := hinv.mem_resting.1 hn
    have := hb.indexed p l n hl hnl
    rw [hnid] at this
    exact mapFind_isSome_iff.1 ⟨_, this⟩

theorem C16_id_index_consistency_witness :
    ReachableFresh bookBuySell ∧
    ((bookBuySell.orders_.map Prod.fst).Nodup ∧
    (∀ id, id ∈ bookBuySell.orders_.map Prod.fst ↔ id ∈ restingIds bookBuySell) ∧
    (∀ id it, mapFind bookBuySell.orders_ id = some it →
      ∃ n l, n.order.id = id ∧ n.iter = it ∧
        derefIter bookBuySell.orderMap_ it = some n.order ∧
        mapFind bookBuySell.orderMap_ n.order.price = some l ∧ n ∈ l)) :=
  ⟨bookBuySell_fresh, C16_id_index_consistency bookBuySell bookBuySell_fresh⟩

end IdIndex

section PrintFacts

theorem printHeap_eq_flatMap (side : OrderSide) (m : List (Nat × TimeOrderList)) :
    ∀ (fuel : Nat) (h : List Nat),
      printHeap side m fuel h = (drainHeap side fuel h).flatMap (printLevel m) := by
  intro fuel
  induction fuel with
  | zero => intro h; rfl
  | succ fuel ih =>
    intro h
    unfold printHeap drainHeap
    split_ifs
    · rfl
    · rw [List.flatMap_cons, ih]

theorem drainHeap_subset (side : OrderSide) :
    ∀ (fuel : Nat) (h : List Nat) (x : Nat), x ∈ drainHeap side fuel h → x ∈ h := by
  intro fuel
  induction fuel with
  | zero => intro h x hx; cases hx
  | succ fuel ih =>
    intro h x hx
    unfold drainHeap at hx
    split_ifs at hx with hne
    · cases hx
    · rcases List.mem_cons.1 hx with hx | hx
      · rw [hx]; exact heapTop_mem side hne
      · exact mem_of_mem_heapPop (ih _ x hx)

/-- Draining a heap pops every price it holds, once each. -/
theorem drainHeap_perm (side : OrderSide) :
    ∀ (fuel : Nat) (h : List Nat), h.length ≤ fuel → (drainHeap side fuel h).Perm h := by
  intro fuel
  induction fuel with
  | zero =>
    intro h hlen
    have : h = [] := List.length_eq_zero.1 (Nat.le_zero.1 hlen)
    subst this
    exact List.Perm.refl _
  | succ fuel ih =>
    intro h hlen
    unfold drainHeap
    split_ifs with hne
    · subst hne; exact List.Perm.refl _
    · have hl := heapPop_length side hne
      have hp := ih (heapPop side h) (by omega)
      exact (List.Perm.cons _ hp).trans (List.perm_cons_erase (heapTop_mem side hne)).symm

/-- The loop of `printHeap` needs no more fuel than the number of prices. -/
theorem drainHeap_fuel (side : OrderSide) :
    ∀ (fuel : Nat) (h : List Nat), h.length ≤ fuel →
      drainHeap side fuel h = drainHeap side h.length h := by
  intro fuel
  induction fuel with
  | zero =>
    intro h hlen
    have : h = [] := List.length_eq_zero.1 (Nat.le_zero.1 hlen)
    subst this
    rfl
  | succ fuel ih =>
    intro h hlen
    cases h with
    | nil => rfl
    | cons a t =>
      have hne : a :: t ≠ [] := List.cons_ne_nil _ _
      have hl := heapPop_length side hne
      have hlt : (heapPop side (a :: t)).length = t.length := by
        simp only [List.length_cons] at hl
        omega
      simp only [List.length_cons]
      unfold drainHeap
      rw [if_neg hne, if_neg hne, ih _ (by simp only [List.length_cons] at hlen; omega),
        ← hlt]

/-- A buy heap is drained from the highest price down. -/
theorem drainHeap_buy_pairwise :
    ∀ (fuel : Nat) (h : List Nat), h.Nodup →
      (drainHeap OrderSide.BUY fuel h).Pairwise (fun a c => a > c) := by
  intro fuel
  induction fuel with
  | zero => intro h _; exact List.Pairwise.nil
  | succ fuel ih =>
    intro h hnd
    unfold drainHeap
    split_ifs with hne
    · exact List.Pairwise.nil
    · refine List.pairwise_cons.2 ⟨?_, ih _ (heapPop_nodup _ hnd)⟩
      intro x hx
      have hx' := drainHeap_subset _ _ _ _ hx
      have hx2 := (mem_heapPop OrderSide.BUY hnd).1 hx'
      have := le_heapTop_buy hx2.2
      have hne' := hx2.1
      show heapTop OrderSide.BUY h > x
      omega

/-- A sell heap is drained from the lowest price up. -/
theorem drainHeap_sell_pairwise :
    ∀ (fuel : Nat) (h : List Nat), h.Nodup →
      (drainHeap OrderSide.SELL fuel h).Pairwise (fun a c => a < c) := by
  intro fuel
  induction fuel with
  | zero => intro h _; exact List.Pairwise.nil
  | succ fuel ih =>
    intro h hnd
    unfold drainHeap
    split_ifs with hne
    · exact List.Pairwise.nil
    · refine List.pairwise_cons.2 ⟨?_, ih _ (heapPop_nodup _ hnd)⟩
      intro x hx
      have hx' := drainHeap_subset _ _ _ _ hx
      have hx2 := (mem_heapPop OrderSide.SELL hnd).1 hx'
      have := heapTop_sell_le hx2.2
      have hne' := hx2.1
      show heapTop OrderSide.SELL h < x
      omega

theorem Print_eq_flatMap (b : OrderBook) :
    Print b = (printedPrices b).flatMap (printLevel b.orderMap_) := by
  unfold Print printedPrices
  rw [List.flatMap_append, printHeap_eq_flatMap, printHeap_eq_flatMap]

theorem printedPrices_perm (b : OrderBook) :
    (printedPrices b).Perm (b.buyOrderHeap_ ++ b.sellOrderHeap_) := by
  unfold printedPrices
  exact (drainHeap_perm _ _ _ (Nat.le_refl _)).append (drainHeap_perm _ _ _ (Nat.le_refl _))

/-- The two heaps together hold the keys of `orderMap_`, each once. -/
theorem Inv.heaps_perm_keys {b : OrderBook} (hb : Inv b) :
    (b.buyOrderHeap_ ++ b.sellOrderHeap_).Nodup ∧
      (b.buyOrderHeap_ ++ b.sellOrderHeap_).Perm (b.orderMap_.map Prod.fst) := by
  have hnd : (b.buyOrderHeap_ ++ b.sellOrderHeap_).Nodup := by
    refine List.Nodup.append (hb.heapNodup OrderSide.BUY) (hb.heapNodup OrderSide.SELL) ?_
    intro x hx hx'
    exact Nat.lt_irrefl _ (hb.uncrossed x hx x hx')
  refine ⟨hnd, (List.perm_ext_iff_of_nodup hnd hb.keysNodup).2 ?_⟩
  intro p
  rw [hb.keysHeaps, List.mem_append]
  constructor
  · rintro (h | h)
    · exact ⟨OrderSide.BUY, h⟩
    · exact ⟨OrderSide.SELL, h⟩
  · rintro ⟨s, hs⟩
    cases s
    · exact Or.inr hs
    · exact Or.inl hs

/-- The resting nodes are the queues of the keys, in the order of the keys. -/
theorem restingNodes_eq_flatMap :
    ∀ {m : List (Nat × TimeOrderList)}, (m.map Prod.fst).Nodup →
      restingNodes m = (m.map Prod.fst).flatMap (fun p => (mapFind m p).getD [])
  | [], _ => rfl
  | e :: rest, hnd => by
    have hnd' := hnd
    simp only [List.map_cons, List.nodup_cons] at hnd
    rw [restingNodes_cons, restingNodes_eq_flatMap hnd.2, List.map_cons, List.flatMap_cons]
    have hhead : (mapFind (e :: rest) e.1).getD [] = e.2 := by
      simp [mapFind]
    rw [hhead]
    congr 1
    rw [List.flatMap_def, List.flatMap_def]
    congr 1
    apply List.map_congr_left
    intro p hp
    have hne : e.1 ≠ p := fun h => hnd.1 (h ▸ hp)
    simp [mapFind, hne]

end PrintFacts

section HeapsAndLevels

theorem bookBuyCancelled_reachable : Reachable bookBuyCancelled :=
  Reachable.cancel bookBuy 1 true bookBuyCancelled bookBuy_reachable (by decide)

/-- C17, as stated, fails: after `L B 1 100 5` and `C1` the price 100 is in the
buy heap while the queue `orderMap_` holds at 100 is empty. -/
theorem C17_best_price_index_counterexample :
    Reachable bookBuyCancelled ∧ 100 ∈ bookBuyCancelled.heap OrderSide.BUY ∧
      mapFind bookBuyCancelled.orderMap_ 100 = some [] :=
  ⟨bookBuyCancelled_reachable, by decide, by decide⟩

/-- C17 (best-price index and levels), amended: after every event, every price of
the heap of a side has a queue in `orderMap_`, which holds only orders of that
side and may be empty (after cancellations); and every price at which
`orderMap_` holds an order of a side is in the heap of that side, and in no
other. -/
theorem C17_best_price_index (b : OrderBook) (s : OrderSide) (p : Nat) (hb : Reachable b) :
    (p ∈ b.heap s → ∃ l, mapFind b.orderMap_ p = some l ∧ ∀ n ∈ l, n.order.side = s) ∧
    (∀ l n, mapFind b.orderMap_ p = some l → n ∈ l → n.order.side = s →
      p ∈ b.heap s ∧ p ∉ b.heap s.opposite) := by
  have hi := hb.inv
  constructor
  · intro hp
    obtain ⟨l, hl⟩ := mapFind_isSome_iff.2 ((hi.keysHeaps p).2 ⟨s, hp⟩)
    refine ⟨l, hl, ?_⟩
    intro n hn
    have h1 := (hi.nodes p l hl n hn).2.1
    rcases side_cases s n.order.side with h | h
    · exact h
    · rw [h] at h1
      exact (hi.heaps_disjoint hp h1).elim
  · intro l n hl hn hs
    have h1 := (hi.nodes p l hl n hn).2.1
    rw [hs] at h1
    exact ⟨h1, fun h2 => hi.heaps_disjoint h1 h2⟩

theorem C17_best_price_index_witness :
    Reachable bookBuySell ∧
    ((100 ∈ bookBuySell.heap OrderSide.BUY →
      ∃ l, mapFind bookBuySell.orderMap_ 100 = some l ∧ ∀ n ∈ l, n.order.side = OrderSide.BUY) ∧
    (∀ l n, mapFind bookBuySell.orderMap_ 100 = some l → n ∈ l →
      n.order.side = OrderSide.BUY →
      100 ∈ bookBuySell.heap OrderSide.BUY ∧ 100 ∉ bookBuySell.heap OrderSide.BUY.opposite)) :=
  ⟨bookBuySell_reachable, C17_best_price_index bookBuySell OrderSide.BUY 100 bookBuySell_reachable⟩

/-- The lines of a level whose price is in the heap of side `s`. -/
theorem printLevel_of_heap {b : OrderBook} (hb : Inv b) {s : OrderSide} {p : Nat}
    (hp : p ∈ b.heap s) :
    printLevel b.orderMap_ p = ((mapFind b.orderMap_ p).getD []).map
      (fun n => PrintItem.orderLine s n.order.id p n.order.quantity) := by
  obtain ⟨l, hl⟩ := mapFind_isSome_iff.2 ((hb.keysHeaps p).2 ⟨s, hp⟩)
  unfold printLevel
  rw [hl]
  simp only [Option.getD_some]
  apply List.map_congr_left
  intro n hn
  have hok := hb.nodes p l hl n hn
  have hs : n.order.side = s := by
    rcases side_cases s n.order.side with h | h
    · exact h
    · have h1 := hok.2.1
      rw [h] at h1
      exact (hb.heaps_disjoint hp h1).elim
  unfold orderPrinter
  rw [hs, hok.1]

theorem printLevel_of_key {m : List (Nat × TimeOrderList)} {p : Nat}
    (hp : p ∈ m.map Prod.fst) :
    printLevel m p = ((mapFind m p).getD []).map (fun n => orderPrinter n.order) := by
  obtain ⟨l, hl⟩ := mapFind_isSome_iff.2 hp
  unfold printLevel
  rw [hl]
  rfl

theorem flatMap_congr_mem {α β : Type} {f g : α → List β} :
    ∀ {l : List α}, (∀ x ∈ l, f x = g x) → l.flatMap f = l.flatMap g
  | [], _ => rfl
  | a :: l, h => by
    rw [List.flatMap_cons, List.flatMap_cons, h a (List.mem_cons_self _ _),
      flatMap_congr_mem (fun x hx => h x (List.mem_cons_of_mem _ hx))]

/-- C19 (heap and level structure): in every reachable book the keys of
`orderMap_` are distinct, the prices of the two heaps together are distinct and
are exactly those keys, and every buy-heap price is below every sell-heap price;
so `Print` writes no internal error, visits no price twice, and prints the
queue of each price it visits once. -/
theorem C19_heap_level_structure (b : OrderBook) (hb : Reachable b) :
    (b.orderMap_.map Prod.fst).Nodup ∧
    (b.buyOrderHeap_ ++ b.sellOrderHeap_).Nodup ∧
    (b.buyOrderHeap_ ++ b.sellOrderHeap_).Perm (b.orderMap_.map Prod.fst) ∧
    (∀ pb ∈ b.buyOrderHeap_, ∀ ps ∈ b.sellOrderHeap_, pb < ps) ∧
    (∀ p, PrintItem.internalError p ∉ Print b) ∧
    (printedPrices b).Nodup ∧
    Print b = (printedPrices b).flatMap
      (fun p => ((mapFind b.orderMap_ p).getD []).map (fun n => orderPrinter n.order)) := by
  have hi := hb.inv
  obtain ⟨hnd, hperm⟩ := hi.heaps_perm_keys
  have hkey : ∀ p ∈ printedPrices b, p ∈ b.orderMap_.map Prod.fst := by
    intro p hp
    exact hperm.mem_iff.1 ((printedPrices_perm b).mem_iff.1 hp)
  have hprint : Print b = (printedPrices b).flatMap
      (fun p => ((mapFind b.orderMap_ p).getD []).map (fun n => orderPrinter n.order)) := by
    rw [Print_eq_flatMap]
    exact flatMap_congr_mem (fun p hp => printLevel_of_key (hkey p hp))
  refine ⟨hi.keysNodup, hnd, hperm, hi.uncrossed, ?_,
    (List.Perm.nodup_iff (printedPrices_perm b)).2 hnd, hprint⟩
  intro p hp
  rw [hprint, List.mem_flatMap] at hp
  obtain ⟨q, _, hq⟩ := hp
  obtain ⟨n, _, hn⟩ := List.mem_map.1 hq
  cases hn

theorem C19_heap_level_structure_witness :
    Reachable bookBuySell ∧
    ((bookBuySell.orderMap_.map Prod.fst).Nodup ∧
    (bookBuySell.buyOrderHeap_ ++ bookBuySell.sellOrderHeap_).Nodup ∧
    (bookBuySell.buyOrderHeap_ ++ bookBuySell.sellOrderHeap_).Perm
      (bookBuySell.orderMap_.map Prod.fst) ∧
    (∀ pb ∈ bookBuySell.buyOrderHeap_, ∀ ps ∈ bookBuySell.sellOrderHeap_, pb < ps) ∧
    (∀ p, PrintItem.internalError p ∉ Print bookBuySell) ∧
    (printedPrices bookBuySell).Nodup ∧
    Print bookBuySell = (printedPrices bookBuySell).flatMap
      (fun p => ((mapFind bookBuySell.orderMap_ p).getD []).map
        (fun n => orderPrinter n.order))) :=
  ⟨bookBuySell_reachable, C19_heap_level_structure bookBuySell bookBuySell_reachable⟩

end HeapsAndLevels

section Snapshot

/-- C12 (snapshot content and order): for every reachable book, `Print` writes
the buy levels from the highest price down and then the sell levels from the
lowest price up, each level as the lines (side, id, price, visible quantity) of
its queue from front to back; and the lines written are the lines of the
resting orders, each written once, and nothing else. -/
theorem C12_snapshot (b : OrderBook) (hb : Reachable b) :
    ∃ buyPrices sellPrices : List Nat,
      buyPrices.Pairwise (fun a c => a > c) ∧ sellPrices.Pairwise (fun a c => a < c) ∧
      Print b =
        buyPrices.flatMap (fun p => ((mapFind b.orderMap_ p).getD []).map
          (fun n => PrintItem.orderLine OrderSide.BUY n.order.id p n.order.quantity)) ++
        sellPrices.flatMap (fun p => ((mapFind b.orderMap_ p).getD []).map
          (fun n => PrintItem.orderLine OrderSide.SELL n.order.id p n.order.quantity)) ∧
      ((restingNodes b.orderMap_).map (fun n => orderPrinter n.order)).Perm (Print b) := by
  have hi := hb.inv
  refine ⟨drainHeap OrderSide.BUY b.buyOrderHeap_.length b.buyOrderHeap_,
    drainHeap OrderSide.SELL b.sellOrderHeap_.length b.sellOrderHeap_,
    drainHeap_buy_pairwise _ _ (hi.heapNodup OrderSide.BUY),
    drainHeap_sell_pairwise _ _ (hi.heapNodup OrderSide.SELL), ?_, ?_⟩
  · unfold Print
    rw [printHeap_eq_flatMap, printHeap_eq_flatMap]
    congr 1
    · exact flatMap_congr_mem (fun p hp =>
        printLevel_of_heap hi (s := OrderSide.BUY) (drainHeap_subset _ _ _ p hp))
    · exact flatMap_congr_mem (fun p hp =>
        printLevel_of_heap hi (s := OrderSide.SELL) (drainHeap_subset _ _ _ p hp))
  · obtain ⟨_, hperm⟩ := hi.heaps_perm_keys
    have hkey : ∀ p ∈ printedPrices b, p ∈ b.orderMap_.map Prod.fst := by
      intro p hp
      exact hperm.mem_iff.1 ((printedPrices_perm b).mem_iff.1 hp)
    have hprint : Print b = ((printedPrices b).flatMap
        (fun p => (mapFind b.orderMap_ p).getD [])).map (fun n => orderPrinter n.order) := by
      rw [Print_eq_flatMap, List.map_flatMap]
      exact flatMap_congr_mem (fun p hp => printLevel_of_key (hkey p hp))
    rw [hprint, restingNodes_eq_flatMap hi.keysNodup]
    exact (List.Perm.flatMap_right _ (((printedPrices_perm b).trans hperm).symm)).map _

theorem C12_snapshot_witness :
    Reachable bookBuySell ∧
    ∃ buyPrices sellPrices : List Nat,
      buyPrices.Pairwise (fun a c => a > c) ∧ sellPrices.Pairwise (fun a c => a < c) ∧
      Print bookBuySell =
        buyPrices.flatMap (fun p => ((mapFind bookBuySell.orderMap_ p).getD []).map
          (fun n => PrintItem.orderLine OrderSide.BUY n.order.id p n.order.quantity)) ++
        sellPrices.flatMap (fun p => ((mapFind bookBuySell.orderMap_ p).getD []).map
          (fun n => PrintItem.orderLine OrderSide.SELL n.order.id p n.order.quantity)) ∧
      ((restingNodes bookBuySell.orderMap_).map (fun n => orderPrinter n.order)).Perm
        (Print bookBuySell) :=
  ⟨bookBuySell_reachable, C12_snapshot bookBuySell bookBuySell_reachable⟩

/-- C13, as stated, fails: after `I S 1 100 100 10`, `L S 2 100 10`,
`L B 3 100 15` the trades are the two stated, but order 2 keeps the 5 shares
that were not traded, so the snapshot is not the single line `O S 1 100 10`. -/
theorem C13_scenario_e_counterexample :
    AddOrder 5 OrderBook.empty (Order.create 100 100 1 OrderSide.SELL 10) =
        some (bookIceberg, []) ∧
      AddOrder 5 bookIceberg (Order.create 100 10 2 OrderSide.SELL 0) =
        some (bookIcebergPlain, []) ∧
      AddOrder 5 bookIcebergPlain (Order.create 100 15 3 OrderSide.BUY 0) =
        some (bookScenarioE, [Trade.mk 3 1 100 10, Trade.mk 3 2 100 5]) ∧
      Print bookScenarioE ≠ [PrintItem.orderLine OrderSide.SELL 1 100 10] :=
  ⟨by decide, by decide, by decide, by decide⟩

/-- C13 (scenario E), amended: from the empty book the events
`I S 1 100 100 10`, `L S 2 100 10`, `L B 3 100 15` give the trades `M 3 1 100 10`
and `M 3 2 100 5` in that order, and the snapshot is the two lines `O S 2 100 5`,
`O S 1 100 10`. -/
theorem C13_scenario_e :
    AddOrder 5 OrderBook.empty (Order.create 100 100 1 OrderSide.SELL 10) =
        some (bookIceberg, []) ∧
      AddOrder 5 bookIceberg (Order.create 100 10 2 OrderSide.SELL 0) =
        some (bookIcebergPlain, []) ∧
      AddOrder 5 bookIcebergPlain (Order.create 100 15 3 OrderSide.BUY 0) =
        some (bookScenarioE, [Trade.mk 3 1 100 10, Trade.mk 3 2 100 5]) ∧
      Print bookScenarioE =
        [PrintItem.orderLine OrderSide.SELL 2 100 5, PrintItem.orderLine OrderSide.SELL 1 100 10] :=
  ⟨by decide, by decide, by decide, by decide⟩

end Snapshot

section RoundTrip

theorem mapSet_self {β : Type} {m : List (Nat × β)} {k : Nat} {v : β}
    (h : mapFind m k = some v) : mapSet m k v = m := by
  induction m with
  | nil => cases h
  | cons e rest ih =>
    by_cases hk : e.1 = k
    · rw [mapSet_cons_eq _ _ hk]
      unfold mapFind at h
      rw [if_pos hk] at h
      have := Option.some.inj h
      cases e
      simp only at hk this
      rw [hk, this]
    · rw [mapSet_cons_ne _ _ hk]
      unfold mapFind at h
      rw [if_neg hk] at h
      rw [ih h]

/-- An order whose price is in the heap of its own side crosses nothing: the loop
exits at once. -/
theorem matchStep_none_of_own {b : OrderBook} (hb : Inv b) {o : Order}
    (hp : o.price ∈ b.heap o.side) : matchStep o.side o.price (initMatch b o) = none := by
  cases hs : matchStep o.side o.price (initMatch b o) with
  | none => rfl
  | some st' =>
    exfalso
    obtain ⟨_, hne, hx, _⟩ := matchStep_some hs
    have htop := heapTop_mem o.side.opposite hne
    have hne' : (initMatch b o).book = b := rfl
    rw [hne'] at htop hx
    generalize heapTop o.side.opposite (b.heap o.side.opposite) = top at htop hx
    cases hside : o.side
    · rw [hside] at hp htop hx
      have := hb.uncrossed top htop o.price hp
      simp only [MatchPriceComparator, decide_eq_true_eq] at hx
      omega
    · rw [hside] at hp htop hx
      have := hb.uncrossed o.price hp top htop
      simp only [MatchPriceComparator, decide_eq_true_eq] at hx
      omega

/-- C11, as stated, fails: `L B 1 100 5` on the empty book crosses nothing, and
after `C1` the level 100 (now empty) and the price 100 in the buy heap remain. -/
theorem C11_submit_cancel_counterexample :
    Reachable OrderBook.empty ∧ 0 < (Order.create 100 5 1 OrderSide.BUY 0).quantity ∧
      (Order.create 100 5 1 OrderSide.BUY 0).id ∉ restingIds OrderBook.empty ∧
      AddOrder 5 OrderBook.empty (Order.create 100 5 1 OrderSide.BUY 0) = some (bookBuy, []) ∧
      CancelOrder bookBuy 1 = some (true, bookBuyCancelled) ∧
      bookBuyCancelled.orderMap_ ≠ OrderBook.empty.orderMap_ ∧
      bookBuyCancelled.buyOrderHeap_ ≠ OrderBook.empty.buyOrderHeap_ :=
  ⟨Reachable.empty, by decide, by decide, by decide, by decide, by decide, by decide⟩

theorem matchStep_none_of_nocross {side : OrderSide} {price : Nat} {st : MatchState}
    (hx : ∀ x ∈ st.book.heap side.opposite, MatchPriceComparator side x price = false) :
    matchStep side price st = none := by
  cases hs : matchStep side price st with
  | none => rfl
  | some st' =>
    exfalso
    obtain ⟨_, hne, hc, _⟩ := matchStep_some hs
    rw [hx _ (heapTop_mem side.opposite hne)] at hc
    cases hc

/-- Resting an order that matched nothing and then cancelling its id: the node
leaves the level again, the index entry is erased, the heaps stay as `AddOrder`
left them. -/
theorem cancel_after_rest {b : OrderBook} {o : Order} (hi : Inv b)
    (hinv' : Inv (restOrder o.side o (initMatch b o))) (hq : 0 < o.quantity)
    (hid : o.id ∉ restingIds b) :
    ∃ b'', CancelOrder (restOrder o.side o (initMatch b o)) o.id = some (true, b'') ∧
      b''.orderMap_ = mapSet b.orderMap_ o.price ((mapFind b.orderMap_ o.price).getD []) ∧
      b''.orders_ = b.orders_ ∧
      ∀ s, b''.heap s = (restOrder o.side o (initMatch b o)).heap s := by
  have hpos : 0 < (initMatch b o).tempQuantity := hq
  have hfind : mapFind (restOrder o.side o (initMatch b o)).orderMap_ o.price =
      some ((mapFind b.orderMap_ o.price).getD [] ++
        [ListNode.mk b.nextIter (restSplit o o.quantity)]) := by
    rw [restOrder_find _ _ _ hpos, if_pos rfl]
    rfl
  have hmap : (restOrder o.side o (initMatch b o)).orderMap_ = mapSet b.orderMap_ o.price
      ((mapFind b.orderMap_ o.price).getD [] ++
        [ListNode.mk b.nextIter (restSplit o o.quantity)]) := by
    rw [restOrder_orderMap _ _ _ hpos]
    rfl
  have hord : (restOrder o.side o (initMatch b o)).orders_ =
      mapSet b.orders_ o.id b.nextIter := by
    rw [restOrder_orders _ _ _ hpos]
    rfl
  have hf : mapFind (restOrder o.side o (initMatch b o)).orders_ o.id = some b.nextIter := by
    rw [hord]; exact mapFind_mapSet_same _ _ _
  obtain ⟨l, n, hl, hn, hni, _, hc⟩ := cancel_found hinv' hf
  have hnode : ListNode.mk b.nextIter (restSplit o o.quantity) ∈
      (mapFind b.orderMap_ o.price).getD [] ++
        [ListNode.mk b.nextIter (restSplit o o.quantity)] :=
    List.mem_append_right _ (List.mem_singleton_self _)
  obtain ⟨_, hnn⟩ := hinv'.iter_inj hl hfind hn hnode hni
  subst hnn
  simp only [restSplit_price] at hl hc
  rw [hfind] at hl
  have hl' := Option.some.inj hl
  subst hl'
  have hnot : ListNode.mk b.nextIter (restSplit o o.quantity) ∉
      (mapFind b.orderMap_ o.price).getD [] := by
    intro hmem
    have := (hi.nodes _ _ (mem_getD_nil hmem) _ hmem).2.2.2.2
    simp only at this
    omega
  refine ⟨_, hc, ?_, ?_, ?_⟩
  · show mapSet (restOrder o.side o (initMatch b o)).orderMap_ _ _ = _
    rw [List.erase_append_right _ hnot, hmap]
    simp only [List.erase_cons_head, List.append_nil, mapSet_mapSet_same]
  · show mapErase (restOrder o.side o (initMatch b o)).orders_ o.id = _
    rw [hord, mapErase_mapSet_same]
    exact mapErase_of_not_mem (mapFind_eq_none_iff.1 (hi.index_none hid))
  · intro s
    cases s <;> rfl

/-- C11 (submit then cancel), amended: on a reachable book take an order built by
the constructor with a positive quantity and an id that does not rest.
(a) When its price already is in the heap of its own side (the book holds a
queue at that price, possibly empty) it trades nothing, and `AddOrder` followed
by `CancelOrder` of its id returns `true` and gives back the price levels, both
heaps and the id index of the book before the submission.
(b) When the book has no level at its price and no price of the opposite heap
crosses it, it trades nothing, and after `AddOrder` and `CancelOrder` the id
index and the opposite heap are as before, while the level created for it (now
empty) and its price in the heap of its side remain. -/
theorem C11_submit_cancel (b : OrderBook) (o : Order) (hb : Reachable b)
    (ho : o.hiddenQuantity = 0) (hq : 0 < o.quantity) (hid : o.id ∉ restingIds b) :
    (∃ fuel r, AddOrder fuel b o = some r) ∧
      (o.price ∈ b.heap o.side →
        ∀ fuel b' trades, AddOrder fuel b o = some (b', trades) →
          trades = [] ∧
          ∃ b'', CancelOrder b' o.id = some (true, b'') ∧
            b''.orderMap_ = b.orderMap_ ∧ b''.buyOrderHeap_ = b.buyOrderHeap_ ∧
            b''.sellOrderHeap_ = b.sellOrderHeap_ ∧ b''.orders_ = b.orders_) ∧
      (o.price ∉ b.orderMap_.map Prod.fst →
        (∀ x ∈ b.heap o.side.opposite, MatchPriceComparator o.side x o.price = false) →
        ∀ fuel b' trades, AddOrder fuel b o = some (b', trades) →
          trades = [] ∧
          ∃ b'', CancelOrder b' o.id = some (true, b'') ∧
            b''.orderMap_ = b.orderMap_ ++ [(o.price, [])] ∧
            b''.heap o.side = heapPush (b.heap o.side) o.price ∧
            b''.heap o.side.opposite = b.heap o.side.opposite ∧ b''.orders_ = b.orders_) := by
  have hi := hb.inv
  refine ⟨AddOrder_terminates hi o, ?_, ?_⟩
  · intro hp fuel b' trades h
    have hinv' := hi.add ho h
    obtain ⟨st, hloop, hb', htr⟩ := AddOrder_some h
    have hst := matchLoop_of_none (matchStep_none_of_own hi hp) hloop
    subst hst
    subst hb'
    have hpos : 0 < (initMatch b o).tempQuantity := hq
    refine ⟨htr, ?_⟩
    obtain ⟨l0, hl0⟩ := mapFind_isSome_iff.2 ((hi.keysHeaps o.price).2 ⟨o.side, hp⟩)
    obtain ⟨b'', hc, hm, hord, hheap⟩ := cancel_after_rest hi hinv' hq hid
    have hheap' : ∀ s, b''.heap s = b.heap s := by
      intro s
      rw [hheap s]
      rcases side_cases o.side s with hs | hs
      · rw [hs, restOrder_heap_same _ _ _ hpos]
        have : mapFind (initMatch b o).book.orderMap_ o.price ≠ none := by
          show mapFind b.orderMap_ o.price ≠ none
          rw [hl0]; exact Option.some_ne_none _
        rw [if_neg this]
        rfl
      · rw [hs, restOrder_heap_opposite]
        rfl
    refine ⟨b'', hc, ?_, hheap' OrderSide.BUY, hheap' OrderSide.SELL, hord⟩
    rw [hm, hl0]
    exact mapSet_self hl0
  · intro hkey hx fuel b' trades h
    have hinv' := hi.add ho h
    obtain ⟨st, hloop, hb', htr⟩ := AddOrder_some h
    have hx0 : ∀ x ∈ (initMatch b o).book.heap o.side.opposite,
        MatchPriceComparator o.side x o.price = false := hx
    have hst := matchLoop_of_none (matchStep_none_of_nocross hx0) hloop
    subst hst
    subst hb'
    have hpos : 0 < (initMatch b o).tempQuantity := hq
    refine ⟨htr, ?_⟩
    have hnone : mapFind b.orderMap_ o.price = none := mapFind_eq_none_iff.2 hkey
    obtain ⟨b'', hc, hm, hord, hheap⟩ := cancel_after_rest hi hinv' hq hid
    refine ⟨b'', hc, ?_, ?_, ?_, hord⟩
    · rw [hm, hnone]
      exact mapSet_of_not_mem _ hkey
    · rw [hheap, restOrder_heap_same _ _ _ hpos]
      have : mapFind (initMatch b o).book.orderMap_ o.price = none := hnone
      rw [if_pos this]
      rfl
    · rw [hheap, restOrder_heap_opposite]
      rfl

theorem C11_submit_cancel_witness :
    Reachable bookBuySell ∧ (Order.create 100 7 3 OrderSide.BUY 0).hiddenQuantity = 0 ∧
    0 < (Order.create 100 7 3 OrderSide.BUY 0).quantity ∧
    (Order.create 100 7 3 OrderSide.BUY 0).id ∉ restingIds bookBuySell ∧
    (Order.create 100 7 3 OrderSide.BUY 0).price ∈
      bookBuySell.heap (Order.create 100 7 3 OrderSide.BUY 0).side ∧
    ∀ fuel b' trades,
      AddOrder fuel bookBuySell (Order.create 100 7 3 OrderSide.BUY 0) = some (b', trades) →
      trades = [] ∧
      ∃ b'', CancelOrder b' (Order.create 100 7 3 OrderSide.BUY 0).id = some (true, b'') ∧
        b''.orderMap_ = bookBuySell.orderMap_ ∧
        b''.buyOrderHeap_ = bookBuySell.buyOrderHeap_ ∧
        b''.sellOrderHeap_ = bookBuySell.sellOrderHeap_ ∧
        b''.orders_ = bookBuySell.orders_ :=
  ⟨bookBuySell_reachable, rfl, by decide, by decide, by decide,
    (C11_submit_cancel bookBuySell (Order.create 100 7 3 OrderSide.BUY 0) bookBuySell_reachable
      rfl (by decide) (by decide)).2.1 (by decide)⟩

end RoundTrip

section EntrySplit

/-- The node a fill keeps for the front order is the one `fillOrder` describes. -/
theorem mem_fillQueue_fillOrder {front n : ListNode} {rest : TimeOrderList} {q : Nat}
    (h : n ∈ fillQueue front rest q) :
    n ∈ rest ∨ n = ListNode.mk front.iter (fillOrder front.order q) := by
  unfold fillQueue at h
  unfold fillOrder
  simp only [] at h ⊢
  split_ifs at h ⊢ with h0 hh
  · rcases List.mem_append.1 h with h | h
    · exact Or.inl h
    · exact Or.inr (List.mem_singleton.1 h)
  · exact Or.inl h
  · rcases List.mem_cons.1 h with h | h
    · exact Or.inr h
    · exact Or.inl h

theorem fillOrderMany_append (o : Order) (l1 l2 : List Nat) :
    fillOrderMany o (l1 ++ l2) = fillOrderMany (fillOrderMany o l1) l2 := by
  induction l1 generalizing o with
  | nil => rfl
  | cons a l1 ih => exact ih (fillOrder o a)

theorem mod_add_of_lt {s a k : Nat} (h : s % k + a < k) : (s + a) % k = s % k + a := by
  have ha : a < k := by omega
  rw [Nat.add_mod, Nat.mod_eq_of_lt ha, Nat.mod_eq_of_lt h]

theorem mod_add_complement {s k : Nat} (hk : 0 < k) : (s + (k - s % k)) % k = 0 := by
  have h1 := Nat.div_add_mod s k
  have h2 : k * (s / k + 1) = k * (s / k) + k := Nat.mul_succ _ _
  have h3 := Nat.mod_lt s hk
  have h4 : s + (k - s % k) = k * (s / k + 1) := by omega
  rw [h4]
  exact Nat.mul_mod_right _ _

/-- The state of an iceberg of quantity `q` and peak `k` rested untouched, after
`s` shares were filled: visible `k - s mod k`, hidden the rest of `q - s`. -/
theorem fillOrderMany_split (o : Order) (t : Nat) (hk : 0 < o.peakSize)
    (ht : o.peakSize < o.quantity - t) :
    ∀ (fills : List Nat) (s : Nat), s + fills.sum = t →
      ValidFills (Order.mk o.price (o.peakSize - s % o.peakSize)
        (o.quantity - s - (o.peakSize - s % o.peakSize)) o.peakSize o.id o.side) fills →
      fillOrderMany (Order.mk o.price (o.peakSize - s % o.peakSize)
        (o.quantity - s - (o.peakSize - s % o.peakSize)) o.peakSize o.id o.side) fills =
        Order.mk o.price (o.peakSize - t % o.peakSize)
          (o.quantity - t - (o.peakSize - t % o.peakSize)) o.peakSize o.id o.side := by
  intro fills
  induction fills with
  | nil =>
    intro s hs _
    simp only [List.sum_nil, Nat.add_zero] at hs
    subst hs
    rfl
  | cons a fills ih =>
    intro s hs hv
    simp only [List.sum_cons] at hs
    obtain ⟨ha, hv'⟩ := hv
    simp only at ha
    have hmod := Nat.mod_lt s hk
    have hstep : fillOrder (Order.mk o.price (o.peakSize - s % o.peakSize)
          (o.quantity - s - (o.peakSize - s % o.peakSize)) o.peakSize o.id o.side) a =
        Order.mk o.price (o.peakSize - (s + a) % o.peakSize)
          (o.quantity - (s + a) - (o.peakSize - (s + a) % o.peakSize)) o.peakSize o.id
          o.side := by
      unfold fillOrder refillOrder
      simp only []
      by_cases hz : o.peakSize - s % o.peakSize - a = 0
      · have hae : a = o.peakSize - s % o.peakSize := by omega
        have hm : (s + a) % o.peakSize = 0 := by rw [hae]; exact mod_add_complement hk
        have hh : o.quantity - s - (o.peakSize - s % o.peakSize) ≠ 0 := by omega
        rw [if_pos hz, if_pos hh, hm]
        have hmin : min (o.quantity - s - (o.peakSize - s % o.peakSize)) o.peakSize =
            o.peakSize := by
          apply Nat.min_eq_right
          omega
        rw [hmin]
        have e1 : o.peakSize - 0 = o.peakSize := Nat.sub_zero _
        have e2 : o.quantity - s - (o.peakSize - s % o.peakSize) - o.peakSize =
            o.quantity - (s + a) - (o.peakSize - 0) := by omega
        rw [e1, e2, e1]
      · have hlt : s % o.peakSize + a < o.peakSize := by omega
        have hm := mod_add_of_lt hlt
        rw [if_neg hz, hm]
        have e1 : o.peakSize - s % o.peakSize - a = o.peakSize - (s % o.peakSize + a) := by
          omega
        have e2 : o.quantity - s - (o.peakSize - s % o.peakSize) =
            o.quantity - (s + a) - (o.peakSize - (s % o.peakSize + a)) := by omega
        rw [e1, e2]
    show fillOrderMany (fillOrder _ a) fills = _
    rw [hstep]
    rw [hstep] at hv'
    exact ih (s + a) (by omega) hv'

/-- C20 (aggressive entry equals passive rest then hit): for an iceberg of
quantity `q` and peak size `k > 0` that trades `t` on entry with `q - t > k`,
the order the entry split of `AddOrderInternal` builds is the order obtained by
resting it untouched (visible `k`, hidden `q - k`) and then applying the fill
and replenish rule of the matching loop for any sequence of fills, each at most
the visible quantity of the moment, whose sum is `t`. -/
theorem C20_entry_equals_passive (o : Order) (t : Nat) (fills : List Nat)
    (hk : 0 < o.peakSize) (ht : o.peakSize < o.quantity - t)
    (hsum : fills.sum = t) (hvalid : ValidFills (restSplit o o.quantity) fills) :
    (restSplit o o.quantity).quantity = o.peakSize ∧
    (restSplit o o.quantity).hiddenQuantity = o.quantity - o.peakSize ∧
    restSplit o (o.quantity - t) = fillOrderMany (restSplit o o.quantity) fills := by
  have hq : o.peakSize < o.quantity := by omega
  have hrest : restSplit o o.quantity =
      Order.mk o.price (o.peakSize - 0 % o.peakSize)
        (o.quantity - 0 - (o.peakSize - 0 % o.peakSize)) o.peakSize o.id o.side := by
    unfold restSplit
    rw [if_pos ⟨hk, hq⟩]
    simp
  have hentry : restSplit o (o.quantity - t) =
      Order.mk o.price (o.peakSize - t % o.peakSize)
        (o.quantity - t - (o.peakSize - t % o.peakSize)) o.peakSize o.id o.side := by
    unfold restSplit
    rw [if_pos ⟨hk, ht⟩]
    have : o.quantity - (o.quantity - t) = t := by omega
    simp only [this]
  refine ⟨?_, ?_, ?_⟩
  · rw [hrest]; simp
  · rw [hrest]; simp
  · rw [hentry]
    rw [hrest] at hvalid ⊢
    exact (fillOrderMany_split o t hk ht fills 0 (by omega) hvalid).symm

theorem C20_entry_equals_passive_witness :
    0 < (Order.create 100 25 2 OrderSide.BUY 10).peakSize ∧
    (Order.create 100 25 2 OrderSide.BUY 10).peakSize <
      (Order.create 100 25 2 OrderSide.BUY 10).quantity - 12 ∧
    [4, 6, 2].sum = 12 ∧
    ValidFills (restSplit (Order.create 100 25 2 OrderSide.BUY 10)
      (Order.create 100 25 2 OrderSide.BUY 10).quantity) [4, 6, 2] ∧
    ((restSplit (Order.create 100 25 2 OrderSide.BUY 10)
        (Order.create 100 25 2 OrderSide.BUY 10).quantity).quantity =
      (Order.create 100 25 2 OrderSide.BUY 10).peakSize ∧
    (restSplit (Order.create 100 25 2 OrderSide.BUY 10)
        (Order.create 100 25 2 OrderSide.BUY 10).quantity).hiddenQuantity =
      (Order.create 100 25 2 OrderSide.BUY 10).quantity -
        (Order.create 100 25 2 OrderSide.BUY 10).peakSize ∧
    restSplit (Order.create 100 25 2 OrderSide.BUY 10)
        ((Order.create 100 25 2 OrderSide.BUY 10).quantity - 12) =
      fillOrderMany (restSplit (Order.create 100 25 2 OrderSide.BUY 10)
        (Order.create 100 25 2 OrderSide.BUY 10).quantity) [4, 6, 2]) :=
  ⟨by decide, by decide, by decide, ⟨by decide, by decide, by decide, trivial⟩,
    C20_entry_equals_passive (Order.create 100 25 2 OrderSide.BUY 10) 12 [4, 6, 2]
      (by decide) (by decide) (by decide) ⟨by decide, by decide, by decide, trivial⟩⟩

end EntrySplit

section UniformRefill

/-- Fills that leave part of the visible quantity only reduce it. -/
theorem fillOrderMany_partial : ∀ (fills : List Nat) (r : Order), fills.sum < r.quantity →
    fillOrderMany r fills =
      Order.mk r.price (r.quantity - fills.sum) r.hiddenQuantity r.peakSize r.id r.side := by
  intro fills
  induction fills with
  | nil => intro r _; rfl
  | cons a fills ih =>
    intro r h
    simp only [List.sum_cons] at h
    have hne : r.quantity - a ≠ 0 := by omega
    have hstep : fillOrder r a =
        Order.mk r.price (r.quantity - a) r.hiddenQuantity r.peakSize r.id r.side := by
      unfold fillOrder
      simp only []
      rw [if_neg hne]
    show fillOrderMany (fillOrder r a) fills = _
    rw [hstep, ih _ (by show fills.sum < r.quantity - a; omega)]
    simp only [List.sum_cons, Nat.sub_sub]

/-- Fills whose sum is at most the visible quantity are each at most the visible
quantity of the moment. -/
theorem validFills_of_sum_le : ∀ (fills : List Nat) (r : Order), fills.sum ≤ r.quantity →
    ValidFills r fills := by
  intro fills
  induction fills with
  | nil => intro r _; trivial
  | cons a fills ih =>
    intro r h
    simp only [List.sum_cons] at h
    refine ⟨by omega, ?_⟩
    by_cases hz : r.quantity - a = 0
    · have hf : fills.sum = 0 := by omega
      exact ih _ (by omega)
    · have hstep : fillOrder r a =
          Order.mk r.price (r.quantity - a) r.hiddenQuantity r.peakSize r.id r.side := by
        unfold fillOrder
        simp only []
        rw [if_neg hz]
      rw [hstep]
      exact ih _ (by show fills.sum ≤ r.quantity - a; omega)

theorem bookSellThree_reachable : Reachable bookSellThree :=
  Reachable.add OrderBook.empty (Order.create 100 3 1 OrderSide.SELL 0) 5 bookSellThree []
    Reachable.empty rfl rfl

/-- C18 (refill after entry-time trading), as stated, fails: after `L S 1 100 3`
the iceberg `I B 2 100 15 10` trades 3 on entry and rests with visible 7 and
hidden 5; `L S 3 100 7` then consumes the visible slice and the replenishment
exposes 5 shares, not the peak size 10. -/
theorem C18_uniform_refill_counterexample :
    Reachable bookSellThree ∧
    (Order.create 100 15 2 OrderSide.BUY 10).peakSize = 10 ∧
    AddOrder 5 bookSellThree (Order.create 100 15 2 OrderSide.BUY 10) =
      some (bookIcebergShort, [Trade.mk 2 1 100 3]) ∧
    mapFind bookIcebergShort.orderMap_ 100 =
      some [ListNode.mk 1 (Order.mk 100 7 5 10 2 OrderSide.BUY)] ∧
    AddOrder 5 bookIcebergShort (Order.create 100 7 3 OrderSide.SELL 0) =
      some (bookIcebergShortRefilled, [Trade.mk 2 3 100 7]) ∧
    mapFind bookIcebergShortRefilled.orderMap_ 100 =
      some [ListNode.mk 1 (Order.mk 100 5 0 10 2 OrderSide.BUY)] ∧
    (fillOrderMany (Order.mk 100 7 5 10 2 OrderSide.BUY) [7]).quantity = 5 :=
  ⟨bookSellThree_reachable, rfl, rfl, rfl, rfl, rfl, rfl⟩

/-- C18 (refill after entry-time trading), amended: on a reachable book, an
iceberg of peak size `k > 0` whose entry leaves more than `k` shares rests as
the last node of its level as `r`, the order of the entry split, with hidden
quantity `> 0`; fills that leave part of its visible slice do not touch the
hidden quantity, and the fill that consumes the slice makes the replenishment
expose `min(hidden, k)` shares: exactly `k` when at least `k` shares are hidden,
and all the hidden shares, fewer than `k`, otherwise. -/
theorem C18_uniform_refill (b : OrderBook) (o : Order) (fuel : Nat) (b' : OrderBook)
    (trades : List Trade) (r : Order) (hb : Reachable b) (ho : o.hiddenQuantity = 0)
    (hk : 0 < o.peakSize) (hadd : AddOrder fuel b o = some (b', trades))
    (hrest : o.peakSize < o.quantity - (trades.map Trade.quantity).sum)
    (hr : r = restSplit o (o.quantity - (trades.map Trade.quantity).sum)) :
    (∃ old, mapFind b'.orderMap_ o.price = some (old ++ [ListNode.mk b.nextIter r])) ∧
    r.id = o.id ∧ r.peakSize = o.peakSize ∧ 0 < r.quantity ∧ r.quantity ≤ o.peakSize ∧
    0 < r.hiddenQuantity ∧
    r.quantity + r.hiddenQuantity = o.quantity - (trades.map Trade.quantity).sum ∧
    ∀ fills last, fills.sum + last = r.quantity → 0 < last →
      ValidFills r (fills ++ [last]) ∧
      (fillOrderMany r fills).quantity = last ∧
      (fillOrderMany r fills).hiddenQuantity = r.hiddenQuantity ∧
      (fillOrderMany r (fills ++ [last])).quantity = min r.hiddenQuantity o.peakSize ∧
      (o.peakSize ≤ r.hiddenQuantity →
        (fillOrderMany r (fills ++ [last])).quantity = o.peakSize) ∧
      (r.hiddenQuantity < o.peakSize →
        (fillOrderMany r (fills ++ [last])).quantity = r.hiddenQuantity ∧
        (fillOrderMany r (fills ++ [last])).hiddenQuantity = 0) := by
  obtain ⟨st, hloop, hb', htr⟩ := AddOrder_some hadd
  have hsum := PrintTrades_sum_left hb.inv hloop
  rw [← htr] at hsum
  have hq : o.quantity - (trades.map Trade.quantity).sum = st.tempQuantity := by omega
  rw [hq] at hr hrest ⊢
  have hpos : 0 < st.tempQuantity := by omega
  have hrq : 0 < r.quantity := by rw [hr]; exact restSplit_quantity_pos o hpos
  have hrle : r.quantity ≤ o.peakSize := by rw [hr]; exact restSplit_quantity_le o _ hk
  have htot : r.quantity + r.hiddenQuantity = st.tempQuantity := by
    rw [hr]; exact restSplit_total o _ ho
  have hrk : r.peakSize = o.peakSize := by rw [hr]; exact restSplit_peakSize o _
  have hhid : 0 < r.hiddenQuantity := by omega
  refine ⟨⟨if o.price ∈ b.heap o.side.opposite then []
      else (mapFind b.orderMap_ o.price).getD [], ?_⟩, ?_, hrk, hrq, hrle, hhid, htot, ?_⟩
  · rw [hb', restOrder_back hb.inv hloop hpos, hr]
  · rw [hr]; exact restSplit_id o _
  · intro fills last hfl hlast
    have hpart := fillOrderMany_partial fills r (by omega)
    have hlq : r.quantity - fills.sum = last := by omega
    have hfin : fillOrderMany r (fills ++ [last]) =
        Order.mk r.price (min r.hiddenQuantity r.peakSize)
          (r.hiddenQuantity - min r.hiddenQuantity r.peakSize) r.peakSize r.id r.side := by
      rw [fillOrderMany_append, hpart, hlq]
      show fillOrder _ last = _
      unfold fillOrder refillOrder
      simp only []
      rw [if_pos (Nat.sub_self last), if_pos (by omega)]
    refine ⟨validFills_of_sum_le _ r (by simp only [List.sum_append, List.sum_singleton]; omega),
      ?_, ?_, ?_, ?_, ?_⟩
    · rw [hpart]; exact hlq
    · rw [hpart]
    · rw [hfin, hrk]
    · intro hle
      rw [hfin, hrk]
      exact Nat.min_eq_right hle
    · intro hlt
      rw [hfin, hrk]
      have hm : min r.hiddenQuantity o.peakSize = r.hiddenQuantity := Nat.min_eq_left (by omega)
      show min r.hiddenQuantity o.peakSize = r.hiddenQuantity ∧
        r.hiddenQuantity - min r.hiddenQuantity o.peakSize = 0
      rw [hm]
      exact ⟨rfl, Nat.sub_self _⟩

theorem C18_uniform_refill_witness :
    Reachable bookBuy ∧ (Order.create 100 40 3 OrderSide.SELL 10).hiddenQuantity = 0 ∧
    0 < (Order.create 100 40 3 OrderSide.SELL 10).peakSize ∧
    AddOrder 5 bookBuy (Order.create 100 40 3 OrderSide.SELL 10) =
      some (bookIcebergEntered, [Trade.mk 1 3 100 5]) ∧
    (Order.create 100 40 3 OrderSide.SELL 10).peakSize <
      (Order.create 100 40 3 OrderSide.SELL 10).quantity -
        ([Trade.mk 1 3 100 5].map Trade.quantity).sum ∧
    Order.mk 100 5 30 10 3 OrderSide.SELL =
      restSplit (Order.create 100 40 3 OrderSide.SELL 10)
        ((Order.create 100 40 3 OrderSide.SELL 10).quantity -
          ([Trade.mk 1 3 100 5].map Trade.quantity).sum) ∧
    (fillOrderMany (Order.mk 100 5 30 10 3 OrderSide.SELL) ([2] ++ [3])).quantity =
      (Order.create 100 40 3 OrderSide.SELL 10).peakSize :=
  ⟨bookBuy_reachable, rfl, by decide, rfl, by decide, rfl,
    ((C18_uniform_refill bookBuy (Order.create 100 40 3 OrderSide.SELL 10) 5
      bookIcebergEntered [Trade.mk 1 3 100 5] (Order.mk 100 5 30 10 3 OrderSide.SELL)
      bookBuy_reachable rfl (by decide) rfl (by decide) rfl).2.2.2.2.2.2.2
        [2] 3 rfl (by decide)).2.2.2.2.1 (by decide)⟩

end UniformRefill

end IcebergOrderBook
